import Mathlib

/-!
Tree nodes of the runtime (`src/runtime/tree.c`)

A shallow embedding of the reference-counted syntax-tree nodes.

* Memory has two stores.  The nodes live in a `Heap`: a list of cells, the cell of
  address `a + 1` at index `a`; address `0` is `NULL`.  `malloc` appends a cell
  (addresses are never reused), `free` empties a cell.  The arrays of children live in
  `Arrays`, addressed the same way; each block records whether it comes from `malloc`.
  Reading or writing through `NULL`, a freed or a never allocated address, reading past
  the end of an array and `free` of what is not a live block from `malloc` are undefined
  behaviour in C and `none` here.
* `ts_tree_make_node` stores the address of the array it is given, without a copy, and
  `ts_tree_release` frees that array with the node (`free(children)`); the array is read
  again, cell by cell, on every traversal.  The contract `obeys` of a caller speaks of
  nodes only; the contract `owning` adds what `free(children)` asks of the caller: every
  array passed is `NULL` or a block from `malloc` that no node points to.
* The array `expected_inputs` of an error node, which `tree.c` never reads or frees, is
  a `List` with its count.
* The union `data` is a two-constructor inductive type; reading the member that
  was not written last is `none`.
* `ts_tree_release`, `ts_tree_equals` and `tree_write_to_string` are recursive
  through pointers, so they take a fuel argument and return `none` when it runs out.
* The character buffers of the serializer are lists of bytes, apart from the two
  stores; `snprintf` stores into them and a store outside the buffer is `none`.
* The header `tree_sitter/runtime.h` is not part of the sources: the reserved
  symbol `ts_builtin_sym_error` is a parameter of every definition that uses it,
  symbols, sizes and offsets are natural numbers, `is_hidden` is a Boolean and
  `ref_count` is an integer (no wrap-around is modelled).
-/

namespace TreeSitter

/-- Modelled from the spec: the type `ts_symbol` is declared in `tree_sitter/runtime.h`,
which is not among the sources; the spec calls it a small-integer identifier. -/
abbrev ts_symbol := Nat

/-- Modelled from the spec: the union `data` of a node is declared in
`tree_sitter/runtime.h`, which is not among the sources.  Its two members are those
`tree.c` uses: `data.children` with `count` and `contents`, the address of the first cell
of an array of `ts_tree *` that is not copied, and `data.error` with `lookahead_char` and
`expected_inputs` (this array, which `tree.c` never reads or frees, with its count
`expected_input_count` being a list). -/
inductive ts_tree_data where
  | children (count : Nat) (contents : Nat)
  | error (lookahead_char : Nat) (expected_inputs : List ts_symbol)
  deriving DecidableEq

/-- Modelled from the spec: the struct `ts_tree` is declared in `tree_sitter/runtime.h`,
which is not among the sources.  The members are those `tree.c` uses; after the spec's
data model `ref_count` is an integer, `size` and `offset` are unsigned and `is_hidden` is
a Boolean. -/
structure ts_tree where
  ref_count : Int
  symbol : ts_symbol
  size : Nat
  offset : Nat
  is_hidden : Bool
  data : ts_tree_data
  deriving DecidableEq

/-- The store of nodes. -/
abbrev Heap := List (Option ts_tree)

/-- The node at address `p`, when `p` is allocated and not freed. -/
def deref (h : Heap) (p : Nat) : Option ts_tree :=
  match p with
  | 0 => none
  | a + 1 =>
    match h[a]? with
    | some (some t) => some t
    | _ => none

/-- Overwrite the cell at address `p`. -/
def write (h : Heap) (p : Nat) (v : Option ts_tree) : Heap :=
  match p with
  | 0 => h
  | a + 1 => h.set a v

/-- Allocation: a fresh cell at the end of the heap. -/
def malloc (h : Heap) (t : ts_tree) : Heap × Nat :=
  (h ++ [some t], h.length + 1)

/-- Deallocation of a node: the cell becomes empty; freeing what is not a live node is
undefined. -/
def free (h : Heap) (p : Nat) : Option Heap :=
  match deref h p with
  | some _ => some (write h p none)
  | none => none

/-- Assignment to the union member `data` of the node at `p`. -/
def set_data (h : Heap) (p : Nat) (d : ts_tree_data) : Heap :=
  match deref h p with
  | some t => write h p (some { t with data := d })
  | none => h

/-! ## Child arrays

`ts_tree_make_node` is handed an array of `ts_tree *` by its caller and keeps the pointer;
`ts_tree_release` later passes that pointer to `free`.  The arrays therefore live in a
store of their own, next to the heap of nodes. -/

/-- An array of `ts_tree *` in the caller's memory: its cells, and whether the block was
obtained from `malloc` (only such a block may be passed to `free`). -/
structure child_array where
  cells : List Nat
  on_heap : Bool
  deriving DecidableEq

/-- The store of child arrays: the array of address `a + 1` is at index `a`, address `0`
is `NULL`, and `none` is a block that was freed. -/
abbrev Arrays := List (Option child_array)

/-- The array at address `a`, when `a` points to a block that was not freed. -/
def array_block (ar : Arrays) (a : Nat) : Option child_array :=
  match a with
  | 0 => none
  | i + 1 =>
    match ar[i]? with
    | some (some b) => some b
    | _ => none

/-- The read `contents[i]`; undefined through `NULL`, through a freed block or outside
the block. -/
def array_get (ar : Arrays) (contents i : Nat) : Option Nat :=
  match array_block ar contents with
  | some b => b.cells[i]?
  | none => none

/-- The library call `free` on a child array: `free(NULL)` does nothing; any other
pointer must be a block from `malloc` that was not freed before. -/
def free_array (ar : Arrays) (a : Nat) : Option Arrays :=
  if a = 0 then some ar
  else
    match array_block ar a with
    | some b => if b.on_heap then some (ar.set (a - 1) none) else none
    | none => none

/-- A loop `for (i = 0; i < count; i++) f(xs[i]);` over a state `s`: `read s i` is the
read `xs[i]`, made anew in each round, and the loop runs from index `i` for `n` rounds. -/
def for_each {σ : Type} (read : σ → Nat → Option Nat) (f : σ → Nat → Option σ) :
    Nat → Nat → σ → Option σ
  | _, 0, s => some s
  | i, n + 1, s =>
    match read s i with
    | none => none
    | some x =>
      match f s x with
      | none => none
      | some s1 => for_each read f (i + 1) n s1

/-! ## The functions of `tree.c` -/

/-- The static helper `ts_tree_make` (tree.c, lines 5-14): `malloc`, then the compound
literal; the members it does not name (`is_hidden`, `data`) are zero. -/
def ts_tree_make (h : Heap) (symbol : ts_symbol) (size offset : Nat) : Heap × Nat :=
  malloc h
    { ref_count := 1, symbol := symbol, size := size, offset := offset,
      is_hidden := false, data := .children 0 0 }

/-- The factory `ts_tree_make_leaf` (lines 16-21): `data.children` is set to count 0 and
contents `NULL`. -/
def ts_tree_make_leaf (h : Heap) (symbol : ts_symbol) (size offset : Nat) : Heap × Nat :=
  let r := ts_tree_make h symbol size offset
  (set_data r.1 r.2 (.children 0 0), r.2)

/-- The function `ts_tree_retain` (lines 40-42): `tree->ref_count++`. -/
def ts_tree_retain (h : Heap) (tree : Nat) : Option Heap :=
  match deref h tree with
  | none => none
  | some t => some (write h tree (some { t with ref_count := t.ref_count + 1 }))

/-- The factory `ts_tree_make_node` (lines 23-30): retain `children[i]` for every
`i < child_count`, then allocate the node and store the count and the pointer `children`
itself in `data.children`; the array is neither copied nor written. -/
def ts_tree_make_node (h : Heap) (ar : Arrays) (symbol : ts_symbol)
    (child_count children : Nat) (size offset : Nat) : Option (Heap × Nat) :=
  match for_each (fun _ i => array_get ar children i) ts_tree_retain 0 child_count h with
  | none => none
  | some h1 =>
    let r := ts_tree_make h1 symbol size offset
    some (set_data r.1 r.2 (.children child_count children), r.2)

/-- The factory `ts_tree_make_error` (lines 32-38): a node of the reserved error symbol
with the payload stored in `data.error`. -/
def ts_tree_make_error (ts_builtin_sym_error : ts_symbol) (h : Heap) (lookahead_char : Nat)
    (expected_inputs : List ts_symbol) (size offset : Nat) : Heap × Nat :=
  let r := ts_tree_make h ts_builtin_sym_error size offset
  (set_data r.1 r.2 (.error lookahead_char expected_inputs), r.2)

/-- The function `ts_tree_children` (lines 73-80): for a node of the error symbol the
count 0 and `NULL`, otherwise the count and the pointer of `data.children`.  The value
is the pointer returned and the count stored through `count`. -/
def ts_tree_children (ts_builtin_sym_error : ts_symbol) (h : Heap) (tree : Nat) :
    Option (Nat × Nat) :=
  match deref h tree with
  | none => none
  | some t =>
    if t.symbol = ts_builtin_sym_error then some (0, 0)
    else
      match t.data with
      | .children count contents => some (contents, count)
      | .error _ _ => none

/-- The function `ts_tree_release` (lines 44-54): decrement the count; when it is zero,
release `children[i]` for every `i < count`, with the array and count that
`ts_tree_children` reports, then `free(children)` and `free(tree)`. -/
def ts_tree_release (ts_builtin_sym_error : ts_symbol) :
    Nat → Heap → Arrays → Nat → Option (Heap × Arrays)
  | 0, _, _, _ => none
  | fuel + 1, h, ar, tree =>
    match deref h tree with
    | none => none
    | some t =>
      let h1 := write h tree (some { t with ref_count := t.ref_count - 1 })
      if t.ref_count - 1 = 0 then
        match ts_tree_children ts_builtin_sym_error h1 tree with
        | none => none
        | some (children, count) =>
          match for_each (fun s i => array_get s.2 children i)
              (fun s child => ts_tree_release ts_builtin_sym_error fuel s.1 s.2 child)
              0 count (h1, ar) with
          | none => none
          | some s2 =>
            match free_array s2.2 children with
            | none => none
            | some ar3 =>
              match free s2.1 tree with
              | none => none
              | some h3 => some (h3, ar3)
      else some (h1, ar)

/-- The comparison loop of `ts_tree_equals` (lines 63-68), from index `i` for `n` rounds:
it reads `contents[i]` of both nodes and stops at the first unequal pair. -/
def equals_loop (eq : Nat → Nat → Option Bool) (ar : Arrays) (contents1 contents2 : Nat) :
    Nat → Nat → Option Bool
  | _, 0 => some true
  | i, n + 1 =>
    match array_get ar contents1 i, array_get ar contents2 i with
    | some child1, some child2 =>
      match eq child1 child2 with
      | none => none
      | some false => some false
      | some true => equals_loop eq ar contents1 contents2 (i + 1) n
    | _, _ => none

/-- The function `ts_tree_equals` (lines 56-71): unequal symbols give 0; for the error
symbol nothing more is compared; otherwise the child counts and then the children, pairwise
and in order, are compared. -/
def ts_tree_equals (ts_builtin_sym_error : ts_symbol) :
    Nat → Heap → Arrays → Nat → Nat → Option Bool
  | 0, _, _, _, _ => none
  | fuel + 1, h, ar, node1, node2 =>
    match deref h node1, deref h node2 with
    | some t1, some t2 =>
      if t1.symbol ≠ t2.symbol then some false
      else if t1.symbol = ts_builtin_sym_error then some true
      else
        match t1.data, t2.data with
        | .children count1 contents1, .children count2 contents2 =>
          if count1 ≠ count2 then some false
          else equals_loop (ts_tree_equals ts_builtin_sym_error fuel h ar) ar
            contents1 contents2 0 count1
        | _, _ => none
    | _, _ => none

/-! ## The children a node lists -/

/-- The sequence `contents[0]`, ..., `contents[count - 1]`, when all of it can be read
(with `count = 0` nothing is read). -/
def read_children (ar : Arrays) (count contents : Nat) : Option (List Nat) :=
  if count = 0 then some []
  else
    match array_block ar contents with
    | some b => if count ≤ b.cells.length then some (b.cells.take count) else none
    | none => none

/-- The children of a node, read through `data.children`: undefined for a node that
holds `data.error` and for one whose array cannot be read. -/
def child_list (ar : Arrays) (t : ts_tree) : Option (List Nat) :=
  match t.data with
  | .children count contents => read_children ar count contents
  | .error _ _ => none

/-- The addresses a node lists as children, none when they cannot be read. -/
def listed (ar : Arrays) (t : ts_tree) : List Nat :=
  (child_list ar t).getD []

/-- A loop over a list, the form the loops of `tree.c` take once the array is known to
hold the list. -/
def for_list (f : Heap → Nat → Option Heap) : Heap → List Nat → Option Heap
  | h, [] => some h
  | h, c :: cs =>
    match f h c with
    | none => none
    | some h1 => for_list f h1 cs

/-! ## Reference accounting -/

/-- The number of positions at which a cell lists `x` as a child; a node whose count has
reached zero (it is being torn down) no longer counts. -/
def contrib (ar : Arrays) (x : Nat) : Option ts_tree → Nat
  | some t => if t.ref_count = 0 then 0 else (listed ar t).count x
  | none => 0

/-- The number of references to `x` held by nodes of the heap. -/
def occ (h : Heap) (ar : Arrays) (x : Nat) : Nat :=
  ∑ a ∈ Finset.range h.length, contrib ar x (deref h (a + 1))

/-- The part of the invariant that does not mention counts: children are older than
their parent, a node of another kind than the error kind has the member `data.children`,
a node with that member and `contents` not `NULL` points to a block from `malloc` that
was not freed and has `count` cells at least, `contents` is `NULL` only with `count = 0`,
and no two nodes point to the same block. -/
structure shape_inv (ts_builtin_sym_error : ts_symbol) (h : Heap) (ar : Arrays) : Prop where
  child_lt : ∀ p t, deref h p = some t → ∀ x ∈ listed ar t, x < p
  variant_ok : ∀ p t, deref h p = some t → t.symbol ≠ ts_builtin_sym_error →
    ∃ n a, t.data = .children n a
  array_ok : ∀ p t n a, deref h p = some t → t.data = .children n a → a ≠ 0 →
    ∃ b, array_block ar a = some b ∧ b.on_heap = true ∧ n ≤ b.cells.length
  null_ok : ∀ p t n, deref h p = some t → t.data = .children n 0 → n = 0
  unique : ∀ p q tp tq n m a, deref h p = some tp → deref h q = some tq →
    tp.data = .children n a → tq.data = .children m a → a ≠ 0 → p = q

/-- The accounting invariant of a heap against the references `held` from outside it:
a live node has at least as many counts as references to it, nothing refers to a freed
node, and the child arrays are in order (`shape_inv`). -/
structure heap_inv (ts_builtin_sym_error : ts_symbol) (h : Heap) (ar : Arrays)
    (held : Nat → Nat) : Prop where
  count_ok : ∀ p t, deref h p = some t →
    0 ≤ t.ref_count ∧ ((held p + occ h ar p : Nat) : Int) ≤ t.ref_count
  dead_ok : ∀ p, deref h p = none → held p = 0 ∧ occ h ar p = 0
  shape : shape_inv ts_builtin_sym_error h ar

/-- What a successful `ts_tree_release` of `p`, or of the nodes `ps`, leaves behind:
the invariant, no cell above `bound` touched, no node left with a zero count that had
none before, the nodes that remain with their `data`, and every array either as it was
or freed and no longer pointed to. -/
structure release_post (ts_builtin_sym_error : ts_symbol) (h : Heap) (ar : Arrays)
    (held : Nat → Nat) (bound : Nat) (h1 : Heap) (ar1 : Arrays) : Prop where
  inv : heap_inv ts_builtin_sym_error h1 ar1 held
  length_eq : h1.length = h.length
  frame : ∀ q, bound < q → deref h1 q = deref h q
  no_zombie : ∀ q t1, deref h1 q = some t1 → t1.ref_count = 0 →
    ∃ t, deref h q = some t ∧ t.ref_count = 0
  stable : ∀ q t1, deref h1 q = some t1 →
    ∃ t, deref h q = some t ∧ t.data = t1.data ∧ t.symbol = t1.symbol
  arrays_length : ar1.length = ar.length
  arrays_ok : ∀ a, array_block ar1 a = array_block ar a ∨
    (array_block ar1 a = none ∧ ∀ q t n, deref h1 q = some t → t.data ≠ .children n a)

/-! ## Callers and reachable states -/

/-- A move of the caller: a call of the public interface, or the preparation of an
array of children in its own memory (`on_heap` telling whether the block comes from
`malloc`), which `tree.c` leaves to the caller. -/
inductive Call where
  | make_leaf (symbol : ts_symbol) (size offset : Nat)
  | make_node (symbol : ts_symbol) (child_count children : Nat) (size offset : Nat)
  | make_error (lookahead_char : Nat) (expected_inputs : List ts_symbol) (size offset : Nat)
  | retain (tree : Nat)
  | release (tree : Nat)
  | new_array (cells : List Nat) (on_heap : Bool)

/-- A heap and the child arrays together with the caller's books: `held p` is the number
of references to `p` that the caller obtained (from a factory or from `ts_tree_retain`)
and has not yet released. -/
structure Config where
  heap : Heap
  arrays : Arrays
  held : Nat → Nat

/-- The caller obtains one more reference to `p`. -/
def acquire (held : Nat → Nat) (p : Nat) : Nat → Nat :=
  fun q => if q = p then held q + 1 else held q

/-- The caller gives up one reference to `p`. -/
def give_up (held : Nat → Nat) (p : Nat) : Nat → Nat :=
  fun q => if q = p then held q - 1 else held q

/-- The caller's contract on nodes: every node passed to an operation, directly or as
one of the `child_count` cells of the array `children`, is one on which the caller still
holds an un-released reference. -/
def obeys (c : Config) : Call → Prop
  | .make_leaf _ _ _ => True
  | .make_node _ child_count children _ _ =>
    ∀ i, i < child_count → ∃ x, array_get c.arrays children i = some x ∧ 1 ≤ c.held x
  | .make_error _ _ _ _ => True
  | .retain tree => 1 ≤ c.held tree
  | .release tree => 1 ≤ c.held tree
  | .new_array _ _ => True

/-- The caller's contract on nodes and arrays: `obeys`, and every array passed to
`ts_tree_make_node` is handed over to the new node: unless the pointer is `NULL`, it is
a block from `malloc` that was not freed and that no node points to already. -/
def owning (c : Config) : Call → Prop
  | .make_node symbol child_count children size offset =>
    obeys c (.make_node symbol child_count children size offset) ∧
    (children ≠ 0 →
      (∃ b, array_block c.arrays children = some b ∧ b.on_heap = true) ∧
      ∀ q t n, deref c.heap q = some t → t.data ≠ .children n children)
  | call => obeys c call

/-- One move: the function of `tree.c` on the heap and the arrays, and the caller's
books updated. -/
def exec (ts_builtin_sym_error : ts_symbol) (fuel : Nat) (c : Config) : Call → Option Config
  | .make_leaf symbol size offset =>
    let r := ts_tree_make_leaf c.heap symbol size offset
    some ⟨r.1, c.arrays, acquire c.held r.2⟩
  | .make_node symbol child_count children size offset =>
    match ts_tree_make_node c.heap c.arrays symbol child_count children size offset with
    | none => none
    | some r => some ⟨r.1, c.arrays, acquire c.held r.2⟩
  | .make_error lookahead_char expected_inputs size offset =>
    let r := ts_tree_make_error ts_builtin_sym_error c.heap lookahead_char expected_inputs
      size offset
    some ⟨r.1, c.arrays, acquire c.held r.2⟩
  | .retain tree =>
    match ts_tree_retain c.heap tree with
    | none => none
    | some h1 => some ⟨h1, c.arrays, acquire c.held tree⟩
  | .release tree =>
    match ts_tree_release ts_builtin_sym_error fuel c.heap c.arrays tree with
    | none => none
    | some r => some ⟨r.1, r.2, give_up c.held tree⟩
  | .new_array cells on_heap =>
    some ⟨c.heap, c.arrays ++ [some ⟨cells, on_heap⟩], c.held⟩

/-- The states reachable from the empty store by moves that keep to `contract`. -/
inductive Reachable (ts_builtin_sym_error : ts_symbol) (contract : Config → Call → Prop) :
    Config → Prop where
  | empty : Reachable ts_builtin_sym_error contract ⟨[], [], fun _ => 0⟩
  | step {c c1 : Config} (call : Call) (fuel : Nat) :
      Reachable ts_builtin_sym_error contract c → contract c call →
      exec ts_builtin_sym_error fuel c call = some c1 →
      Reachable ts_builtin_sym_error contract c1

/-- The invariant of reachable states: the accounting invariant, and no live node has a
zero count. -/
def config_inv (ts_builtin_sym_error : ts_symbol) (c : Config) : Prop :=
  heap_inv ts_builtin_sym_error c.heap c.arrays c.held ∧
    ∀ p t, deref c.heap p = some t → t.ref_count ≠ 0

/-! ## Structure of trees -/

/-- What `ts_tree_equals` can see of a node: its kind and its union member. -/
def shape_le (h h1 : Heap) : Prop :=
  ∀ q t, deref h q = some t →
    ∃ t1, deref h1 q = some t1 ∧ t1.symbol = t.symbol ∧ t1.data = t.data

/-- Two trees with the same kinds and the same child structure in the same order: both
roots have the error kind, or they have the same kind and equally many children, which
are pairwise of the same structure.  Sizes, offsets and hidden flags play no part. -/
inductive same_structure (ts_builtin_sym_error : ts_symbol) (h : Heap) (ar : Arrays) :
    Nat → Nat → Prop where
  | error {a b : Nat} {ta tb : ts_tree} :
      deref h a = some ta → deref h b = some tb →
      ta.symbol = ts_builtin_sym_error → tb.symbol = ts_builtin_sym_error →
      same_structure ts_builtin_sym_error h ar a b
  | node {a b : Nat} {ta tb : ts_tree} {ka kb : List Nat} :
      deref h a = some ta → deref h b = some tb →
      ta.symbol = tb.symbol → ta.symbol ≠ ts_builtin_sym_error →
      child_list ar ta = some ka → child_list ar tb = some kb →
      ka.length = kb.length →
      (∀ (i x y : Nat), ka[i]? = some x → kb[i]? = some y →
        same_structure ts_builtin_sym_error h ar x y) →
      same_structure ts_builtin_sym_error h ar a b

/-! ## A small store for the examples

Two leaves of kinds 5 and 6 at addresses 1 and 2, and a node of kind 7 at address 3 over
the array `[1, 2]` at array address 1; in `demo_config` the caller has released the leaves
and holds the node only. -/

def two_leaves : Heap :=
  [some ⟨1, 5, 1, 0, false, .children 0 0⟩, some ⟨1, 6, 1, 1, false, .children 0 0⟩]

/-- One array from `malloc` holding `[1, 2]`. -/
def demo_arrays : Arrays := [some ⟨[1, 2], true⟩]

/-- One array from `malloc` holding `[1, 2, 1]`: the first leaf is listed twice. -/
def triple_arrays : Arrays := [some ⟨[1, 2, 1], true⟩]

/-- Two arrays from `malloc`, `[1, 2]` and `[2, 1]`. -/
def order_arrays : Arrays := [some ⟨[1, 2], true⟩, some ⟨[2, 1], true⟩]

def demo_heap : Heap :=
  [some ⟨1, 5, 1, 0, false, .children 0 0⟩, some ⟨1, 6, 1, 1, false, .children 0 0⟩,
   some ⟨1, 7, 2, 0, false, .children 2 1⟩]

def demo_config : Config :=
  ⟨demo_heap, demo_arrays,
    give_up (give_up (acquire (acquire (acquire (fun _ => 0) 1) 2) 3) 1) 2⟩

/-- Two arrays from `malloc`, `[1]` and `[2]`. -/
def twin_arrays : Arrays := [some ⟨[1], true⟩, some ⟨[2], true⟩]

/-- Two trees of the same structure at different positions: leaves of kind 5 at addresses
1 and 2, nodes of kind 7 over one leaf each (the arrays of `twin_arrays`) at addresses 3
and 4; the second tree has other sizes and offsets and is hidden. -/
def twin_heap : Heap :=
  [some ⟨1, 5, 1, 0, false, .children 0 0⟩, some ⟨1, 5, 3, 9, true, .children 0 0⟩,
   some ⟨1, 7, 1, 0, false, .children 1 1⟩, some ⟨1, 7, 3, 9, true, .children 1 2⟩]

/-- Two error nodes with different payloads at addresses 1 and 2 and a leaf of kind 5 at
address 3, the reserved error symbol being 0. -/
def error_heap : Heap :=
  [some ⟨1, 0, 1, 0, false, .error 97 [5]⟩, some ⟨1, 0, 2, 7, false, .error 98 [6, 7]⟩,
   some ⟨1, 5, 1, 0, false, .children 0 0⟩]

/-- The moves of a caller that hands one array to two nodes: a leaf (address 1), an
array `[1]` from `malloc` (array address 1), two nodes of kind 7 over that array
(addresses 2 and 3), and the release of the first node. -/
def shared_array_moves : List Call :=
  [.make_leaf 5 1 0, .new_array [1] true, .make_node 7 1 1 1 0, .make_node 7 1 1 1 0,
   .release 2]

/-- The state after `shared_array_moves`: the first node and the array are freed, the
second node still points to the array, and the caller holds the leaf and the second
node. -/
def shared_array_config : Config :=
  ⟨[some ⟨2, 5, 1, 0, false, .children 0 0⟩, none, some ⟨1, 7, 1, 0, false, .children 1 1⟩],
    [none], give_up (acquire (acquire (acquire (fun _ => 0) 1) 2) 3) 2⟩

/-- The same moves, the caller giving up the leaf before it releases the first node. -/
def lone_owner_moves : List Call :=
  [.make_leaf 5 1 0, .new_array [1] true, .make_node 7 1 1 1 0, .make_node 7 1 1 1 0,
   .release 1, .release 2]

/-- The state after `lone_owner_moves`: the second node, held by the caller, and the leaf
have `ref_count = 1` each, and the array of the second node is freed. -/
def lone_owner_config : Config :=
  ⟨[some ⟨1, 5, 1, 0, false, .children 0 0⟩, none, some ⟨1, 7, 1, 0, false, .children 1 1⟩],
    [none], give_up (give_up (acquire (acquire (acquire (fun _ => 0) 1) 2) 3) 1) 2⟩

/-- The moves `calls` one after the other, each with the fuel given. -/
def run (ts_builtin_sym_error : ts_symbol) (fuel : Nat) : Config → List Call → Option Config
  | c, [] => some c
  | c, call :: rest =>
    match exec ts_builtin_sym_error fuel c call with
    | none => none
    | some c1 => run ts_builtin_sym_error fuel c1 rest

/-! ## The serializer

`tree_write_to_string` formats into a caller's buffer through `snprintf`.  A `Buffer` is
the list of its bytes, `none` being a byte never written since `malloc`; the position
`string` and the local `cursor` are offsets into it.  The table `symbol_names` is a
function from symbols to names (the C array has no length; a symbol outside the table is
the caller's contract violation, and names, being C strings, contain no terminator). -/

/-- A character buffer. -/
abbrev Buffer := List (Option Char)

/-- The string terminator. -/
def NUL : Char := Char.ofNat 0

/-- The bytes of a C string: its characters, then the terminator. -/
def c_string (s : String) : Buffer :=
  s.toList.map some ++ [some NUL]

/-- Store `bytes` into the buffer from offset `pos` on. -/
def poke (buf : Buffer) (pos : Nat) (bytes : Buffer) : Buffer :=
  buf.take pos ++ bytes ++ buf.drop (pos + bytes.length)

/-- The library call `snprintf(cursor, limit, ...)` with the formatted `text`: with
`limit = 0` nothing is stored; otherwise at most `limit - 1` characters and a terminator
are stored at `cursor`.  The value is the length of the whole text.  Storing outside the
buffer is undefined. -/
def snprintf (buf : Buffer) (cursor limit : Nat) (text : List Char) : Option (Buffer × Nat) :=
  if limit = 0 then some (buf, text.length)
  else if cursor + min text.length (limit - 1) + 1 ≤ buf.length then
    some (poke buf cursor ((text.take (limit - 1)).map some ++ [some NUL]), text.length)
  else none

/-- The locals of `tree_write_to_string` and the buffer they point into. -/
structure Writer where
  buf : Buffer
  cursor : Nat
  result : Nat

/-- The statement `result += snprintf(cursor, limit, text);`. -/
def Writer.print (w : Writer) (limit : Nat) (text : List Char) : Option Writer :=
  match snprintf w.buf w.cursor limit text with
  | none => none
  | some r => some { w with buf := r.1, result := w.result + r.2 }

/-- The statement `if (limit > 0) cursor = string + result;`. -/
def Writer.advance (w : Writer) (string limit : Nat) : Writer :=
  if limit > 0 then { w with cursor := string + w.result } else w

/-- Lines 90-103 of `tree_write_to_string`, what a node prints before its children: a
hidden node nothing; a visible node a separating space unless it is at the beginning,
then `(ERROR)` and return (`Sum.inl`, the value returned) for the error symbol, or `(`
and its name. -/
def write_open (ts_builtin_sym_error : ts_symbol) (symbol_names : ts_symbol → String)
    (t : ts_tree) (string limit : Nat) (is_beginning : Bool) (w : Writer) :
    Option (Sum (Buffer × Nat) Writer) :=
  if !t.is_hidden then
    match (if !is_beginning then
        (w.print limit [' ']).map (fun w1 => w1.advance string limit)
      else some w) with
    | none => none
    | some w1 =>
      if t.symbol = ts_builtin_sym_error then
        (w1.print limit "(ERROR)".toList).map (fun w2 => Sum.inl (w2.buf, w2.result))
      else
        (w1.print limit ('(' :: (symbol_names t.symbol).toList)).map
          (fun w2 => Sum.inr (w2.advance string limit))
  else some (Sum.inr w)

/-- Lines 105-109, the loop over the children from index `i` for `n` rounds: it reads
`contents[i]`, and `visit buf child cursor` is the recursive call on that child. -/
def write_children (visit : Buffer → Nat → Nat → Option (Buffer × Nat)) (ar : Arrays)
    (contents string limit : Nat) : Nat → Nat → Writer → Option Writer
  | _, 0, w => some w
  | i, n + 1, w =>
    match array_get ar contents i with
    | none => none
    | some child =>
      match visit w.buf child w.cursor with
      | none => none
      | some r =>
        write_children visit ar contents string limit (i + 1) n
          (Writer.advance { w with buf := r.1, result := w.result + r.2 } string limit)

/-- The function `tree_write_to_string` (lines 82-116).  The value is the buffer after
the call and the `size_t` returned. -/
def tree_write_to_string (ts_builtin_sym_error : ts_symbol) (symbol_names : ts_symbol → String) :
    Nat → Heap → Arrays → Buffer → Nat → Nat → Nat → Bool → Option (Buffer × Nat)
  | 0, _, _, _, _, _, _, _ => none
  | fuel + 1, h, ar, buf, tree, string, limit, is_beginning =>
    if tree = 0 then snprintf buf string limit "(NULL)".toList
    else
      match deref h tree with
      | none => none
      | some t =>
        match write_open ts_builtin_sym_error symbol_names t string limit is_beginning
            ⟨buf, string, 0⟩ with
        | none => none
        | some (Sum.inl r) => some r
        | some (Sum.inr w) =>
          match t.data with
          | .error _ _ => none
          | .children count contents =>
            match write_children
                (fun b child cursor =>
                  tree_write_to_string ts_builtin_sym_error symbol_names fuel h ar b child
                    cursor limit false)
                ar contents string limit 0 count w with
            | none => none
            | some w1 =>
              if !t.is_hidden then
                (w1.print limit [')']).map (fun w2 => (w2.buf, w2.result))
              else some (w1.buf, w1.result)

/-- The static array `SCRATCH_STRING` of `ts_tree_string`. -/
def SCRATCH_STRING : Buffer := List.replicate 100 (some NUL)

/-- The function `ts_tree_string` (lines 118-124): the first pass computes the size with
limit 0, the second writes into a fresh buffer of that size, which is returned. -/
def ts_tree_string (ts_builtin_sym_error : ts_symbol) (symbol_names : ts_symbol → String)
    (fuel : Nat) (h : Heap) (ar : Arrays) (tree : Nat) : Option Buffer :=
  match tree_write_to_string ts_builtin_sym_error symbol_names fuel h ar SCRATCH_STRING tree
      0 0 true with
  | none => none
  | some r =>
    match tree_write_to_string ts_builtin_sym_error symbol_names fuel h ar
        (List.replicate (r.2 + 1) none) tree 0 (r.2 + 1) true with
    | none => none
    | some r1 => some r1.1

/-- The names used in the examples: `id`, `num`, `program`, and `a` for any other
symbol. -/
def demo_names : ts_symbol → String :=
  fun k => if k = 5 then "id" else if k = 6 then "num" else if k = 7 then "program" else "a"

/-- Three arrays from `malloc`: `[1]`, `[3, 2]` and `[1, 2]`. -/
def wrapper_arrays : Arrays := [some ⟨[1], true⟩, some ⟨[3, 2], true⟩, some ⟨[1, 2], true⟩]

/-- The example store with a hidden wrapper: leaves `id` and `num` at addresses 1 and 2,
a hidden node over `[1]` at address 3, `program` over `[3, 2]` at address 4 and `program`
over `[1, 2]` at address 5, the arrays being those of `wrapper_arrays`. -/
def wrapper_heap : Heap :=
  [some ⟨1, 5, 1, 0, false, .children 0 0⟩, some ⟨1, 6, 1, 1, false, .children 0 0⟩,
   some ⟨1, 8, 1, 0, true, .children 1 1⟩, some ⟨1, 7, 2, 0, false, .children 2 2⟩,
   some ⟨1, 7, 2, 0, false, .children 2 3⟩]

/-- Two visible trees of the same structure at different positions: leaves of kind 5 at
addresses 1 and 2, nodes of kind 7 over one leaf each (the arrays of `twin_arrays`) at
addresses 3 and 4. -/
def pair_heap : Heap :=
  [some ⟨1, 5, 1, 0, false, .children 0 0⟩, some ⟨1, 5, 3, 9, false, .children 0 0⟩,
   some ⟨1, 7, 1, 0, false, .children 1 1⟩, some ⟨1, 7, 3, 9, false, .children 1 2⟩]

/-- The store after `ts_tree_make_node` of kind 7 over the array `[1, 2]` and
`two_leaves`: the leaves have two owners each. -/
def shared_heap : Heap :=
  [some ⟨2, 5, 1, 0, false, .children 0 0⟩, some ⟨2, 6, 1, 1, false, .children 0 0⟩,
   some ⟨1, 7, 2, 0, false, .children 2 1⟩]

/-- The separator a visible node prints first: nothing at the beginning, else a space. -/
def separator (is_beginning : Bool) : List Char :=
  if is_beginning then [] else [' ']

/-- The loop over the children once the array is read: `write_children` on a list. -/
def write_child_list (visit : Buffer → Nat → Nat → Option (Buffer × Nat)) (string limit : Nat) :
    Writer → List Nat → Option Writer
  | w, [] => some w
  | w, child :: rest =>
    match visit w.buf child w.cursor with
    | none => none
    | some r =>
      write_child_list visit string limit
        (Writer.advance { w with buf := r.1, result := w.result + r.2 } string limit) rest

/-- The texts of the children, one after the other. -/
def text_children (visit : Nat → Option (List Char)) : List Nat → Option (List Char)
  | [] => some []
  | child :: rest =>
    match visit child with
    | none => none
    | some s => (text_children visit rest).map (fun r => s ++ r)

/-- The characters `tree_write_to_string` passes to `snprintf`, in order. -/
def tree_text (ts_builtin_sym_error : ts_symbol) (symbol_names : ts_symbol → String) :
    Nat → Heap → Arrays → Nat → Bool → Option (List Char)
  | 0, _, _, _, _ => none
  | fuel + 1, h, ar, tree, is_beginning =>
    if tree = 0 then some "(NULL)".toList
    else
      match deref h tree with
      | none => none
      | some t =>
        if t.is_hidden then
          match child_list ar t with
          | none => none
          | some contents =>
            text_children
              (fun c => tree_text ts_builtin_sym_error symbol_names fuel h ar c false) contents
        else if t.symbol = ts_builtin_sym_error then
          some (separator is_beginning ++ "(ERROR)".toList)
        else
          match child_list ar t with
          | none => none
          | some contents =>
            (text_children
                (fun c => tree_text ts_builtin_sym_error symbol_names fuel h ar c false)
                contents).map
              (fun body =>
                separator is_beginning ++ ('(' :: (symbol_names t.symbol).toList) ++ body ++ [')'])

/-- The buffer after `text` and a terminator were stored at `pos` by one or more calls of
`snprintf`; no call is made for an empty text. -/
def stamp (buf : Buffer) (pos : Nat) (text : List Char) : Buffer :=
  if text = [] then buf else poke buf pos (text.map some ++ [some NUL])

/-- The locals of `tree_write_to_string` after the text `a` was printed at `string` into
the buffer `buf0`, the limit being positive. -/
def Writer.printed (w : Writer) (buf0 : Buffer) (string : Nat) (a : List Char) : Prop :=
  w.buf = stamp buf0 string a ∧ w.cursor = string + a.length ∧ w.result = a.length

/-! ## The rendering of the specification -/

/-- The concatenation over the children `c`, in order, of `" " ++ render(c)`. -/
def render_children (visit : Nat → Option String) : List Nat → Option String
  | [] => some ""
  | c :: rest =>
    match visit c with
    | none => none
    | some s => (render_children visit rest).map (fun r => " " ++ s ++ r)

/-- The rendering in the words of the specification: `render(n) = "(ERROR)"` if `n` has
the error kind, and otherwise `"(" ++ name(kind of n) ++` the concatenation over the
children `c` of `n`, in order, of `" " ++ render(c)`, `++ ")"`.  Hidden flags play no
part; an absent child has no rendering. -/
def render (ts_builtin_sym_error : ts_symbol) (symbol_names : ts_symbol → String) :
    Nat → Heap → Arrays → Nat → Option String
  | 0, _, _, _ => none
  | fuel + 1, h, ar, n =>
    match deref h n with
    | none => none
    | some t =>
      if t.symbol = ts_builtin_sym_error then some "(ERROR)"
      else
        match child_list ar t with
        | none => none
        | some contents =>
          (render_children (render ts_builtin_sym_error symbol_names fuel h ar) contents).map
            (fun body => "(" ++ symbol_names t.symbol ++ body ++ ")")

/-- A tree in which no node is hidden and no child is absent (the children of a node of
the error kind are not looked at: no function of `tree.c` visits them). -/
inductive fully_visible (ts_builtin_sym_error : ts_symbol) (h : Heap) (ar : Arrays) :
    Nat → Prop where
  | error {n : Nat} {t : ts_tree} :
      deref h n = some t → t.is_hidden = false → t.symbol = ts_builtin_sym_error →
      fully_visible ts_builtin_sym_error h ar n
  | node {n : Nat} {t : ts_tree} {contents : List Nat} :
      deref h n = some t → t.is_hidden = false → t.symbol ≠ ts_builtin_sym_error →
      child_list ar t = some contents →
      (∀ c ∈ contents, fully_visible ts_builtin_sym_error h ar c) →
      fully_visible ts_builtin_sym_error h ar n

/-! ## The nodes of a tree -/

/-- The nodes of the tree below `p`: `p` itself and, through the child arrays, the nodes
of the trees below its children. -/
inductive in_tree (h : Heap) (ar : Arrays) : Nat → Nat → Prop where
  | root (p : Nat) : in_tree h ar p p
  | child {p c x : Nat} {t : ts_tree} :
      deref h p = some t → c ∈ listed ar t → in_tree h ar c x → in_tree h ar p x

/-- The condition of a whole-tree teardown on the tree below `p`: every node has
`ref_count = 1`, and a node of the error symbol lists no children (`ts_tree_make_node`
was never given the error symbol). -/
def sole_owner (ts_builtin_sym_error : ts_symbol) (h : Heap) (ar : Arrays) (p : Nat) : Prop :=
  ∀ x t, in_tree h ar p x → deref h x = some t →
    t.ref_count = 1 ∧ (t.symbol = ts_builtin_sym_error → listed ar t = [])

/-- The heap `h1` is `h` with exactly the cells in `S` freed. -/
def freed_exactly (h h1 : Heap) (S : Nat → Prop) : Prop :=
  (∀ x, S x → deref h1 x = none) ∧ (∀ x, ¬ S x → deref h1 x = deref h x)

/-- The arrays of the tree below `p`: the blocks that its nodes of another kind than the
error kind point to (`ts_tree_children` reports `NULL` for a node of the error kind). -/
def tree_array (ts_builtin_sym_error : ts_symbol) (h : Heap) (ar : Arrays) (p a : Nat) : Prop :=
  a ≠ 0 ∧ ∃ x t n, in_tree h ar p x ∧ deref h x = some t ∧
    t.symbol ≠ ts_builtin_sym_error ∧ t.data = .children n a

/-- The arrays `ar1` are `ar` with exactly the blocks in `S` freed. -/
def arrays_freed_exactly (ar ar1 : Arrays) (S : Nat → Prop) : Prop :=
  (∀ a, S a → array_block ar1 a = none) ∧ (∀ a, ¬ S a → array_block ar1 a = array_block ar a)

/-! ## Basic facts about the heap -/

theorem deref_zero (h : Heap) : deref h 0 = none := rfl

theorem deref_some_bounds {h : Heap} {p : Nat} {t : ts_tree} (hp : deref h p = some t) :
    1 ≤ p ∧ p ≤ h.length := by
  cases p with
  | zero => simp [deref] at hp
  | succ a =>
    refine ⟨by omega, ?_⟩
    by_contra hlt
    have : h[a]? = none := List.getElem?_eq_none (by omega)
    simp [deref, this] at hp

theorem deref_beyond {h : Heap} {p : Nat} (hp : h.length < p) : deref h p = none := by
  cases hd : deref h p with
  | none => rfl
  | some t => have := (deref_some_bounds hd).2; omega

theorem write_length (h : Heap) (p : Nat) (v : Option ts_tree) :
    (write h p v).length = h.length := by
  cases p <;> simp [write]

theorem deref_write_ne (h : Heap) {p q : Nat} (v : Option ts_tree) (hne : q ≠ p) :
    deref (write h p v) q = deref h q := by
  cases p with
  | zero => rfl
  | succ a =>
    cases q with
    | zero => rfl
    | succ b =>
      have hab : a ≠ b := by omega
      simp [deref, write, List.getElem?_set_ne hab]

theorem deref_write_same {h : Heap} {p : Nat} (v : Option ts_tree) (hp : 1 ≤ p ∧ p ≤ h.length) :
    deref (write h p v) p = v := by
  cases p with
  | zero => omega
  | succ a =>
    have ha : a < h.length := by omega
    cases v <;> simp [deref, write, List.getElem?_set_self, ha]

theorem deref_write (h : Heap) (p q : Nat) (v : Option ts_tree) (hp : 1 ≤ p ∧ p ≤ h.length) :
    deref (write h p v) q = if q = p then v else deref h q := by
  by_cases hq : q = p
  · subst hq; simp [deref_write_same v hp]
  · simp [hq, deref_write_ne h v hq]

theorem deref_malloc (h : Heap) (t : ts_tree) (q : Nat) :
    deref (malloc h t).1 q = if q = h.length + 1 then some t else deref h q := by
  cases q with
  | zero => simp [deref]
  | succ b =>
    by_cases hb : b = h.length
    · subst hb; simp [deref, malloc]
    · by_cases hlt : b < h.length
      · simp [deref, malloc, hb, List.getElem?_append_left hlt]
      · have h1 : h[b]? = none := List.getElem?_eq_none (by omega)
        have h2 : (h ++ [some t])[b]? = none := List.getElem?_eq_none (by simp; omega)
        simp [deref, malloc, hb, h1, h2]

theorem malloc_length (h : Heap) (t : ts_tree) : (malloc h t).1.length = h.length + 1 := by
  simp [malloc]

theorem write_same_eq {h : Heap} {p : Nat} {t : ts_tree} (hp : deref h p = some t) :
    write h p (some t) = h := by
  cases p with
  | zero => rfl
  | succ a =>
    have hb := (deref_some_bounds hp).2
    have ha : a < h.length := by omega
    have hget : h[a]? = some (some t) := by
      simp only [deref] at hp
      split at hp
      · rename_i t1 heq; simp at hp; subst hp; exact heq
      · simp at hp
    simp only [write]
    apply List.ext_getElem?
    intro i
    by_cases hi : i = a
    · subst hi; simp [List.getElem?_set_self, ha, hget]
    · simp [List.getElem?_set_ne (Ne.symm hi)]

theorem write_write (h : Heap) (p : Nat) (v w : Option ts_tree) :
    write (write h p v) p w = write h p w := by
  cases p <;> simp [write]

theorem free_live {h : Heap} {p : Nat} {t : ts_tree} (hp : deref h p = some t) :
    free h p = some (write h p none) := by
  simp [free, hp]

/-! ## Child arrays -/

theorem array_block_zero (ar : Arrays) : array_block ar 0 = none := rfl

theorem array_block_some_bounds {ar : Arrays} {a : Nat} {b : child_array}
    (ha : array_block ar a = some b) : 1 ≤ a ∧ a ≤ ar.length := by
  cases a with
  | zero => simp [array_block] at ha
  | succ i =>
    refine ⟨by omega, ?_⟩
    by_contra hlt
    have : ar[i]? = none := List.getElem?_eq_none (by omega)
    simp [array_block, this] at ha

/-- A new array at the end of the store leaves the others alone. -/
theorem array_block_append (ar : Arrays) (b : child_array) (a : Nat) :
    array_block (ar ++ [some b]) a = if a = ar.length + 1 then some b else array_block ar a := by
  cases a with
  | zero => simp [array_block]
  | succ i =>
    by_cases hi : i = ar.length
    · subst hi; simp [array_block]
    · by_cases hlt : i < ar.length
      · simp [array_block, hi, List.getElem?_append_left hlt]
      · have h1 : ar[i]? = none := List.getElem?_eq_none (by omega)
        have h2 : (ar ++ [some b])[i]? = none := List.getElem?_eq_none (by simp; omega)
        simp [array_block, hi, h1, h2]

theorem free_array_length {ar ar1 : Arrays} {a : Nat} (hf : free_array ar a = some ar1) :
    ar1.length = ar.length := by
  unfold free_array at hf
  split at hf
  · simp only [Option.some.injEq] at hf; subst hf; rfl
  · split at hf
    · split at hf
      · simp only [Option.some.injEq] at hf; subst hf; simp
      · simp at hf
    · simp at hf

/-- After `free(a)` the block at `a` is gone and every other block is as it was. -/
theorem array_block_free_array {ar ar1 : Arrays} {a : Nat} (hf : free_array ar a = some ar1)
    (a1 : Nat) : array_block ar1 a1 = if a1 = a then none else array_block ar a1 := by
  unfold free_array at hf
  split at hf
  · rename_i h0
    simp only [Option.some.injEq] at hf
    subst hf
    by_cases h1 : a1 = a
    · rw [if_pos h1, h1, h0]; rfl
    · rw [if_neg h1]
  · rename_i h0
    split at hf
    · rename_i b hb
      split at hf
      · simp only [Option.some.injEq] at hf
        subst hf
        have hbd := array_block_some_bounds hb
        obtain ⟨i, rfl⟩ : ∃ i, a = i + 1 := ⟨a - 1, by omega⟩
        have hi : i < ar.length := by omega
        cases a1 with
        | zero => simp [array_block]
        | succ j =>
          by_cases hj : j = i
          · subst hj
            simp [array_block, List.getElem?_set_self, hi]
          · have hne : ¬ (j + 1 = i + 1) := by omega
            simp [array_block, hne, List.getElem?_set_ne (Ne.symm hj)]
      · simp at hf
    · simp at hf

theorem free_array_some {ar : Arrays} {a : Nat} {b : child_array}
    (hb : array_block ar a = some b) (hh : b.on_heap = true) :
    ∃ ar1, free_array ar a = some ar1 := by
  have h0 : a ≠ 0 := by
    have := (array_block_some_bounds hb).1
    omega
  exact ⟨ar.set (a - 1) none, by simp [free_array, h0, hb, hh]⟩

theorem free_array_null (ar : Arrays) : free_array ar 0 = some ar := by
  simp [free_array]

theorem array_get_congr {ar ar1 : Arrays} {a : Nat} (he : array_block ar1 a = array_block ar a)
    (i : Nat) : array_get ar1 a i = array_get ar a i := by
  simp only [array_get, he]

theorem read_children_congr {ar ar1 : Arrays} {a : Nat}
    (he : array_block ar1 a = array_block ar a) (n : Nat) :
    read_children ar1 n a = read_children ar n a := by
  simp only [read_children, he]

theorem read_children_zero (ar : Arrays) (a : Nat) : read_children ar 0 a = some [] := by
  simp [read_children]

theorem read_children_of_block {ar : Arrays} {a n : Nat} {b : child_array}
    (hb : array_block ar a = some b) (hn : n ≤ b.cells.length) :
    read_children ar n a = some (b.cells.take n) := by
  by_cases h0 : n = 0
  · subst h0; simp [read_children]
  · simp [read_children, h0, hb, hn]

theorem read_children_length {ar : Arrays} {a n : Nat} {cs : List Nat}
    (hr : read_children ar n a = some cs) : cs.length = n := by
  unfold read_children at hr
  split at hr
  · rename_i h0
    simp only [Option.some.injEq] at hr
    subst hr; subst h0; rfl
  · split at hr
    · split at hr
      · rename_i hle
        simp only [Option.some.injEq] at hr
        subst hr
        simp [hle]
      · simp at hr
    · simp at hr

/-- When the children can all be read, the read `contents[j]` gives the `j`-th of
them. -/
theorem read_children_get {ar : Arrays} {a n : Nat} {cs : List Nat}
    (hr : read_children ar n a = some cs) (j : Nat) (hj : j < n) :
    array_get ar a j = cs[j]? := by
  unfold read_children at hr
  split at hr
  · omega
  · split at hr
    · rename_i b hb
      split at hr
      · rename_i hle
        simp only [Option.some.injEq] at hr
        subst hr
        simp only [array_get, hb]
        rw [List.getElem?_take_of_lt hj]
      · simp at hr
    · simp at hr

/-- When the children cannot all be read, one of the reads is undefined. -/
theorem read_children_none {ar : Arrays} {a n : Nat} (hr : read_children ar n a = none) :
    ∃ j, j < n ∧ array_get ar a j = none := by
  unfold read_children at hr
  split at hr
  · simp at hr
  · rename_i h0
    split at hr
    · rename_i b hb
      split at hr
      · simp at hr
      · rename_i hle
        refine ⟨b.cells.length, by omega, ?_⟩
        simp [array_get, hb]
    · rename_i hb
      refine ⟨0, by omega, ?_⟩
      simp only [array_get, hb]

theorem read_children_block {ar : Arrays} {a n : Nat} {cs : List Nat} {b : child_array}
    (hr : read_children ar n a = some cs) (hb : array_block ar a = some b) :
    n ≤ b.cells.length := by
  by_cases h0 : n = 0
  · omega
  · simp only [read_children, h0, if_false, hb] at hr
    by_contra hle
    simp [hle] at hr

theorem array_get_null (ar : Arrays) (i : Nat) : array_get ar 0 i = none := rfl

/-- Every member of the list read is the value of one of the reads. -/
theorem read_children_mem {ar : Arrays} {a n : Nat} {cs : List Nat}
    (hr : read_children ar n a = some cs) {x : Nat} (hx : x ∈ cs) :
    ∃ j, j < n ∧ array_get ar a j = some x := by
  obtain ⟨j, hj, hjx⟩ := List.getElem_of_mem hx
  have hl := read_children_length hr
  refine ⟨j, by omega, ?_⟩
  rw [read_children_get hr j (by omega), List.getElem?_eq_getElem hj, hjx]

/-- The reads of a loop over `count` cells succeed exactly when `read_children` does. -/
theorem read_children_of_gets {ar : Arrays} {a n : Nat}
    (hg : ∀ j, j < n → ∃ x, array_get ar a j = some x) :
    ∃ cs, read_children ar n a = some cs := by
  cases hr : read_children ar n a with
  | some cs => exact ⟨cs, rfl⟩
  | none =>
    obtain ⟨j, hj, hn⟩ := read_children_none hr
    obtain ⟨x, hx⟩ := hg j hj
    rw [hn] at hx
    simp at hx

theorem child_list_congr {ar ar1 : Arrays} {t : ts_tree}
    (he : ∀ n a, t.data = .children n a → array_block ar1 a = array_block ar a) :
    child_list ar1 t = child_list ar t := by
  unfold child_list
  cases hd : t.data with
  | error l xs => rfl
  | children n a => exact read_children_congr (he n a hd) n

theorem listed_congr {ar ar1 : Arrays} {t : ts_tree}
    (he : ∀ n a, t.data = .children n a → array_block ar1 a = array_block ar a) :
    listed ar1 t = listed ar t := by
  simp only [listed, child_list_congr he]

theorem child_list_data {ar : Arrays} {t t1 : ts_tree} (hd : t1.data = t.data) :
    child_list ar t1 = child_list ar t := by
  simp only [child_list, hd]

theorem listed_data {ar : Arrays} {t t1 : ts_tree} (hd : t1.data = t.data) :
    listed ar t1 = listed ar t := by
  simp only [listed, child_list_data hd]

theorem listed_of_child_list {ar : Arrays} {t : ts_tree} {cs : List Nat}
    (hc : child_list ar t = some cs) : listed ar t = cs := by
  simp [listed, hc]

theorem child_list_children {ar : Arrays} {t : ts_tree} {n a : Nat}
    (hd : t.data = .children n a) : child_list ar t = read_children ar n a := by
  simp [child_list, hd]

/-- A node whose children can be read holds the member `data.children`. -/
theorem child_list_some {ar : Arrays} {t : ts_tree} {cs : List Nat}
    (hc : child_list ar t = some cs) :
    ∃ n a, t.data = .children n a ∧ read_children ar n a = some cs ∧ cs.length = n := by
  unfold child_list at hc
  cases hd : t.data with
  | error l xs => simp [hd] at hc
  | children n a =>
    simp only [hd] at hc
    exact ⟨n, a, rfl, hc, read_children_length hc⟩

theorem listed_leaf {ar : Arrays} {t : ts_tree} {a : Nat} (hd : t.data = .children 0 a) :
    listed ar t = [] := by
  simp [listed, child_list, hd, read_children]

theorem listed_error {ar : Arrays} {t : ts_tree} {l : Nat} {xs : List ts_symbol}
    (hd : t.data = .error l xs) : listed ar t = [] := by
  simp [listed, child_list, hd]

/-! ## Loops -/

/-- A loop whose reads do not depend on the state and give the list `cs` is the loop
over `cs`. -/
theorem for_each_fixed_reads (read : Nat → Option Nat) (f : Heap → Nat → Option Heap)
    (cs : List Nat) :
    ∀ (i : Nat) (h : Heap), (∀ j, j < cs.length → read (i + j) = cs[j]?) →
      for_each (fun _ k => read k) f i cs.length h = for_list f h cs := by
  induction cs with
  | nil => intro i h _; rfl
  | cons c rest ih =>
    intro i h hr
    have h0 := hr 0 (by simp)
    simp only [Nat.add_zero, List.getElem?_cons_zero] at h0
    simp only [List.length_cons, for_each, h0, for_list]
    cases hf : f h c with
    | none => rfl
    | some h1 =>
      simp only
      apply ih (i + 1) h1
      intro j hj
      have := hr (j + 1) (by simp; omega)
      simpa [Nat.add_assoc, Nat.add_comm 1 j] using this

/-! ## The factories and `ts_tree_retain` -/

theorem set_data_live {h : Heap} {p : Nat} {t : ts_tree} (d : ts_tree_data)
    (hp : deref h p = some t) :
    set_data h p d = write h p (some { t with data := d }) := by
  simp [set_data, hp]

theorem make_set_data (h : Heap) (symbol : ts_symbol) (size offset : Nat) (d : ts_tree_data)
    (q : Nat) :
    deref (set_data (ts_tree_make h symbol size offset).1 (ts_tree_make h symbol size offset).2 d) q
      = if q = h.length + 1 then
          some { ref_count := 1, symbol := symbol, size := size, offset := offset,
                 is_hidden := false, data := d }
        else deref h q := by
  have hm := deref_malloc h ⟨1, symbol, size, offset, false, .children 0 0⟩
  have hnew := hm (h.length + 1)
  simp only [if_true] at hnew
  have hb := deref_some_bounds hnew
  have h2 : (ts_tree_make h symbol size offset).2 = h.length + 1 := rfl
  have h1 : (ts_tree_make h symbol size offset).1
      = (malloc h ⟨1, symbol, size, offset, false, .children 0 0⟩).1 := rfl
  rw [h2, h1, set_data_live d hnew, deref_write _ _ _ _ hb]
  by_cases hq : q = h.length + 1
  · simp [hq]
  · simp only [hq, if_false]
    have := hm q
    simpa [hq] using this

theorem make_set_data_length (h : Heap) (symbol : ts_symbol) (size offset : Nat)
    (d : ts_tree_data) :
    (set_data (ts_tree_make h symbol size offset).1 (ts_tree_make h symbol size offset).2 d).length
      = h.length + 1 := by
  simp only [set_data]
  split
  · rw [write_length]; simp [ts_tree_make, malloc]
  · simp [ts_tree_make, malloc]

theorem ts_tree_make_snd (h : Heap) (symbol : ts_symbol) (size offset : Nat) :
    (ts_tree_make h symbol size offset).2 = h.length + 1 := rfl

theorem retain_deref {h h1 : Heap} {p : Nat} (hr : ts_tree_retain h p = some h1) (q : Nat) :
    deref h1 q = if q = p then (deref h q).map (fun t => { t with ref_count := t.ref_count + 1 })
      else deref h q := by
  simp only [ts_tree_retain] at hr
  cases hd : deref h p with
  | none => simp [hd] at hr
  | some t =>
    simp only [hd, Option.some.injEq] at hr
    subst hr
    rw [deref_write _ _ _ _ (deref_some_bounds hd)]
    by_cases hq : q = p
    · subst hq; simp [hd]
    · simp [hq]

theorem retain_length {h h1 : Heap} {p : Nat} (hr : ts_tree_retain h p = some h1) :
    h1.length = h.length := by
  simp only [ts_tree_retain] at hr
  cases hd : deref h p with
  | none => simp [hd] at hr
  | some t =>
    simp only [hd, Option.some.injEq] at hr
    subst hr
    exact write_length _ _ _

/-- The retain loop of `ts_tree_make_node` over live children: every cell gains as many
references as it has positions in the list. -/
theorem retain_loop_spec (children : List Nat) :
    ∀ h : Heap, (∀ c ∈ children, ∃ t, deref h c = some t) →
      ∃ h1, for_list ts_tree_retain h children = some h1 ∧ h1.length = h.length ∧
        ∀ q, deref h1 q =
          (deref h q).map (fun t => { t with ref_count := t.ref_count + children.count q }) := by
  induction children with
  | nil =>
    intro h _
    refine ⟨h, rfl, rfl, ?_⟩
    intro q
    cases deref h q <;> simp
  | cons c cs ih =>
    intro h hl
    obtain ⟨t, ht⟩ := hl c (by simp)
    have hr : ts_tree_retain h c
        = some (write h c (some { t with ref_count := t.ref_count + 1 })) := by
      simp [ts_tree_retain, ht]
    have hd := retain_deref hr
    have hlen := retain_length hr
    obtain ⟨h1, hf, hl1, hq1⟩ := ih (write h c (some { t with ref_count := t.ref_count + 1 })) (by
      intro x hx
      obtain ⟨tx, htx⟩ := hl x (by simp [hx])
      rw [hd x]
      by_cases hxc : x = c
      · simp [hxc, ht]
      · simp [hxc, htx])
    refine ⟨h1, ?_, by omega, ?_⟩
    · simp only [for_list, hr]; exact hf
    · intro q
      rw [hq1 q, hd q]
      by_cases hqc : q = c
      · subst hqc
        cases hdq : deref h q with
        | none => simp
        | some tq =>
          simp only [if_true, Option.map_some', List.count_cons_self, Nat.cast_add, Nat.cast_one]
          congr 2
          omega
      · have hcq : ¬ (c = q) := fun e => hqc e.symm
        cases hdq : deref h q with
        | none => simp [hqc]
        | some tq =>
          simp [hqc, List.count_cons, hcq]

/-- The retain loop of `ts_tree_make_node` over an array that holds the list
`children`. -/
theorem retain_array_spec {ar : Arrays} {child_count children : Nat} {cs : List Nat}
    (hr : read_children ar child_count children = some cs) (h : Heap) :
    for_each (fun _ i => array_get ar children i) ts_tree_retain 0 child_count h
      = for_list ts_tree_retain h cs := by
  have hl := read_children_length hr
  rw [← hl]
  apply for_each_fixed_reads (fun i => array_get ar children i) ts_tree_retain cs 0 h
  intro j hj
  rw [Nat.zero_add]
  exact read_children_get hr j (by omega)

/-! ## Counting references -/

theorem occ_write (h : Heap) (ar : Arrays) (p x : Nat) (v : Option ts_tree)
    (hp : 1 ≤ p ∧ p ≤ h.length) :
    occ (write h p v) ar x + contrib ar x (deref h p) = occ h ar x + contrib ar x v := by
  obtain ⟨a, rfl⟩ : ∃ a, p = a + 1 := ⟨p - 1, by omega⟩
  have ha : a ∈ Finset.range h.length := by simp; omega
  have ha2 : a ∈ Finset.range (write h (a + 1) v).length := by rw [write_length]; exact ha
  unfold occ
  rw [← Finset.add_sum_erase _ _ ha, ← Finset.add_sum_erase _ _ ha2, write_length]
  rw [deref_write_same v hp]
  have : ∑ b ∈ (Finset.range h.length).erase a, contrib ar x (deref (write h (a + 1) v) (b + 1))
      = ∑ b ∈ (Finset.range h.length).erase a, contrib ar x (deref h (b + 1)) := by
    apply Finset.sum_congr rfl
    intro b hb
    have hne : b + 1 ≠ a + 1 := by
      have := (Finset.mem_erase.mp hb).1
      omega
    rw [deref_write_ne h v hne]
  rw [this]
  omega

theorem occ_congr {h h1 : Heap} {ar ar1 : Arrays} (x : Nat) (hl : h1.length = h.length)
    (hc : ∀ q, contrib ar1 x (deref h1 q) = contrib ar x (deref h q)) :
    occ h1 ar1 x = occ h ar x := by
  unfold occ
  rw [hl]
  exact Finset.sum_congr rfl (fun a _ => hc (a + 1))

theorem occ_extend {h h1 : Heap} {ar : Arrays} (x : Nat) (t : ts_tree)
    (hl : h1.length = h.length + 1)
    (hd : ∀ q, deref h1 q = if q = h.length + 1 then some t else deref h q) :
    occ h1 ar x = occ h ar x + contrib ar x (some t) := by
  unfold occ
  rw [hl, Finset.sum_range_succ, hd (h.length + 1)]
  simp only [if_true]
  congr 1
  apply Finset.sum_congr rfl
  intro a ha
  have : a + 1 ≠ h.length + 1 := by
    have := Finset.mem_range.mp ha
    omega
  rw [hd (a + 1)]
  simp [this]

theorem contrib_le_occ {h : Heap} {ar : Arrays} {p : Nat} {t : ts_tree} (x : Nat)
    (hp : deref h p = some t) : contrib ar x (some t) ≤ occ h ar x := by
  have hb := deref_some_bounds hp
  obtain ⟨a, rfl⟩ : ∃ a, p = a + 1 := ⟨p - 1, by omega⟩
  have ha : a ∈ Finset.range h.length := by simp; omega
  unfold occ
  rw [← Finset.add_sum_erase _ _ ha, hp]
  omega

/-! ## The invariant under changes of the stores -/

theorem heap_inv_congr {E : ts_symbol} {h : Heap} {ar : Arrays} {held held1 : Nat → Nat}
    (hi : heap_inv E h ar held) (he : ∀ q, held1 q = held q) : heap_inv E h ar held1 := by
  have : held1 = held := funext he
  rw [this]; exact hi

/-- The shape part of the invariant passes to a heap whose nodes are nodes of the old
heap with the same kind and `data`. -/
theorem shape_inv_sub {E : ts_symbol} {h h1 : Heap} {ar : Arrays} (hs : shape_inv E h ar)
    (hsub : ∀ q t1, deref h1 q = some t1 →
      ∃ t, deref h q = some t ∧ t.data = t1.data ∧ t.symbol = t1.symbol) :
    shape_inv E h1 ar := by
  refine ⟨?_, ?_, ?_, ?_, ?_⟩
  · intro p t1 hp x hx
    obtain ⟨t, ht, hd, _⟩ := hsub p t1 hp
    rw [← listed_data hd] at hx
    exact hs.child_lt p t ht x hx
  · intro p t1 hp hne
    obtain ⟨t, ht, hd, hsy⟩ := hsub p t1 hp
    rw [← hd]
    exact hs.variant_ok p t ht (by rw [hsy]; exact hne)
  · intro p t1 n a hp hdat ha
    obtain ⟨t, ht, hd, _⟩ := hsub p t1 hp
    exact hs.array_ok p t n a ht (by rw [hd]; exact hdat) ha
  · intro p t1 n hp hdat
    obtain ⟨t, ht, hd, _⟩ := hsub p t1 hp
    exact hs.null_ok p t n ht (by rw [hd]; exact hdat)
  · intro p q tp tq n m a hp hq hdp hdq ha
    obtain ⟨t, ht, hd, _⟩ := hsub p tp hp
    obtain ⟨u, hu, hd2, _⟩ := hsub q tq hq
    exact hs.unique p q t u n m a ht hu (by rw [hd]; exact hdp) (by rw [hd2]; exact hdq) ha

/-- The invariant does not see a change of the arrays that leaves alone every block a
node points to. -/
theorem heap_inv_arrays {E : ts_symbol} {h : Heap} {ar ar1 : Arrays} {held : Nat → Nat}
    (hi : heap_inv E h ar held)
    (hsame : ∀ q t n a, deref h q = some t → t.data = .children n a →
      array_block ar1 a = array_block ar a) :
    heap_inv E h ar1 held := by
  have hl : ∀ q t, deref h q = some t → listed ar1 t = listed ar t :=
    fun q t hq => listed_congr (fun n a hd => hsame q t n a hq hd)
  have hocc : ∀ x, occ h ar1 x = occ h ar x := by
    intro x
    apply occ_congr x rfl
    intro q
    cases hq : deref h q with
    | none => rfl
    | some t => simp only [contrib, hl q t hq]
  refine ⟨?_, ?_, ⟨?_, ?_, ?_, ?_, ?_⟩⟩
  · intro p t hp
    rw [hocc]
    exact hi.count_ok p t hp
  · intro p hp
    rw [hocc]
    exact hi.dead_ok p hp
  · intro p t hp x hx
    rw [hl p t hp] at hx
    exact hi.shape.child_lt p t hp x hx
  · exact hi.shape.variant_ok
  · intro p t n a hp hd ha
    rw [hsame p t n a hp hd]
    exact hi.shape.array_ok p t n a hp hd ha
  · exact hi.shape.null_ok
  · exact hi.shape.unique

/-- The children of a node of a heap in order can be read. -/
theorem child_list_of_shape {E : ts_symbol} {h : Heap} {ar : Arrays} (hs : shape_inv E h ar)
    {p : Nat} {t : ts_tree} {n a : Nat} (hp : deref h p = some t)
    (hd : t.data = .children n a) :
    ∃ cs, read_children ar n a = some cs ∧ child_list ar t = some cs ∧ listed ar t = cs ∧
      cs.length = n := by
  by_cases ha : a = 0
  · subst ha
    have hn := hs.null_ok p t n hp hd
    subst hn
    refine ⟨[], read_children_zero ar 0, ?_, ?_, rfl⟩
    · rw [child_list_children hd]; exact read_children_zero ar 0
    · exact listed_leaf hd
  · obtain ⟨b, hb, _, hn⟩ := hs.array_ok p t n a hp hd ha
    have hr := read_children_of_block hb hn
    have hc : child_list ar t = some (b.cells.take n) := by
      rw [child_list_children hd]; exact hr
    exact ⟨_, hr, hc, listed_of_child_list hc, read_children_length hr⟩

/-! ## `ts_tree_release` -/

theorem release_post_mono {E : ts_symbol} {h h1 : Heap} {ar ar1 : Arrays} {held : Nat → Nat}
    {b b1 : Nat} (hp : release_post E h ar held b h1 ar1) (hb : b ≤ b1) :
    release_post E h ar held b1 h1 ar1 :=
  ⟨hp.inv, hp.length_eq, fun q hq => hp.frame q (by omega), hp.no_zombie, hp.stable,
    hp.arrays_length, hp.arrays_ok⟩

/-- The node whose last reference is released: its count is zero, and the references
it held on its children are owed to the release loop. -/
theorem heap_inv_last_ref {E : ts_symbol} {h : Heap} {ar : Arrays} {held : Nat → Nat} {p : Nat}
    {t : ts_tree} (hi : heap_inv E h ar held) (hd : deref h p = some t) (hh : 1 ≤ held p)
    (hz : t.ref_count - 1 = 0) (cs : List Nat)
    (hcnt : ∀ x, cs.count x ≤ (listed ar t).count x) (hlt : ∀ x ∈ cs, x < p) :
    heap_inv E (write h p (some { t with ref_count := t.ref_count - 1 })) ar
      (fun q => (if q = p then held q - 1 else held q) + cs.count q) := by
  have hb := deref_some_bounds hd
  obtain ⟨hrc0, hrc⟩ := hi.count_ok p t hd
  have hrc1 : t.ref_count = 1 := by omega
  have hheld : held p = 1 := by omega
  have hoccp : occ h ar p = 0 := by omega
  have hocc1 : ∀ x, occ (write h p (some { t with ref_count := t.ref_count - 1 })) ar x
      + (listed ar t).count x = occ h ar x := by
    intro x
    have := occ_write h ar p x (some { t with ref_count := t.ref_count - 1 }) hb
    rw [hd] at this
    simpa [contrib, hz, hrc1] using this
  have hd1 : ∀ q, deref (write h p (some { t with ref_count := t.ref_count - 1 })) q
      = if q = p then some { t with ref_count := t.ref_count - 1 } else deref h q :=
    fun q => deref_write h p q _ hb
  have hpcs : cs.count p = 0 := by
    apply List.count_eq_zero_of_not_mem
    intro hm
    have := hlt p hm
    omega
  refine ⟨?_, ?_, ?_⟩
  · intro q tq hq
    rw [hd1 q] at hq
    by_cases hqp : q = p
    · subst hqp
      simp only [if_true, Option.some.injEq] at hq
      subst hq
      have := hocc1 q
      simp only [if_true]
      refine ⟨?_, ?_⟩ <;> (try dsimp only) <;> omega
    · simp only [hqp, if_false] at hq ⊢
      obtain ⟨ha, hb2⟩ := hi.count_ok q tq hq
      have := hocc1 q
      have := hcnt q
      constructor <;> omega
  · intro q hq
    rw [hd1 q] at hq
    by_cases hqp : q = p
    · simp [hqp] at hq
    · simp only [hqp, if_false] at hq ⊢
      obtain ⟨ha, hb2⟩ := hi.dead_ok q hq
      have := hocc1 q
      have := hcnt q
      constructor <;> omega
  · apply shape_inv_sub hi.shape
    intro q t1 hq
    rw [hd1 q] at hq
    by_cases hqp : q = p
    · subst hqp
      simp only [if_true, Option.some.injEq] at hq
      subst hq
      exact ⟨t, hd, rfl, rfl⟩
    · simp only [hqp, if_false] at hq
      exact ⟨t1, hq, rfl, rfl⟩

/-- The node torn down is freed together with its array: the invariant holds again, and
the array is no longer pointed to. -/
theorem heap_inv_free_node {E : ts_symbol} {h : Heap} {ar ar1 : Arrays} {held : Nat → Nat}
    {p a : Nat} {t : ts_tree} (hi : heap_inv E h ar held) (hd : deref h p = some t)
    (hz : t.ref_count = 0) (hf : free_array ar a = some ar1)
    (ha : a ≠ 0 → ∃ n, t.data = .children n a) :
    heap_inv E (write h p none) ar1 held ∧
    ∀ a1, array_block ar1 a1 = array_block ar a1 ∨
      (array_block ar1 a1 = none ∧
        ∀ q tq n, deref (write h p none) q = some tq → tq.data ≠ .children n a1) := by
  have hb := deref_some_bounds hd
  have hd2 : ∀ q, deref (write h p none) q = if q = p then none else deref h q :=
    fun q => deref_write h p q _ hb
  have hblock := array_block_free_array hf
  -- no other node points to the array that is freed
  have hother : ∀ q tq n, deref (write h p none) q = some tq → a ≠ 0 → tq.data ≠ .children n a := by
    intro q tq n hq ha0 hdq
    rw [hd2 q] at hq
    by_cases hqp : q = p
    · simp [hqp] at hq
    · simp only [hqp, if_false] at hq
      obtain ⟨m, hm⟩ := ha ha0
      exact hqp (hi.shape.unique q p tq t n m a hq hd hdq hm ha0)
  have hsame : ∀ q tq n a1, deref (write h p none) q = some tq → tq.data = .children n a1 →
      array_block ar1 a1 = array_block ar a1 := by
    intro q tq n a1 hq hdq
    rw [hblock a1]
    by_cases he : a1 = a
    · subst he
      by_cases h0 : a1 = 0
      · subst h0; simp [array_block_zero]
      · exact absurd hdq (hother q tq n hq h0)
    · rw [if_neg he]
  have hocc : ∀ x, occ (write h p none) ar x = occ h ar x := by
    intro x
    have := occ_write h ar p x none hb
    rw [hd] at this
    simpa [contrib, hz] using this
  have hmid : heap_inv E (write h p none) ar held := by
    refine ⟨?_, ?_, ?_⟩
    · intro q tq hq
      rw [hd2 q] at hq
      by_cases hqp : q = p
      · simp [hqp] at hq
      · simp only [hqp, if_false] at hq
        rw [hocc q]
        exact hi.count_ok q tq hq
    · intro q hq
      rw [hocc q]
      by_cases hqp : q = p
      · subst hqp
        have := (hi.count_ok q t hd).2
        constructor <;> omega
      · rw [hd2 q] at hq
        simp only [hqp, if_false] at hq
        exact hi.dead_ok q hq
    · apply shape_inv_sub hi.shape
      intro q t1 hq
      rw [hd2 q] at hq
      by_cases hqp : q = p
      · simp [hqp] at hq
      · simp only [hqp, if_false] at hq
        exact ⟨t1, hq, rfl, rfl⟩
  refine ⟨heap_inv_arrays hmid hsame, ?_⟩
  intro a1
  rw [hblock a1]
  by_cases he : a1 = a
  · subst he
    by_cases h0 : a1 = 0
    · subst h0
      left
      simp [array_block_zero]
    · right
      refine ⟨if_pos rfl, ?_⟩
      intro q tq n hq
      exact hother q tq n hq h0
  · left
    rw [if_neg he]

/-- The release loop over the array `a` of the node `P`, which holds the list `cs` from
index `i` on: each child is owed one release per position, and a single release behaves
(`ih`). -/
theorem release_loop_spec (E : ts_symbol) (fuel : Nat)
    (ih : ∀ (h : Heap) (ar : Arrays) (held : Nat → Nat) (p : Nat), heap_inv E h ar held →
      1 ≤ held p → p ≤ fuel →
      ∃ h1 ar1, ts_tree_release E fuel h ar p = some (h1, ar1) ∧
        release_post E h ar (fun q => if q = p then held q - 1 else held q) p h1 ar1)
    (bound a P : Nat) (hP : bound < P) (cs : List Nat) :
    ∀ (i : Nat) (h : Heap) (ar : Arrays) (held : Nat → Nat),
      heap_inv E h ar (fun q => held q + cs.count q) →
      (cs ≠ [] → ∃ t n, deref h P = some t ∧ t.data = .children n a) →
      (∀ j, j < cs.length → array_get ar a (i + j) = cs[j]?) →
      (∀ c ∈ cs, c ≤ bound) → bound ≤ fuel →
      ∃ h1 ar1,
        for_each (fun (s : Heap × Arrays) k => array_get s.2 a k)
          (fun s c => ts_tree_release E fuel s.1 s.2 c) i cs.length (h, ar) = some (h1, ar1) ∧
        release_post E h ar held bound h1 ar1 := by
  induction cs with
  | nil =>
    intro i h ar held hi _ _ _ _
    refine ⟨h, ar, rfl, heap_inv_congr hi (by intro q; simp), rfl, fun _ _ => rfl, ?_, ?_, rfl,
      fun _ => Or.inl rfl⟩
    · intro q t1 hq ht
      exact ⟨t1, hq, ht⟩
    · intro q t1 hq
      exact ⟨t1, hq, rfl, rfl⟩
  | cons c rest ihl =>
    intro i h ar held hi hpar hread hb hbf
    have hc : c ≤ bound := hb c (by simp)
    obtain ⟨tP, nP, hPd, hPdata⟩ := hpar (by simp)
    obtain ⟨hm, arm, hrel, hpost⟩ := ih h ar (fun q => held q + (c :: rest).count q) c hi
      (by simp; omega) (by omega)
    have hi2 : heap_inv E hm arm (fun q => held q + rest.count q) := by
      apply heap_inv_congr hpost.inv
      intro q
      by_cases hq : q = c
      · subst hq; simp
      · have : ¬ (c = q) := fun e => hq e.symm
        simp [hq, List.count_cons, this]
    -- the parent and its array are as they were
    have hPm : deref hm P = some tP := by rw [hpost.frame P (by omega)]; exact hPd
    have harr : array_block arm a = array_block ar a := by
      rcases hpost.arrays_ok a with h1 | ⟨_, h2⟩
      · exact h1
      · exact absurd hPdata (h2 P tP nP hPm)
    have hread0 : array_get ar a i = some c := by
      have := hread 0 (by simp)
      simpa using this
    obtain ⟨h1, ar1, hloop, hpost1⟩ := ihl (i + 1) hm arm held hi2
      (fun _ => ⟨tP, nP, hPm, hPdata⟩)
      (by
        intro j hj
        rw [array_get_congr harr]
        have := hread (j + 1) (by simp; omega)
        simpa [Nat.add_assoc, Nat.add_comm 1 j] using this)
      (fun x hx => hb x (by simp [hx])) hbf
    refine ⟨h1, ar1, ?_, hpost1.inv, ?_, ?_, ?_, ?_, ?_, ?_⟩
    · simp only [List.length_cons, for_each, hread0, hrel]
      exact hloop
    · rw [hpost1.length_eq, hpost.length_eq]
    · intro q hq
      rw [hpost1.frame q hq, hpost.frame q (by omega)]
    · intro q t1 hq ht
      obtain ⟨t2, hq2, ht2⟩ := hpost1.no_zombie q t1 hq ht
      exact hpost.no_zombie q t2 hq2 ht2
    · intro q t1 hq
      obtain ⟨t2, hq2, hd2, hs2⟩ := hpost1.stable q t1 hq
      obtain ⟨t3, hq3, hd3, hs3⟩ := hpost.stable q t2 hq2
      exact ⟨t3, hq3, hd3.trans hd2, hs3.trans hs2⟩
    · rw [hpost1.arrays_length, hpost.arrays_length]
    · intro a1
      rcases hpost1.arrays_ok a1 with e1 | ⟨e1, n1⟩
      · rcases hpost.arrays_ok a1 with e2 | ⟨e2, n2⟩
        · exact Or.inl (e1.trans e2)
        · right
          refine ⟨e1.trans e2, ?_⟩
          intro q t1 n hq hdq
          obtain ⟨t2, hq2, hd2, _⟩ := hpost1.stable q t1 hq
          exact n2 q t2 n hq2 (by rw [hd2]; exact hdq)
      · exact Or.inr ⟨e1, n1⟩

/-- What `ts_tree_children` reports for a live node of a heap in order: the array and
count of a list `cs` of children, all older than the node. -/
theorem children_of_live {E : ts_symbol} {h : Heap} {ar : Arrays} {held : Nat → Nat} {p : Nat}
    {t : ts_tree} (hi : heap_inv E h ar held) (hp : deref h p = some t) :
    ∃ a cs, ts_tree_children E h p = some (a, cs.length) ∧
      (∀ j, j < cs.length → array_get ar a j = cs[j]?) ∧
      (∀ x, cs.count x ≤ (listed ar t).count x) ∧ (∀ x ∈ cs, x < p) ∧
      (cs ≠ [] → t.data = .children cs.length a) ∧
      (a ≠ 0 → t.data = .children cs.length a ∧
        ∃ b, array_block ar a = some b ∧ b.on_heap = true) ∧
      (t.symbol ≠ E → listed ar t = cs) ∧
      (a ≠ 0 → t.symbol ≠ E) ∧ (∀ n a1, t.symbol ≠ E → t.data = .children n a1 → a1 = a) := by
  by_cases hs : t.symbol = E
  · refine ⟨0, [], by simp [ts_tree_children, hp, hs], by simp, by simp, by simp, by simp,
      by simp, fun hne => absurd hs hne, by simp, fun n a1 hne _ => absurd hs hne⟩
  · obtain ⟨n, a, hk⟩ := hi.shape.variant_ok p t hp hs
    obtain ⟨cs, hr, _, hl, hlen⟩ := child_list_of_shape hi.shape hp hk
    subst hlen
    refine ⟨a, cs, by simp [ts_tree_children, hp, hs, hk], ?_, ?_, ?_, fun _ => hk, ?_,
      fun _ => hl, fun _ => hs, ?_⟩
    · intro j hj
      exact read_children_get hr j hj
    · intro x; rw [hl]
    · intro x hx
      exact hi.shape.child_lt p t hp x (by rw [hl]; exact hx)
    · intro ha
      obtain ⟨b, hb, hh, _⟩ := hi.shape.array_ok p t _ a hp hk ha
      exact ⟨hk, b, hb, hh⟩
    · intro m a1 _ hd1
      rw [hk] at hd1
      simp only [ts_tree_data.children.injEq] at hd1
      exact hd1.2.symm

/-- Releasing a reference that is held: with fuel at least the address, the call
returns, the accounting invariant holds again with that reference given up, only
addresses up to `p` are touched, no node is left with a zero count, and the arrays
freed are those of the nodes freed. -/
theorem release_spec (E : ts_symbol) :
    ∀ (fuel : Nat) (h : Heap) (ar : Arrays) (held : Nat → Nat) (p : Nat),
      heap_inv E h ar held → 1 ≤ held p → p ≤ fuel →
      ∃ h1 ar1, ts_tree_release E fuel h ar p = some (h1, ar1) ∧
        release_post E h ar (fun q => if q = p then held q - 1 else held q) p h1 ar1 := by
  intro fuel
  induction fuel with
  | zero =>
    intro h ar held p hi hh hp
    have hp0 : p = 0 := by omega
    subst hp0
    have := (hi.dead_ok 0 (deref_zero h)).1
    omega
  | succ fuel ih =>
    intro h ar held p hi hh hp
    cases hd : deref h p with
    | none =>
      have := (hi.dead_ok p hd).1
      omega
    | some t =>
      have hb := deref_some_bounds hd
      obtain ⟨hrc0, hrc⟩ := hi.count_ok p t hd
      have hd1 : ∀ q, deref (write h p (some { t with ref_count := t.ref_count - 1 })) q
          = if q = p then some { t with ref_count := t.ref_count - 1 } else deref h q :=
        fun q => deref_write h p q _ hb
      by_cases hz : t.ref_count - 1 = 0
      · -- the last reference: tear the node down
        have hheld : held p = 1 := by omega
        obtain ⟨a, cs, hcs, hget, hcnt, hlt, hne, hown, _, _, _⟩ := children_of_live hi hd
        have hcs1 : ts_tree_children E (write h p (some { t with ref_count := t.ref_count - 1 })) p
            = some (a, cs.length) := by
          simp only [ts_tree_children, hd1 p, if_true]
          simpa [ts_tree_children, hd] using hcs
        have hi1 := heap_inv_last_ref hi hd hh hz cs hcnt hlt
        obtain ⟨h2, ar2, hloop, hpost⟩ := release_loop_spec E fuel ih (p - 1) a p (by omega) cs
          0 _ ar _ hi1
          (fun hc => ⟨{ t with ref_count := t.ref_count - 1 }, cs.length,
            by rw [hd1 p, if_pos rfl], hne hc⟩)
          (fun j hj => by rw [Nat.zero_add]; exact hget j hj)
          (fun c hc => by have := hlt c hc; omega) (by omega)
        have hl2 : h2.length = h.length := by rw [hpost.length_eq, write_length]
        have hb2 : 1 ≤ p ∧ p ≤ h2.length := by omega
        have hp2 : deref h2 p = some { t with ref_count := t.ref_count - 1 } := by
          rw [hpost.frame p (by omega), hd1 p]; simp
        -- the array of the node is still there and is freed
        have hfree : ∃ ar3, free_array ar2 a = some ar3 := by
          by_cases ha : a = 0
          · subst ha; exact ⟨ar2, free_array_null ar2⟩
          · obtain ⟨hdat, b, hblk, hheap⟩ := hown ha
            have hsame : array_block ar2 a = array_block ar a := by
              rcases hpost.arrays_ok a with e | ⟨_, n2⟩
              · exact e
              · exact absurd hdat (n2 p { t with ref_count := t.ref_count - 1 } cs.length hp2)
            exact free_array_some (hsame.trans hblk) hheap
        obtain ⟨ar3, hf3⟩ := hfree
        obtain ⟨hinv3, harr3⟩ := heap_inv_free_node hpost.inv hp2 hz hf3
          (fun ha => ⟨cs.length, (hown ha).1⟩)
        have hd2 : ∀ q, deref (write h2 p none) q = if q = p then none else deref h2 q :=
          fun q => deref_write h2 p q _ hb2
        refine ⟨write h2 p none, ar3, ?_, ⟨hinv3, ?_, ?_, ?_, ?_, ?_, ?_⟩⟩
        · rw [ts_tree_release]
          simp only [hd]
          rw [if_pos hz]
          simp only [hcs1, hloop, hf3, free_live hp2]
        · simp only [write_length]; exact hl2
        · intro q hq
          have hqp : q ≠ p := by omega
          rw [hd2 q, hpost.frame q (by omega), hd1 q]
          simp [hqp]
        · intro q tq hq hz2
          rw [hd2 q] at hq
          by_cases hqp : q = p
          · simp [hqp] at hq
          · simp only [hqp, if_false] at hq
            obtain ⟨t3, hq3, hz3⟩ := hpost.no_zombie q tq hq hz2
            rw [hd1 q] at hq3
            simp only [hqp, if_false] at hq3
            exact ⟨t3, hq3, hz3⟩
        · intro q tq hq
          rw [hd2 q] at hq
          by_cases hqp : q = p
          · simp [hqp] at hq
          · simp only [hqp, if_false] at hq
            obtain ⟨t3, hq3, hd3, hs3⟩ := hpost.stable q tq hq
            rw [hd1 q] at hq3
            simp only [hqp, if_false] at hq3
            exact ⟨t3, hq3, hd3, hs3⟩
        · rw [free_array_length hf3, hpost.arrays_length]
        · intro a1
          rcases harr3 a1 with e1 | ⟨e1, n1⟩
          · rcases hpost.arrays_ok a1 with e2 | ⟨e2, n2⟩
            · exact Or.inl (e1.trans e2)
            · right
              refine ⟨e1.trans e2, ?_⟩
              intro q tq n hq hdq
              rw [hd2 q] at hq
              by_cases hqp : q = p
              · simp [hqp] at hq
              · simp only [hqp, if_false] at hq
                exact n2 q tq n hq hdq
          · exact Or.inr ⟨e1, n1⟩
      · -- other references remain
        have hrc2 : 2 ≤ t.ref_count := by omega
        have hocc1 : ∀ x, occ (write h p (some { t with ref_count := t.ref_count - 1 })) ar x
            = occ h ar x := by
          intro x
          have := occ_write h ar p x (some { t with ref_count := t.ref_count - 1 }) hb
          rw [hd] at this
          have h0 : t.ref_count ≠ 0 := by omega
          have e : listed ar { t with ref_count := t.ref_count - 1 } = listed ar t :=
            listed_data rfl
          simpa [contrib, hz, h0, e] using this
        refine ⟨write h p (some { t with ref_count := t.ref_count - 1 }), ar, ?_,
          ⟨⟨?_, ?_, ?_⟩, write_length _ _ _, ?_, ?_, ?_, rfl, fun _ => Or.inl rfl⟩⟩
        · rw [ts_tree_release]
          simp only [hd]
          rw [if_neg hz]
        · intro q tq hq
          rw [hd1 q] at hq
          rw [hocc1 q]
          by_cases hqp : q = p
          · subst hqp
            simp only [if_true, Option.some.injEq] at hq
            subst hq
            simp only [if_true]
            refine ⟨?_, ?_⟩ <;> (try dsimp only) <;> omega
          · simp only [hqp, if_false] at hq ⊢
            exact hi.count_ok q tq hq
        · intro q hq
          rw [hd1 q] at hq
          rw [hocc1 q]
          by_cases hqp : q = p
          · simp [hqp] at hq
          · simp only [hqp, if_false] at hq ⊢
            exact hi.dead_ok q hq
        · apply shape_inv_sub hi.shape
          intro q t1 hq
          rw [hd1 q] at hq
          by_cases hqp : q = p
          · subst hqp
            simp only [if_true, Option.some.injEq] at hq
            subst hq
            exact ⟨t, hd, rfl, rfl⟩
          · simp only [hqp, if_false] at hq
            exact ⟨t1, hq, rfl, rfl⟩
        · intro q hq
          have hqp : q ≠ p := by omega
          rw [hd1 q]; simp [hqp]
        · intro q tq hq hz2
          rw [hd1 q] at hq
          by_cases hqp : q = p
          · subst hqp
            simp only [if_true, Option.some.injEq] at hq
            subst hq
            exact absurd hz2 hz
          · simp only [hqp, if_false] at hq
            exact ⟨tq, hq, hz2⟩
        · intro q tq hq
          rw [hd1 q] at hq
          by_cases hqp : q = p
          · subst hqp
            simp only [if_true, Option.some.injEq] at hq
            subst hq
            exact ⟨t, hd, rfl, rfl⟩
          · simp only [hqp, if_false] at hq
            exact ⟨tq, hq, rfl, rfl⟩

/-! ## Fuel -/

theorem for_each_mono {σ : Type} (read : σ → Nat → Option Nat) {f g : σ → Nat → Option σ}
    (hfg : ∀ s c s1, f s c = some s1 → g s c = some s1) (n : Nat) :
    ∀ (i : Nat) (s s1 : σ), for_each read f i n s = some s1 → for_each read g i n s = some s1 := by
  induction n with
  | zero => intro i s s1 hf; simpa [for_each] using hf
  | succ n ih =>
    intro i s s1 hf
    simp only [for_each] at hf ⊢
    cases hr : read s i with
    | none => simp [hr] at hf
    | some c =>
      simp only [hr] at hf ⊢
      cases hc : f s c with
      | none => simp [hc] at hf
      | some sm =>
        simp only [hc] at hf
        rw [hfg s c sm hc]
        exact ih (i + 1) sm s1 hf

theorem release_fuel_succ (E : ts_symbol) :
    ∀ (fuel : Nat) (h : Heap) (ar : Arrays) (p : Nat) (r : Heap × Arrays),
      ts_tree_release E fuel h ar p = some r → ts_tree_release E (fuel + 1) h ar p = some r := by
  intro fuel
  induction fuel with
  | zero => intro h ar p r hr; simp [ts_tree_release] at hr
  | succ fuel ih =>
    intro h ar p r hr
    rw [ts_tree_release] at hr ⊢
    cases hd : deref h p with
    | none => simp [hd] at hr
    | some t =>
      simp only [hd] at hr ⊢
      by_cases hz : t.ref_count - 1 = 0
      · rw [if_pos hz] at hr ⊢
        cases hc : ts_tree_children E
            (write h p (some { t with ref_count := t.ref_count - 1 })) p with
        | none => simp [hc] at hr
        | some ac =>
          simp only [hc] at hr ⊢
          cases hl : for_each (fun (s : Heap × Arrays) i => array_get s.2 ac.1 i)
              (fun s child => ts_tree_release E fuel s.1 s.2 child) 0 ac.2
              (write h p (some { t with ref_count := t.ref_count - 1 }), ar) with
          | none => simp [hl] at hr
          | some s2 =>
            simp only [hl] at hr
            rw [for_each_mono _ (fun s c s1 => ih s.1 s.2 c s1) ac.2 0 _ _ hl]
            exact hr
      · rw [if_neg hz] at hr ⊢
        exact hr

/-- More fuel never changes the result of `ts_tree_release`. -/
theorem release_fuel_mono (E : ts_symbol) {fuel fuel1 : Nat} {h : Heap} {ar : Arrays} {p : Nat}
    {r : Heap × Arrays} (hr : ts_tree_release E fuel h ar p = some r) (hle : fuel ≤ fuel1) :
    ts_tree_release E fuel1 h ar p = some r := by
  induction hle with
  | refl => exact hr
  | step _ ih => exact release_fuel_succ E _ h ar p r ih

/-! ## The invariant of reachable states -/

theorem live_of_held {E : ts_symbol} {h : Heap} {ar : Arrays} {held : Nat → Nat}
    (hi : heap_inv E h ar held) {p : Nat} (hp : 1 ≤ held p) : ∃ t, deref h p = some t := by
  cases hd : deref h p with
  | none => have := (hi.dead_ok p hd).1; omega
  | some t => exact ⟨t, rfl⟩

/-- The retain loop keeps the accounting invariant, the new counts being owed to
whoever asked for them. -/
theorem retain_loop_inv {E : ts_symbol} {h : Heap} {ar : Arrays} {held : Nat → Nat}
    (cs : List Nat) (hi : heap_inv E h ar held)
    (hz : ∀ p t, deref h p = some t → t.ref_count ≠ 0)
    (hl : ∀ c ∈ cs, ∃ t, deref h c = some t) :
    ∃ h1, for_list ts_tree_retain h cs = some h1 ∧ h1.length = h.length ∧
      (∀ q, deref h1 q =
        (deref h q).map (fun t => { t with ref_count := t.ref_count + cs.count q })) ∧
      heap_inv E h1 ar (fun q => held q + cs.count q) ∧
      ∀ p t, deref h1 p = some t → t.ref_count ≠ 0 := by
  obtain ⟨h1, hf, hlen, hd⟩ := retain_loop_spec cs h hl
  have hocc : ∀ x, occ h1 ar x = occ h ar x := by
    intro x
    apply occ_congr x hlen
    intro q
    rw [hd q]
    cases hq : deref h q with
    | none => rfl
    | some t =>
      have h0 := (hi.count_ok q t hq).1
      have h1 := hz q t hq
      have h2 : t.ref_count + (cs.count q : Int) ≠ 0 := by omega
      have e : listed ar { t with ref_count := t.ref_count + (cs.count q : Int) } = listed ar t :=
        listed_data rfl
      simp [contrib, h1, h2, e]
  refine ⟨h1, hf, hlen, hd, ⟨?_, ?_, ?_⟩, ?_⟩
  · intro q tq hq
    rw [hd q] at hq
    cases hq0 : deref h q with
    | none => simp [hq0] at hq
    | some t =>
      simp only [hq0, Option.map_some', Option.some.injEq] at hq
      subst hq
      obtain ⟨ha, hb⟩ := hi.count_ok q t hq0
      rw [hocc q]
      refine ⟨?_, ?_⟩ <;> (try dsimp only) <;> omega
  · intro q hq
    rw [hd q] at hq
    cases hq0 : deref h q with
    | none =>
      obtain ⟨ha, hb⟩ := hi.dead_ok q hq0
      have hnm : q ∉ cs := by
        intro hm
        obtain ⟨t, ht⟩ := hl q hm
        simp [ht] at hq0
      rw [hocc q]
      simp only [List.count_eq_zero_of_not_mem hnm]
      omega
    | some t => simp [hq0] at hq
  · apply shape_inv_sub hi.shape
    intro q t1 hq
    rw [hd q] at hq
    cases hq0 : deref h q with
    | none => simp [hq0] at hq
    | some t =>
      simp only [hq0, Option.map_some', Option.some.injEq] at hq
      subst hq
      exact ⟨t, rfl, rfl, rfl⟩
  · intro q tq hq
    rw [hd q] at hq
    cases hq0 : deref h q with
    | none => simp [hq0] at hq
    | some t =>
      simp only [hq0, Option.map_some', Option.some.injEq] at hq
      subst hq
      have h0 := (hi.count_ok q t hq0).1
      have h1 := hz q t hq0
      try dsimp only
      omega

/-- Allocating a node with count 1 over children whose references are already
accounted for, and over an array that is in order and not pointed to, keeps the
invariant; the caller holds the new node. -/
theorem heap_inv_extend {E : ts_symbol} {h h1 : Heap} {ar : Arrays} {held : Nat → Nat}
    (t0 : ts_tree)
    (hi : heap_inv E h ar (fun q => held q + (listed ar t0).count q))
    (hz : ∀ p t, deref h p = some t → t.ref_count ≠ 0)
    (hrc : t0.ref_count = 1)
    (hv : t0.symbol ≠ E → ∃ n a, t0.data = .children n a)
    (harr : ∀ n a, t0.data = .children n a → a ≠ 0 →
      (∃ b, array_block ar a = some b ∧ b.on_heap = true ∧ n ≤ b.cells.length) ∧
      ∀ q t m, deref h q = some t → t.data ≠ .children m a)
    (hnull : ∀ n, t0.data = .children n 0 → n = 0)
    (hl : h1.length = h.length + 1)
    (hd : ∀ q, deref h1 q = if q = h.length + 1 then some t0 else deref h q) :
    config_inv E ⟨h1, ar, acquire held (h.length + 1)⟩ := by
  have hocc : ∀ x, occ h1 ar x = occ h ar x + (listed ar t0).count x := by
    intro x
    rw [occ_extend x t0 hl hd]
    simp [contrib, hrc]
  have hnew : deref h (h.length + 1) = none := deref_beyond (by omega)
  obtain ⟨hn1, hn2⟩ := hi.dead_ok _ hnew
  refine ⟨⟨?_, ?_, ⟨?_, ?_, ?_, ?_, ?_⟩⟩, ?_⟩
  · intro q tq hq
    try dsimp only at hq ⊢
    rw [hd q] at hq
    rw [hocc q]
    by_cases hqn : q = h.length + 1
    · subst hqn
      simp only [if_true, Option.some.injEq] at hq
      subst hq
      simp only [acquire, if_true]
      refine ⟨?_, ?_⟩ <;> omega
    · simp only [hqn, if_false] at hq
      obtain ⟨ha, hb⟩ := hi.count_ok q tq hq
      try dsimp only at hb
      simp only [acquire, hqn, if_false]
      refine ⟨?_, ?_⟩ <;> omega
  · intro q hq
    try dsimp only at hq ⊢
    rw [hd q] at hq
    rw [hocc q]
    by_cases hqn : q = h.length + 1
    · simp [hqn] at hq
    · simp only [hqn, if_false] at hq
      obtain ⟨ha, hb⟩ := hi.dead_ok q hq
      try dsimp only at ha
      simp only [acquire, hqn, if_false]
      refine ⟨?_, ?_⟩ <;> omega
  · intro q tq hq
    try dsimp only at hq
    rw [hd q] at hq
    by_cases hqn : q = h.length + 1
    · subst hqn
      simp only [if_true, Option.some.injEq] at hq
      subst hq
      intro x hx
      have hc : 1 ≤ (listed ar t0).count x := List.count_pos_iff.mpr hx
      obtain ⟨tx, htx⟩ := live_of_held hi (p := x) (by omega)
      have := (deref_some_bounds htx).2
      omega
    · simp only [hqn, if_false] at hq
      exact hi.shape.child_lt q tq hq
  · intro q tq hq
    try dsimp only at hq
    rw [hd q] at hq
    by_cases hqn : q = h.length + 1
    · subst hqn
      simp only [if_true, Option.some.injEq] at hq
      subst hq
      exact hv
    · simp only [hqn, if_false] at hq
      exact hi.shape.variant_ok q tq hq
  · intro q tq n a hq hdat ha
    try dsimp only at hq
    rw [hd q] at hq
    by_cases hqn : q = h.length + 1
    · subst hqn
      simp only [if_true, Option.some.injEq] at hq
      subst hq
      exact (harr n a hdat ha).1
    · simp only [hqn, if_false] at hq
      exact hi.shape.array_ok q tq n a hq hdat ha
  · intro q tq n hq hdat
    try dsimp only at hq
    rw [hd q] at hq
    by_cases hqn : q = h.length + 1
    · subst hqn
      simp only [if_true, Option.some.injEq] at hq
      subst hq
      exact hnull n hdat
    · simp only [hqn, if_false] at hq
      exact hi.shape.null_ok q tq n hq hdat
  · intro p q tp tq n m a hp hq hdp hdq ha
    try dsimp only at hp hq
    rw [hd p] at hp
    rw [hd q] at hq
    by_cases hpn : p = h.length + 1
    · by_cases hqn : q = h.length + 1
      · rw [hpn, hqn]
      · subst hpn
        simp only [if_true, Option.some.injEq] at hp
        subst hp
        simp only [hqn, if_false] at hq
        exact absurd hdq ((harr n a hdp ha).2 q tq m hq)
    · by_cases hqn : q = h.length + 1
      · subst hqn
        simp only [if_true, Option.some.injEq] at hq
        subst hq
        simp only [hpn, if_false] at hp
        exact absurd hdp ((harr m a hdq ha).2 p tp n hp)
      · simp only [hpn, if_false] at hp
        simp only [hqn, if_false] at hq
        exact hi.shape.unique p q tp tq n m a hp hq hdp hdq ha
  · intro q tq hq
    try dsimp only at hq
    rw [hd q] at hq
    by_cases hqn : q = h.length + 1
    · subst hqn
      simp only [if_true, Option.some.injEq] at hq
      subst hq
      omega
    · simp only [hqn, if_false] at hq
      exact hz q tq hq

theorem config_inv_empty (E : ts_symbol) : config_inv E ⟨[], [], fun _ => 0⟩ := by
  have hd : ∀ p, deref ([] : Heap) p = none := fun p => by cases p <;> simp [deref]
  refine ⟨⟨?_, ?_, ⟨?_, ?_, ?_, ?_, ?_⟩⟩, ?_⟩
  · intro p t hp; simp [hd p] at hp
  · intro p _; simp [occ]
  · intro p t hp; simp [hd p] at hp
  · intro p t hp; simp [hd p] at hp
  · intro p t n a hp; simp [hd p] at hp
  · intro p t n hp; simp [hd p] at hp
  · intro p q tp tq n m a hp; simp [hd p] at hp
  · intro p t hp; simp [hd p] at hp

/-- A factory call that allocates a node without children keeps the invariant. -/
theorem make_childless_inv {E : ts_symbol} {c : Config} (hi : config_inv E c)
    (symbol : ts_symbol) (size offset : Nat) (d : ts_tree_data)
    (hd : ∀ n a, d = .children n a → n = 0 ∧ a = 0)
    (hv : symbol ≠ E → ∃ n a, d = .children n a) :
    config_inv E ⟨set_data (ts_tree_make c.heap symbol size offset).1
      (ts_tree_make c.heap symbol size offset).2 d, c.arrays,
      acquire c.held (c.heap.length + 1)⟩ := by
  have hl0 : listed c.arrays ⟨1, symbol, size, offset, false, d⟩ = [] := by
    cases hdd : d with
    | error l xs => exact listed_error rfl
    | children n a =>
      obtain ⟨hn, _⟩ := hd n a hdd
      subst hn
      exact listed_leaf rfl
  apply heap_inv_extend ⟨1, symbol, size, offset, false, d⟩ (h := c.heap)
  · apply heap_inv_congr hi.1
    intro q
    simp [hl0]
  · exact hi.2
  · rfl
  · exact hv
  · intro n a hda ha
    exact absurd (hd n a hda).2 ha
  · intro n hda
    exact (hd n 0 hda).1
  · exact make_set_data_length _ _ _ _ _
  · exact make_set_data _ _ _ _ _

/-- The children the caller passes in an array, under its contract on nodes. -/
theorem obeys_make_node_reads {c : Config} {symbol : ts_symbol}
    {child_count children size offset : Nat}
    (ho : obeys c (.make_node symbol child_count children size offset)) :
    ∃ cs, read_children c.arrays child_count children = some cs ∧ ∀ x ∈ cs, 1 ≤ c.held x := by
  obtain ⟨cs, hcs⟩ := @read_children_of_gets c.arrays children child_count
    (fun j hj => (ho j hj).imp fun _ hx => hx.1)
  refine ⟨cs, hcs, ?_⟩
  intro x hx
  obtain ⟨j, hj, hjx⟩ := read_children_mem hcs hx
  obtain ⟨y, hy, hheld⟩ := ho j hj
  rw [hjx] at hy
  simp only [Option.some.injEq] at hy
  subst hy
  exact hheld

theorem make_node_inv {E : ts_symbol} {c : Config} (hi : config_inv E c)
    (symbol : ts_symbol) (child_count children : Nat) (size offset : Nat)
    (ho : owning c (.make_node symbol child_count children size offset)) :
    ∃ r, ts_tree_make_node c.heap c.arrays symbol child_count children size offset = some r ∧
      config_inv E ⟨r.1, c.arrays, acquire c.held r.2⟩ := by
  obtain ⟨hob, hown⟩ := ho
  obtain ⟨cs, hcs, hheld⟩ := obeys_make_node_reads hob
  obtain ⟨h1, hf, hlen, hd1, hinv, hz1⟩ := retain_loop_inv cs hi.1 hi.2
    (fun x hx => live_of_held hi.1 (hheld x hx))
  have hlist : listed c.arrays ⟨1, symbol, size, offset, false, .children child_count children⟩
      = cs := by
    apply listed_of_child_list
    rw [child_list_children rfl]
    exact hcs
  refine ⟨(set_data (ts_tree_make h1 symbol size offset).1
    (ts_tree_make h1 symbol size offset).2 (.children child_count children), h1.length + 1),
    ?_, ?_⟩
  · simp only [ts_tree_make_node, retain_array_spec hcs, hf]
    rfl
  · apply heap_inv_extend ⟨1, symbol, size, offset, false, .children child_count children⟩
      (h := h1)
    · rw [hlist]; exact hinv
    · exact hz1
    · rfl
    · intro _; exact ⟨child_count, children, rfl⟩
    · intro n a hda ha
      simp only [ts_tree_data.children.injEq] at hda
      obtain ⟨hn, hafe⟩ := hda
      subst hn; subst hafe
      obtain ⟨⟨b, hb, hh⟩, hno⟩ := hown ha
      refine ⟨⟨b, hb, hh, read_children_block hcs hb⟩, ?_⟩
      intro q t m hq hdq
      rw [hd1 q] at hq
      cases hq0 : deref c.heap q with
      | none => simp [hq0] at hq
      | some t0 =>
        simp only [hq0, Option.map_some', Option.some.injEq] at hq
        subst hq
        exact hno q t0 m hq0 hdq
    · intro n hda
      simp only [ts_tree_data.children.injEq] at hda
      obtain ⟨hn, hafe⟩ := hda
      subst hn
      by_contra hne
      obtain ⟨x, hx, _⟩ := hob 0 (by omega)
      rw [hafe, array_get_null] at hx
      simp at hx
    · exact make_set_data_length _ _ _ _ _
    · exact make_set_data _ _ _ _ _

theorem retain_inv {E : ts_symbol} {c : Config} (hi : config_inv E c) (tree : Nat)
    (ho : 1 ≤ c.held tree) :
    ∃ h1, ts_tree_retain c.heap tree = some h1 ∧
      config_inv E ⟨h1, c.arrays, acquire c.held tree⟩ := by
  obtain ⟨h1, hf, _, _, hinv, hz1⟩ := retain_loop_inv [tree] hi.1 hi.2
    (fun x hx => by
      have hx1 : x = tree := by simpa using hx
      subst hx1
      exact live_of_held hi.1 ho)
  refine ⟨h1, ?_, ?_, hz1⟩
  · simp only [for_list] at hf
    cases hr : ts_tree_retain c.heap tree with
    | none => simp [hr] at hf
    | some h2 => simpa [hr] using hf
  · apply heap_inv_congr hinv
    intro q
    by_cases hq : q = tree
    · subst hq; simp [acquire]
    · have : ¬ (tree = q) := fun e => hq e.symm
      simp [acquire, hq, List.count_cons, this]

theorem release_inv {E : ts_symbol} {c : Config} (hi : config_inv E c) (tree : Nat)
    (ho : 1 ≤ c.held tree) :
    ∃ r, ts_tree_release E tree c.heap c.arrays tree = some r ∧
      config_inv E ⟨r.1, r.2, give_up c.held tree⟩ := by
  obtain ⟨h1, ar1, hr, hpost⟩ := release_spec E tree c.heap c.arrays c.held tree hi.1 ho
    (le_refl _)
  refine ⟨(h1, ar1), hr, hpost.inv, ?_⟩
  intro p t hp hz
  obtain ⟨t2, hp2, hz2⟩ := hpost.no_zombie p t hp hz
  exact hi.2 p t2 hp2 hz2

/-- A new array in the caller's memory keeps the invariant. -/
theorem new_array_inv {E : ts_symbol} {c : Config} (hi : config_inv E c) (b : child_array) :
    config_inv E ⟨c.heap, c.arrays ++ [some b], c.held⟩ := by
  refine ⟨heap_inv_arrays hi.1 ?_, hi.2⟩
  intro q t n a hq hd
  rw [array_block_append]
  by_cases ha : a = c.arrays.length + 1
  · have h0 : a ≠ 0 := by omega
    obtain ⟨b1, hb1, _, _⟩ := hi.1.shape.array_ok q t n a hq hd h0
    have := (array_block_some_bounds hb1).2
    omega
  · rw [if_neg ha]

/-- The contract on nodes and arrays includes the contract on nodes. -/
theorem obeys_of_owning {c : Config} {call : Call} (ho : owning c call) : obeys c call := by
  cases call with
  | make_node symbol child_count children size offset => exact ho.1
  | make_leaf symbol size offset => exact ho
  | make_error lookahead_char expected_inputs size offset => exact ho
  | retain tree => exact ho
  | release tree => exact ho
  | new_array cells on_heap => exact ho

/-- Every move that keeps to the contract keeps the invariant. -/
theorem exec_inv {E : ts_symbol} {fuel : Nat} {c c1 : Config} {call : Call}
    (hi : config_inv E c) (ho : owning c call) (he : exec E fuel c call = some c1) :
    config_inv E c1 := by
  cases call with
  | make_leaf symbol size offset =>
    simp only [exec, Option.some.injEq] at he
    subst he
    exact make_childless_inv hi symbol size offset (.children 0 0)
      (fun n a e => by
        simp only [ts_tree_data.children.injEq] at e
        exact ⟨e.1.symm, e.2.symm⟩)
      (fun _ => ⟨0, 0, rfl⟩)
  | make_node symbol child_count children size offset =>
    obtain ⟨r, hr, hinv⟩ := make_node_inv hi symbol child_count children size offset ho
    simp only [exec, hr, Option.some.injEq] at he
    subst he
    exact hinv
  | make_error lookahead_char expected_inputs size offset =>
    simp only [exec, Option.some.injEq] at he
    subst he
    exact make_childless_inv hi E size offset (.error lookahead_char expected_inputs)
      (fun n a e => by simp at e)
      (fun hne => absurd rfl hne)
  | retain tree =>
    obtain ⟨h1, hr, hinv⟩ := retain_inv hi tree ho
    simp only [exec, hr, Option.some.injEq] at he
    subst he
    exact hinv
  | release tree =>
    obtain ⟨r, hr, hinv⟩ := release_inv hi tree ho
    simp only [exec] at he
    cases hf : ts_tree_release E fuel c.heap c.arrays tree with
    | none => simp [hf] at he
    | some r2 =>
      simp only [hf, Option.some.injEq] at he
      subst he
      have e1 := release_fuel_mono E hr (Nat.le_max_left tree fuel)
      have e2 := release_fuel_mono E hf (Nat.le_max_right tree fuel)
      rw [e1] at e2
      simp only [Option.some.injEq] at e2
      subst e2
      exact hinv
  | new_array cells on_heap =>
    simp only [exec, Option.some.injEq] at he
    subst he
    exact new_array_inv hi ⟨cells, on_heap⟩

/-- Every move that keeps to the contract returns. -/
theorem exec_progress {E : ts_symbol} {c : Config} {call : Call}
    (hi : config_inv E c) (ho : owning c call) :
    ∃ fuel c1, exec E fuel c call = some c1 := by
  cases call with
  | make_leaf symbol size offset => exact ⟨0, _, rfl⟩
  | make_node symbol child_count children size offset =>
    obtain ⟨r, hr, _⟩ := make_node_inv (E := E) hi symbol child_count children size offset ho
    exact ⟨0, ⟨r.1, c.arrays, acquire c.held r.2⟩, by simp only [exec, hr]⟩
  | make_error lookahead_char expected_inputs size offset => exact ⟨0, _, rfl⟩
  | retain tree =>
    obtain ⟨h1, hr, _⟩ := retain_inv hi tree ho
    exact ⟨0, ⟨h1, c.arrays, acquire c.held tree⟩, by simp only [exec, hr]⟩
  | release tree =>
    obtain ⟨r, hr, _⟩ := release_inv hi tree ho
    exact ⟨tree, ⟨r.1, r.2, give_up c.held tree⟩, by simp only [exec, hr]⟩
  | new_array cells on_heap => exact ⟨0, _, rfl⟩

theorem reachable_inv {E : ts_symbol} {c : Config} (hr : Reachable E owning c) :
    config_inv E c := by
  induction hr with
  | empty => exact config_inv_empty E
  | step call fuel _ ho he ih => exact exec_inv ih ho he

theorem children_live_of_inv {E : ts_symbol} {c : Config} (hi : config_inv E c) {p : Nat}
    {t : ts_tree} (hp : deref c.heap p = some t) :
    ∀ x ∈ listed c.arrays t, ∃ tx, deref c.heap x = some tx := by
  intro x hx
  have h1 : 1 ≤ (listed c.arrays t).count x := List.count_pos_iff.mpr hx
  have h2 := @contrib_le_occ c.heap c.arrays p t x hp
  have h3 : contrib c.arrays x (some t) = (listed c.arrays t).count x := by
    simp [contrib, hi.2 p t hp]
  cases hd : deref c.heap x with
  | none => have := (hi.1.dead_ok x hd).2; omega
  | some tx => exact ⟨tx, rfl⟩

/-! ## `ts_tree_equals` -/

theorem equals_loop_mono {f g : Nat → Nat → Option Bool}
    (hfg : ∀ x y r, f x y = some r → g x y = some r) (ar : Arrays) (a1 a2 : Nat) (n : Nat) :
    ∀ (i : Nat) (r : Bool),
      equals_loop f ar a1 a2 i n = some r → equals_loop g ar a1 a2 i n = some r := by
  induction n with
  | zero => intro i r hr; simpa [equals_loop] using hr
  | succ n ih =>
    intro i r hr
    simp only [equals_loop] at hr ⊢
    cases h1 : array_get ar a1 i with
    | none => simp [h1] at hr
    | some x =>
      cases h2 : array_get ar a2 i with
      | none => simp [h1, h2] at hr
      | some y =>
        simp only [h1, h2] at hr ⊢
        cases hxy : f x y with
        | none => simp [hxy] at hr
        | some v =>
          rw [hfg x y v hxy]
          cases v with
          | false => simpa [hxy] using hr
          | true =>
            simp only [hxy] at hr ⊢
            exact ih (i + 1) r hr

theorem equals_loop_true {f : Nat → Nat → Option Bool} (ar : Arrays) (a1 a2 : Nat) (n : Nat) :
    ∀ (i : Nat),
      (∀ j, j < n → ∃ x y, array_get ar a1 (i + j) = some x ∧ array_get ar a2 (i + j) = some y ∧
        f x y = some true) →
      equals_loop f ar a1 a2 i n = some true := by
  induction n with
  | zero => intro i _; simp [equals_loop]
  | succ n ih =>
    intro i hall
    obtain ⟨x, y, hx, hy, hf⟩ := hall 0 (by omega)
    simp only [Nat.add_zero] at hx hy
    simp only [equals_loop, hx, hy, hf]
    apply ih (i + 1)
    intro j hj
    obtain ⟨x1, y1, hx1, hy1, hf1⟩ := hall (j + 1) (by omega)
    refine ⟨x1, y1, ?_, ?_, hf1⟩
    · rw [← hx1]; congr 1; omega
    · rw [← hy1]; congr 1; omega

theorem equals_loop_true_inv {f : Nat → Nat → Option Bool} (ar : Arrays) (a1 a2 : Nat)
    (n : Nat) :
    ∀ (i : Nat), equals_loop f ar a1 a2 i n = some true →
      ∀ j, j < n → ∃ x y, array_get ar a1 (i + j) = some x ∧ array_get ar a2 (i + j) = some y ∧
        f x y = some true := by
  induction n with
  | zero => intro i _ j hj; omega
  | succ n ih =>
    intro i hl j hj
    simp only [equals_loop] at hl
    cases h1 : array_get ar a1 i with
    | none => simp [h1] at hl
    | some x =>
      cases h2 : array_get ar a2 i with
      | none => simp [h1, h2] at hl
      | some y =>
        simp only [h1, h2] at hl
        cases hxy : f x y with
        | none => simp [hxy] at hl
        | some v =>
          cases v with
          | false => simp [hxy] at hl
          | true =>
            simp only [hxy] at hl
            cases j with
            | zero => exact ⟨x, y, by simpa using h1, by simpa using h2, hxy⟩
            | succ k =>
              obtain ⟨x1, y1, hx1, hy1, hf1⟩ := ih (i + 1) hl k (by omega)
              refine ⟨x1, y1, ?_, ?_, hf1⟩
              · rw [← hx1]; congr 1; omega
              · rw [← hy1]; congr 1; omega

theorem equals_fuel_succ (E : ts_symbol) (h : Heap) (ar : Arrays) :
    ∀ (fuel : Nat) (a b : Nat) (r : Bool),
      ts_tree_equals E fuel h ar a b = some r →
      ts_tree_equals E (fuel + 1) h ar a b = some r := by
  intro fuel
  induction fuel with
  | zero => intro a b r hr; simp [ts_tree_equals] at hr
  | succ fuel ih =>
    intro a b r hr
    rw [ts_tree_equals] at hr ⊢
    cases ha : deref h a with
    | none => simp [ha] at hr
    | some ta =>
      cases hb : deref h b with
      | none => simp [ha, hb] at hr
      | some tb =>
        simp only [ha, hb] at hr ⊢
        by_cases hs : ta.symbol ≠ tb.symbol
        · rw [if_pos hs] at hr ⊢; exact hr
        · rw [if_neg hs] at hr ⊢
          by_cases he : ta.symbol = E
          · rw [if_pos he] at hr ⊢; exact hr
          · rw [if_neg he] at hr ⊢
            cases hda : ta.data with
            | error l xs => simp [hda] at hr
            | children n1 a1 =>
              cases hdb : tb.data with
              | error l xs => simp [hda, hdb] at hr
              | children n2 a2 =>
                simp only [hda, hdb] at hr ⊢
                by_cases hl : n1 ≠ n2
                · rw [if_pos hl] at hr ⊢; exact hr
                · rw [if_neg hl] at hr ⊢
                  exact equals_loop_mono (fun x y v => ih x y v) ar a1 a2 n1 0 r hr

/-- More fuel never changes the result of `ts_tree_equals`. -/
theorem equals_fuel_mono (E : ts_symbol) {h : Heap} {ar : Arrays} {fuel fuel1 : Nat}
    {a b : Nat} {r : Bool}
    (hr : ts_tree_equals E fuel h ar a b = some r) (hle : fuel ≤ fuel1) :
    ts_tree_equals E fuel1 h ar a b = some r := by
  induction hle with
  | refl => exact hr
  | step _ ih => exact equals_fuel_succ E h ar _ a b r ih

/-- The comparison reads only the kind and the union member of the nodes it visits. -/
theorem equals_shape_le (E : ts_symbol) {h h1 : Heap} (ar : Arrays) (hs : shape_le h h1) :
    ∀ (fuel : Nat) (a b : Nat) (r : Bool),
      ts_tree_equals E fuel h ar a b = some r → ts_tree_equals E fuel h1 ar a b = some r := by
  intro fuel
  induction fuel with
  | zero => intro a b r hr; simp [ts_tree_equals] at hr
  | succ fuel ih =>
    intro a b r hr
    rw [ts_tree_equals] at hr ⊢
    cases ha : deref h a with
    | none => simp [ha] at hr
    | some ta =>
      cases hb : deref h b with
      | none => simp [ha, hb] at hr
      | some tb =>
        obtain ⟨ta1, ha1, hsa, hda⟩ := hs a ta ha
        obtain ⟨tb1, hb1, hsb, hdb⟩ := hs b tb hb
        simp only [ha, hb] at hr
        simp only [ha1, hb1, hsa, hsb, hda, hdb]
        by_cases hsy : ta.symbol ≠ tb.symbol
        · rw [if_pos hsy] at hr ⊢; exact hr
        · rw [if_neg hsy] at hr ⊢
          by_cases he : ta.symbol = E
          · rw [if_pos he] at hr ⊢; exact hr
          · rw [if_neg he] at hr ⊢
            cases hda2 : ta.data with
            | error l xs => simp [hda2] at hr
            | children n1 a1 =>
              cases hdb2 : tb.data with
              | error l xs => simp [hda2, hdb2] at hr
              | children n2 a2 =>
                simp only [hda2, hdb2] at hr ⊢
                by_cases hl : n1 ≠ n2
                · rw [if_pos hl] at hr ⊢; exact hr
                · rw [if_neg hl] at hr ⊢
                  exact equals_loop_mono (fun x y v => ih x y v) ar a1 a2 n1 0 r hr

theorem equals_shape_eq (E : ts_symbol) {h h1 : Heap} (ar : Arrays) (hs : shape_le h h1)
    (hs1 : shape_le h1 h) (fuel a b : Nat) :
    ts_tree_equals E fuel h1 ar a b = ts_tree_equals E fuel h ar a b := by
  cases hr : ts_tree_equals E fuel h ar a b with
  | some r => exact equals_shape_le E ar hs fuel a b r hr
  | none =>
    cases hr1 : ts_tree_equals E fuel h1 ar a b with
    | none => rfl
    | some r =>
      have := equals_shape_le E ar hs1 fuel a b r hr1
      rw [hr] at this
      simp at this

/-- The comparison of two nodes of another kind than the error kind whose children can
be read: the lists are compared pairwise. -/
theorem equals_of_lists {E : ts_symbol} {h : Heap} {ar : Arrays} {fuel a b : Nat}
    {ta tb : ts_tree} {ka kb : List Nat} (ha : deref h a = some ta) (hb : deref h b = some tb)
    (hs : ta.symbol = tb.symbol) (he : ta.symbol ≠ E) (hka : child_list ar ta = some ka)
    (hkb : child_list ar tb = some kb) (hl : ka.length = kb.length)
    (hall : ∀ (i x y : Nat), ka[i]? = some x → kb[i]? = some y →
      ts_tree_equals E fuel h ar x y = some true) :
    ts_tree_equals E (fuel + 1) h ar a b = some true := by
  obtain ⟨n1, a1, hda, hra, hla⟩ := child_list_some hka
  obtain ⟨n2, a2, hdb, hrb, hlb⟩ := child_list_some hkb
  have hn : n1 = n2 := by omega
  subst hn
  rw [ts_tree_equals]
  simp only [ha, hb, hs, ne_eq, not_true_eq_false, if_false, hda, hdb]
  rw [← hs, if_neg he]
  apply equals_loop_true
  intro j hj
  rw [Nat.zero_add]
  have hja : j < ka.length := by omega
  have hjb : j < kb.length := by omega
  refine ⟨ka[j], kb[j], ?_, ?_, hall j _ _ (List.getElem?_eq_getElem hja)
    (List.getElem?_eq_getElem hjb)⟩
  · rw [read_children_get hra j hj, List.getElem?_eq_getElem hja]
  · rw [read_children_get hrb j hj, List.getElem?_eq_getElem hjb]

theorem common_fuel (P : Nat → Nat → Nat → Prop) (ka : List Nat) :
    ∀ kb : List Nat,
      (∀ (i x y : Nat), ka[i]? = some x → kb[i]? = some y → ∃ f0, ∀ f, f0 ≤ f → P x y f) →
      ∃ F, ∀ (i x y : Nat), ka[i]? = some x → kb[i]? = some y → ∀ f, F ≤ f → P x y f := by
  induction ka with
  | nil => intro kb _; exact ⟨0, fun i x y hx => by simp at hx⟩
  | cons a as ih =>
    intro kb hP
    cases kb with
    | nil => exact ⟨0, fun i x y _ hy => by simp at hy⟩
    | cons b bs =>
      obtain ⟨f0, hf0⟩ := hP 0 a b (by simp) (by simp)
      obtain ⟨F, hF⟩ := ih bs (fun i x y hx hy =>
        hP (i + 1) x y (by simpa using hx) (by simpa using hy))
      refine ⟨max f0 F, ?_⟩
      intro i x y hx hy f hf
      cases i with
      | zero =>
        simp only [List.getElem?_cons_zero, Option.some.injEq] at hx hy
        subst hx; subst hy
        exact hf0 f (by omega)
      | succ j =>
        exact hF j x y (by simpa using hx) (by simpa using hy) f (by omega)

/-- Trees of the same structure are equal, with enough fuel. -/
theorem equals_of_same_structure {E : ts_symbol} {h : Heap} {ar : Arrays} {a b : Nat}
    (hs : same_structure E h ar a b) :
    ∃ f0, ∀ f, f0 ≤ f → ts_tree_equals E f h ar a b = some true := by
  induction hs with
  | error ha hb hsa hsb =>
    refine ⟨1, ?_⟩
    intro f hf
    obtain ⟨g, rfl⟩ : ∃ g, f = g + 1 := ⟨f - 1, by omega⟩
    rw [ts_tree_equals]
    simp [ha, hb, hsa, hsb]
  | node ha hb hsy hne hda hdb hl _ ih =>
    obtain ⟨F, hF⟩ := common_fuel (fun x y f => ts_tree_equals E f h ar x y = some true) _ _ ih
    refine ⟨F + 1, ?_⟩
    intro f hf
    obtain ⟨g, rfl⟩ : ∃ g, f = g + 1 := ⟨f - 1, by omega⟩
    exact equals_of_lists ha hb hsy hne hda hdb hl
      (fun i x y hx hy => hF i x y hx hy g (by omega))

theorem shape_le_write {h : Heap} {p : Nat} {t : ts_tree} (t1 : ts_tree) (hp : deref h p = some t)
    (hs : t1.symbol = t.symbol) (hd : t1.data = t.data) :
    shape_le h (write h p (some t1)) ∧ shape_le (write h p (some t1)) h := by
  have hb := deref_some_bounds hp
  constructor
  · intro q tq hq
    rw [deref_write h p q _ hb]
    by_cases hqp : q = p
    · subst hqp
      rw [hp] at hq
      simp only [Option.some.injEq] at hq
      subst hq
      exact ⟨t1, by simp, hs, hd⟩
    · exact ⟨tq, by simp [hqp, hq], rfl, rfl⟩
  · intro q tq hq
    rw [deref_write h p q _ hb] at hq
    by_cases hqp : q = p
    · subst hqp
      simp only [if_true, Option.some.injEq] at hq
      subst hq
      exact ⟨t, hp, hs.symm, hd.symm⟩
    · simp only [hqp, if_false] at hq
      exact ⟨tq, hq, rfl, rfl⟩

theorem equals_some_live {E : ts_symbol} {h : Heap} {ar : Arrays} {fuel a b : Nat} {r : Bool}
    (hr : ts_tree_equals E fuel h ar a b = some r) :
    (∃ ta, deref h a = some ta) ∧ ∃ tb, deref h b = some tb := by
  cases fuel with
  | zero => simp [ts_tree_equals] at hr
  | succ g =>
    rw [ts_tree_equals] at hr
    cases ha : deref h a with
    | none => simp [ha] at hr
    | some ta =>
      cases hb : deref h b with
      | none => simp [ha, hb] at hr
      | some tb => exact ⟨⟨ta, rfl⟩, ⟨tb, rfl⟩⟩

/-! ## `ts_tree_equals` as a relation -/

/-- What a comparison that returns true has found. -/
theorem equals_true_inv {E : ts_symbol} {h : Heap} {ar : Arrays} {fuel a b : Nat}
    (hr : ts_tree_equals E (fuel + 1) h ar a b = some true) :
    ∃ ta tb, deref h a = some ta ∧ deref h b = some tb ∧ ta.symbol = tb.symbol ∧
      (ta.symbol = E ∨
        (ta.symbol ≠ E ∧ ∃ n a1 a2, ta.data = .children n a1 ∧ tb.data = .children n a2 ∧
          equals_loop (ts_tree_equals E fuel h ar) ar a1 a2 0 n = some true)) := by
  rw [ts_tree_equals] at hr
  cases ha : deref h a with
  | none => simp [ha] at hr
  | some ta =>
    cases hb : deref h b with
    | none => simp [ha, hb] at hr
    | some tb =>
      simp only [ha, hb] at hr
      by_cases hs : ta.symbol = tb.symbol
      · simp only [ne_eq, hs, not_true_eq_false, if_false] at hr
        refine ⟨ta, tb, rfl, rfl, hs, ?_⟩
        by_cases he : tb.symbol = E
        · exact Or.inl (hs.trans he)
        · right
          refine ⟨fun e => he (hs ▸ e), ?_⟩
          simp only [he, if_false] at hr
          cases hda : ta.data with
          | error l xs => simp [hda] at hr
          | children n1 a1 =>
            cases hdb : tb.data with
            | error l xs => simp [hda, hdb] at hr
            | children n2 a2 =>
              simp only [hda, hdb] at hr
              by_cases hl : n1 = n2
              · subst hl
                simp only [ne_eq, not_true_eq_false, if_false] at hr
                exact ⟨n1, a1, a2, rfl, rfl, hr⟩
              · simp [hl] at hr
      · simp [hs] at hr

/-- Releasing a node that keeps other references only lowers its count. -/
theorem release_shared (E : ts_symbol) {h : Heap} (ar : Arrays) {p : Nat} {t : ts_tree}
    (fuel : Nat) (hp : deref h p = some t) (hz : t.ref_count - 1 ≠ 0) :
    ts_tree_release E (fuel + 1) h ar p
      = some (write h p (some { t with ref_count := t.ref_count - 1 }), ar) := by
  rw [ts_tree_release]
  simp only [hp]
  rw [if_neg hz]

/-! ## The loop over the children of `tree_write_to_string` -/

/-- When the array holds the list `cs` from index `i` on, the loop over the array is the
loop over `cs`. -/
theorem write_children_of_list (visit : Buffer → Nat → Nat → Option (Buffer × Nat))
    (ar : Arrays) (contents string limit : Nat) (cs : List Nat) :
    ∀ (i : Nat) (w : Writer), (∀ j, j < cs.length → array_get ar contents (i + j) = cs[j]?) →
      write_children visit ar contents string limit i cs.length w
        = write_child_list visit string limit w cs := by
  induction cs with
  | nil => intro i w _; rfl
  | cons c rest ih =>
    intro i w hr
    have h0 := hr 0 (by simp)
    simp only [Nat.add_zero, List.getElem?_cons_zero] at h0
    simp only [List.length_cons, write_children, h0, write_child_list]
    cases hv : visit w.buf c w.cursor with
    | none => rfl
    | some r =>
      simp only
      apply ih (i + 1)
      intro j hj
      have := hr (j + 1) (by simp; omega)
      simpa [Nat.add_assoc, Nat.add_comm 1 j] using this

/-- When one of the reads is undefined, so is the loop. -/
theorem write_children_none (visit : Buffer → Nat → Nat → Option (Buffer × Nat))
    (ar : Arrays) (contents string limit : Nat) (n : Nat) :
    ∀ (i : Nat) (w : Writer), (∃ j, j < n ∧ array_get ar contents (i + j) = none) →
      write_children visit ar contents string limit i n w = none := by
  induction n with
  | zero => intro i w hj; obtain ⟨j, hj, _⟩ := hj; omega
  | succ n ih =>
    intro i w hex
    obtain ⟨j, hj, hn⟩ := hex
    simp only [write_children]
    cases hr : array_get ar contents i with
    | none => rfl
    | some c =>
      simp only
      cases hv : visit w.buf c w.cursor with
      | none => rfl
      | some r =>
        simp only
        apply ih (i + 1)
        cases j with
        | zero =>
          rw [Nat.add_zero, hr] at hn
          simp at hn
        | succ k =>
          refine ⟨k, by omega, ?_⟩
          rw [← hn]; congr 1; omega

/-- The loop over the children reads the whole array: it is the loop over the list
`read_children` gives, and undefined when the array cannot be read. -/
theorem write_children_eq (visit : Buffer → Nat → Nat → Option (Buffer × Nat))
    (ar : Arrays) (contents string limit count : Nat) (w : Writer) :
    write_children visit ar contents string limit 0 count w
      = match read_children ar count contents with
        | none => none
        | some cs => write_child_list visit string limit w cs := by
  cases hr : read_children ar count contents with
  | none =>
    simp only
    apply write_children_none
    obtain ⟨j, hj, hn⟩ := read_children_none hr
    exact ⟨j, hj, by rw [Nat.zero_add]; exact hn⟩
  | some cs =>
    simp only
    have hl := read_children_length hr
    subst hl
    apply write_children_of_list
    intro j hj
    rw [Nat.zero_add]
    exact read_children_get hr j hj

/-- One level of `tree_write_to_string`, the children read as a list. -/
theorem tree_write_to_string_unfold (E : ts_symbol) (names : ts_symbol → String) (fuel : Nat)
    (h : Heap) (ar : Arrays) (buf : Buffer) (tree string limit : Nat) (ib : Bool) :
    tree_write_to_string E names (fuel + 1) h ar buf tree string limit ib
      = if tree = 0 then snprintf buf string limit "(NULL)".toList
        else
          match deref h tree with
          | none => none
          | some t =>
            match write_open E names t string limit ib ⟨buf, string, 0⟩ with
            | none => none
            | some (Sum.inl r) => some r
            | some (Sum.inr w) =>
              match child_list ar t with
              | none => none
              | some contents =>
                match write_child_list
                    (fun b child cursor =>
                      tree_write_to_string E names fuel h ar b child cursor limit false)
                    string limit w contents with
                | none => none
                | some w1 =>
                  if !t.is_hidden then
                    (w1.print limit [')']).map (fun w2 => (w2.buf, w2.result))
                  else some (w1.buf, w1.result) := by
  rw [tree_write_to_string]
  by_cases h0 : tree = 0
  · simp only [h0, if_true]
  · simp only [h0, if_false]
    cases hd : deref h tree with
    | none => rfl
    | some t =>
      simp only
      cases hw : write_open E names t string limit ib ⟨buf, string, 0⟩ with
      | none => rfl
      | some r =>
        cases r with
        | inl r => rfl
        | inr w =>
          simp only
          cases hdat : t.data with
          | error l xs => simp [child_list, hdat]
          | children n a =>
            simp only [child_list, hdat, write_children_eq]
            cases read_children ar n a <;> rfl

/-! ## Buffers -/

theorem poke_length {buf : Buffer} {pos : Nat} {bytes : Buffer}
    (hb : pos + bytes.length ≤ buf.length) : (poke buf pos bytes).length = buf.length := by
  simp only [poke, List.length_append, List.length_take, List.length_drop]
  omega

theorem poke_getElem? {buf : Buffer} {pos : Nat} {bytes : Buffer}
    (hb : pos + bytes.length ≤ buf.length) (i : Nat) :
    (poke buf pos bytes)[i]? =
      if i < pos then buf[i]? else if i < pos + bytes.length then bytes[i - pos]? else buf[i]? := by
  have hp : pos ≤ buf.length := by omega
  simp only [poke]
  by_cases h1 : i < pos
  · rw [if_pos h1, List.append_assoc, List.getElem?_append_left (by simp; omega),
      List.getElem?_take_of_lt h1]
  · rw [if_neg h1, List.append_assoc, List.getElem?_append_right (by simp; omega)]
    have ht : (List.take pos buf).length = pos := by simp; omega
    rw [ht]
    by_cases h2 : i < pos + bytes.length
    · rw [if_pos h2, List.getElem?_append_left (by omega)]
    · rw [if_neg h2, List.getElem?_append_right (by omega), List.getElem?_drop]
      congr 1
      omega

/-- Two stores in a row, the second over the terminator of the first, are one store. -/
theorem poke_poke {buf : Buffer} {pos : Nat} (x y : Buffer) (z : Option Char)
    (hy : 1 ≤ y.length) (hb : pos + x.length + y.length ≤ buf.length) :
    poke (poke buf pos (x ++ [z])) (pos + x.length) y = poke buf pos (x ++ y) := by
  have hb1 : pos + (x ++ [z]).length ≤ buf.length := by simp; omega
  have hl1 := poke_length hb1
  have hb2 : pos + x.length + y.length ≤ (poke buf pos (x ++ [z])).length := by omega
  have hb3 : pos + (x ++ y).length ≤ buf.length := by simp; omega
  apply List.ext_getElem?
  intro i
  rw [poke_getElem? hb2, poke_getElem? hb1, poke_getElem? hb3]
  simp only [List.length_append, List.length_singleton]
  by_cases h1 : i < pos
  · have : i < pos + x.length := by omega
    simp [h1, this]
  · by_cases h2 : i < pos + x.length
    · have h3 : i < pos + (x.length + 1) := by omega
      have h4 : i < pos + (x.length + y.length) := by omega
      simp only [h1, h2, h3, h4, if_true, if_false]
      rw [List.getElem?_append_left (by omega), List.getElem?_append_left (by omega)]
    · by_cases h3 : i < pos + x.length + y.length
      · have h4 : i < pos + (x.length + y.length) := by omega
        simp only [h1, h2, h3, h4, if_true, if_false]
        rw [List.getElem?_append_right (by omega)]
        congr 1
        omega
      · have h4 : ¬ i < pos + (x.length + y.length) := by omega
        have h5 : ¬ i < pos + (x.length + 1) := by omega
        simp only [h1, h2, h3, h4, h5, if_false]

theorem stamp_length {buf : Buffer} {pos : Nat} {text : List Char}
    (hb : pos + text.length + 1 ≤ buf.length) : (stamp buf pos text).length = buf.length := by
  unfold stamp
  split
  · rfl
  · exact poke_length (by simp; omega)

/-- Storing a non-empty text behind a stamped one extends the stamp. -/
theorem stamp_poke {buf : Buffer} {pos : Nat} (a x : List Char) (hx : x ≠ [])
    (hb : pos + a.length + x.length + 1 ≤ buf.length) :
    poke (stamp buf pos a) (pos + a.length) (x.map some ++ [some NUL])
      = stamp buf pos (a ++ x) := by
  have hax : a ++ x ≠ [] := by simp [hx]
  by_cases ha : a = []
  · subst ha
    simp [stamp, hx]
  · simp only [stamp, ha, hax, if_false]
    have := @poke_poke buf pos (a.map some) (x.map some ++ [some NUL])
      (some NUL) (by simp) (by simp; omega)
    simp only [List.length_map] at this
    rw [this]
    simp

theorem stamp_stamp {buf : Buffer} {pos : Nat} (a b : List Char)
    (hb : pos + a.length + b.length + 1 ≤ buf.length) :
    stamp (stamp buf pos a) (pos + a.length) b = stamp buf pos (a ++ b) := by
  by_cases hbn : b = []
  · subst hbn
    simp [stamp]
  · have : stamp (stamp buf pos a) (pos + a.length) b
        = poke (stamp buf pos a) (pos + a.length) (b.map some ++ [some NUL]) := by
      simp [stamp, hbn]
    rw [this, stamp_poke a b hbn hb]

/-! ## The first pass: limit 0 -/

theorem print_zero (w : Writer) (text : List Char) :
    w.print 0 text = some { w with result := w.result + text.length } := by
  simp [Writer.print, snprintf]

theorem advance_zero (w : Writer) (string : Nat) : w.advance string 0 = w := by
  simp [Writer.advance]

theorem separator_length (is_beginning : Bool) :
    (separator is_beginning).length = if is_beginning then 0 else 1 := by
  cases is_beginning <;> rfl

theorem write_child_list_zero (visit : Buffer → Nat → Nat → Option (Buffer × Nat))
    (tv : Nat → Option (List Char))
    (hv : ∀ b c cur, visit b c cur = (tv c).map (fun s => (b, s.length)))
    (string : Nat) (cs : List Nat) :
    ∀ w : Writer, write_child_list visit string 0 w cs
      = (text_children tv cs).map (fun s => { w with result := w.result + s.length }) := by
  induction cs with
  | nil => intro w; simp [write_child_list, text_children]
  | cons c rest ih =>
    intro w
    simp only [write_child_list, text_children, hv]
    cases hc : tv c with
    | none => simp
    | some s =>
      simp only [Option.map_some', advance_zero, ih]
      cases hr : text_children tv rest with
      | none => simp
      | some r => simp [Nat.add_assoc]

/-- With limit 0 the traversal leaves the buffer alone and returns the length of the
text. -/
theorem tree_write_to_string_zero (E : ts_symbol) (names : ts_symbol → String) (h : Heap) (ar : Arrays) :
    ∀ (fuel : Nat) (buf : Buffer) (tree string : Nat) (ib : Bool),
      tree_write_to_string E names fuel h ar buf tree string 0 ib
        = (tree_text E names fuel h ar tree ib).map (fun s => (buf, s.length)) := by
  intro fuel
  induction fuel with
  | zero => intro buf tree string ib; simp [tree_write_to_string, tree_text]
  | succ fuel ih =>
    intro buf tree string ib
    rw [tree_write_to_string_unfold, tree_text]
    by_cases h0 : tree = 0
    · simp [h0, snprintf]
    · simp only [h0, if_false]
      cases hd : deref h tree with
      | none => simp
      | some t =>
        simp only
        have hwc := fun w cs => write_child_list_zero
          (fun b child cursor => tree_write_to_string E names fuel h ar b child cursor 0 false)
          (fun c => tree_text E names fuel h ar c false)
          (fun b c cur => ih b c cur false) string cs w
        by_cases hh : t.is_hidden = true
        · simp only [write_open, hh, Bool.not_true, Bool.false_eq_true, if_false, if_true]
          cases hdat : child_list ar t with
          | none => simp
          | some cs =>
            simp only [hwc]
            cases text_children (fun c => tree_text E names fuel h ar c false) cs with
            | none => simp
            | some body => simp
        · have hh2 : t.is_hidden = false := by simpa using hh
          by_cases he : t.symbol = E
          · cases ib <;>
              simp [write_open, hh2, he, print_zero, advance_zero, separator]
          · cases hdat : child_list ar t with
            | none =>
              cases ib <;>
                simp [write_open, hh2, he, print_zero, advance_zero, separator]
            | some cs =>
              cases ib <;>
                simp only [write_open, hh2, he, print_zero, advance_zero, separator,
                  Bool.not_false, Bool.not_true, if_true, if_false, Option.map_some',
                  Bool.false_eq_true, hwc] <;>
                cases text_children (fun c => tree_text E names fuel h ar c false) cs <;>
                simp <;> omega

/-! ## The second pass: a limit and a buffer that hold the text -/

theorem snprintf_fits {buf : Buffer} {cursor limit : Nat} {text : List Char}
    (hl : text.length < limit) (hb : cursor + text.length + 1 ≤ buf.length) :
    snprintf buf cursor limit text
      = some (poke buf cursor (text.map some ++ [some NUL]), text.length) := by
  have h0 : limit ≠ 0 := by omega
  have hm : min text.length (limit - 1) = text.length := by omega
  have ht : text.take (limit - 1) = text := List.take_of_length_le (by omega)
  simp only [snprintf, h0, if_false, hm, hb, if_true, ht]

theorem printed_start (buf : Buffer) (string : Nat) :
    Writer.printed ⟨buf, string, 0⟩ buf string [] := by
  simp [Writer.printed, stamp]

/-- One `snprintf` of a non-empty text, and the cursor moved behind it. -/
theorem print_printed {w : Writer} {buf0 : Buffer} {string : Nat} {a : List Char}
    (limit : Nat) (x : List Char) (hw : w.printed buf0 string a) (hx : x ≠ [])
    (hl : a.length + x.length < limit) (hb : string + a.length + x.length + 1 ≤ buf0.length) :
    ∃ w1, w.print limit x = some w1 ∧ w1.buf = stamp buf0 string (a ++ x) ∧
      w1.result = (a ++ x).length ∧ (w1.advance string limit).printed buf0 string (a ++ x) := by
  obtain ⟨h1, h2, h3⟩ := hw
  have hlen : w.buf.length = buf0.length := by rw [h1]; exact stamp_length (by omega)
  have hs := snprintf_fits (show x.length < limit by omega)
    (show w.cursor + x.length + 1 ≤ w.buf.length by omega)
  have hp : 0 < limit := by omega
  refine ⟨⟨poke w.buf w.cursor (x.map some ++ [some NUL]), w.cursor, w.result + x.length⟩,
    ?_, ?_, ?_, ?_, ?_, ?_⟩
  · simp [Writer.print, hs]
  · simp only
    rw [h1, h2, stamp_poke a x hx hb]
  · simp [h3]
  · simp only [Writer.advance, hp, if_true]
    rw [h1, h2, stamp_poke a x hx hb]
  · simp [Writer.advance, hp, h3]
  · simp [Writer.advance, hp, h3]

theorem write_child_list_printed {visit : Buffer → Nat → Nat → Option (Buffer × Nat)}
    {tv : Nat → Option (List Char)} {buf0 : Buffer} {string limit : Nat}
    (hp : 0 < limit)
    (hv : ∀ b c cur s, tv c = some s → s.length < limit → cur + s.length + 1 ≤ b.length →
      visit b c cur = some (stamp b cur s, s.length))
    (cs : List Nat) :
    ∀ (w : Writer) (a body : List Char), w.printed buf0 string a →
      text_children tv cs = some body → a.length + body.length < limit →
      string + a.length + body.length + 1 ≤ buf0.length →
      ∃ w1, write_child_list visit string limit w cs = some w1 ∧
        w1.printed buf0 string (a ++ body) := by
  induction cs with
  | nil =>
    intro w a body hw ht _ _
    simp only [text_children, Option.some.injEq] at ht
    subst ht
    exact ⟨w, rfl, by simpa using hw⟩
  | cons c rest ih =>
    intro w a body hw ht hl hb
    simp only [text_children] at ht
    cases hc : tv c with
    | none => simp [hc] at ht
    | some s =>
      cases hr : text_children tv rest with
      | none => simp [hc, hr] at ht
      | some r =>
        simp only [hc, hr, Option.map_some', Option.some.injEq] at ht
        subst ht
        simp only [List.length_append] at hl hb
        obtain ⟨h1, h2, h3⟩ := hw
        have hlen : w.buf.length = buf0.length := by rw [h1]; exact stamp_length (by omega)
        have hvis := hv w.buf c w.cursor s hc (by omega) (by omega)
        have hw2 : (Writer.advance ⟨stamp w.buf w.cursor s, w.cursor, w.result + s.length⟩
            string limit).printed buf0 string (a ++ s) := by
          refine ⟨?_, ?_, ?_⟩
          · simp only [Writer.advance, hp, if_true]
            rw [h1, h2, stamp_stamp a s (by omega)]
          · simp [Writer.advance, hp, h3]
          · simp [Writer.advance, hp, h3]
        obtain ⟨w1, hw1, hp1⟩ := ih _ (a ++ s) r hw2 hr (by simp; omega) (by simp; omega)
        refine ⟨w1, ?_, by simpa using hp1⟩
        simp only [write_child_list, hvis]
        exact hw1

/-- With a limit above the length of the text and a buffer that holds the text and its
terminator from `string` on, the traversal stores exactly the text and a terminator
(nothing when the text is empty) and returns its length. -/
theorem tree_write_to_string_stamp (E : ts_symbol) (names : ts_symbol → String) (h : Heap) (ar : Arrays) :
    ∀ (fuel : Nat) (buf : Buffer) (tree string limit : Nat) (ib : Bool) (s : List Char),
      tree_text E names fuel h ar tree ib = some s → s.length < limit →
      string + s.length + 1 ≤ buf.length →
      tree_write_to_string E names fuel h ar buf tree string limit ib
        = some (stamp buf string s, s.length) := by
  intro fuel
  induction fuel with
  | zero => intro buf tree string limit ib s ht; simp [tree_text] at ht
  | succ fuel ih =>
    intro buf tree string limit ib s ht hl hb
    have hp : 0 < limit := by omega
    rw [tree_text] at ht
    rw [tree_write_to_string_unfold]
    by_cases h0 : tree = 0
    · simp only [h0, if_true, Option.some.injEq] at ht ⊢
      subst ht
      rw [snprintf_fits hl hb]
      rfl
    · simp only [h0, if_false] at ht ⊢
      cases hd : deref h tree with
      | none => simp [hd] at ht
      | some t =>
        simp only [hd] at ht ⊢
        have hvis : ∀ b c cur r, tree_text E names fuel h ar c false = some r → r.length < limit →
            cur + r.length + 1 ≤ b.length →
            tree_write_to_string E names fuel h ar b c cur limit false
              = some (stamp b cur r, r.length) :=
          fun b c cur r hr h1 h2 => ih b c cur limit false r hr h1 h2
        by_cases hh : t.is_hidden = true
        · -- a hidden node: only the children print
          simp only [hh, if_true] at ht
          simp only [write_open, hh, Bool.not_true, Bool.false_eq_true, if_false]
          cases hdat : child_list ar t with
          | none => simp [hdat] at ht
          | some cs =>
            simp only [hdat] at ht ⊢
            obtain ⟨w1, hw1, hp1⟩ := write_child_list_printed hp hvis cs _ [] s
              (printed_start buf string) ht (by simpa using hl) (by simpa using hb)
            simp only [hw1]
            obtain ⟨e1, _, e3⟩ := hp1
            simp only [List.nil_append] at e1 e3
            rw [e1, e3]
        · have hh2 : t.is_hidden = false := by simpa using hh
          simp only [hh2, Bool.false_eq_true, if_false] at ht
          -- the separator
          have hsep : ∃ w1,
              (if (!ib) = true then
                (Writer.print ⟨buf, string, 0⟩ limit [' ']).map (fun w1 => w1.advance string limit)
              else some ⟨buf, string, 0⟩) = some w1 ∧
              w1.printed buf string (separator ib) := by
            cases ib with
            | true => exact ⟨_, rfl, printed_start buf string⟩
            | false =>
              have hs1 : (separator false).length ≤ s.length := by
                by_cases he : t.symbol = E
                · simp only [he, if_true, Option.some.injEq] at ht
                  subst ht; simp
                · simp only [he, if_false] at ht
                  cases hdat : child_list ar t with
                  | none => simp [hdat] at ht
                  | some cs =>
                    simp only [hdat] at ht
                    cases hb2 : text_children (fun c => tree_text E names fuel h ar c false) cs with
                    | none => simp [hb2] at ht
                    | some body =>
                      simp only [hb2, Option.map_some', Option.some.injEq] at ht
                      subst ht; simp
              have hs2 : (separator false).length = 1 := rfl
              obtain ⟨w1, hw1, _, _, hp1⟩ := print_printed limit [' '] (printed_start buf string)
                (by simp) (show ([] : List Char).length + [' '].length < limit by simp; omega)
                (show string + ([] : List Char).length + [' '].length + 1 ≤ buf.length by
                  simp; omega)
              refine ⟨w1.advance string limit, ?_, by simpa [separator] using hp1⟩
              simp [hw1]
          obtain ⟨w1, hw1, hp1⟩ := hsep
          by_cases he : t.symbol = E
          · -- the error token, and return
            simp only [he, if_true, Option.some.injEq] at ht
            subst ht
            simp only [List.length_append] at hl hb
            obtain ⟨w2, hw2, e1, e2, _⟩ := print_printed limit "(ERROR)".toList hp1
              (by decide) (by omega) (by omega)
            simp only [write_open, hh2, Bool.not_false, if_true, hw1, he, hw2, Option.map_some']
            rw [e1, e2]
          · simp only [he, if_false] at ht
            cases hdat : child_list ar t with
            | none => simp [hdat] at ht
            | some cs =>
              simp only [hdat] at ht
              cases hb2 : text_children (fun c => tree_text E names fuel h ar c false) cs with
              | none => simp [hb2] at ht
              | some body =>
                simp only [hb2, Option.map_some', Option.some.injEq] at ht
                subst ht
                simp only [List.length_append, List.length_cons, List.length_singleton,
                  List.length_nil] at hl hb
                obtain ⟨w2, hw2, _, _, hp2⟩ := print_printed limit
                  ('(' :: (names t.symbol).toList) hp1 (by simp)
                  (by simp only [List.length_cons]; omega)
                  (by simp only [List.length_cons]; omega)
                obtain ⟨w3, hw3, hp3⟩ := write_child_list_printed hp hvis cs
                  (w2.advance string limit) _ body hp2 hb2
                  (by simp only [List.length_append, List.length_cons]; omega)
                  (by simp only [List.length_append, List.length_cons]; omega)
                obtain ⟨w4, hw4, e1, e2, _⟩ := print_printed limit [')'] hp3 (by simp)
                  (by simp only [List.length_append, List.length_cons, List.length_singleton,
                    List.length_nil]; omega)
                  (by simp only [List.length_append, List.length_cons, List.length_singleton,
                    List.length_nil]; omega)
                simp only [write_open, hh2, Bool.not_false, if_true, hw1, he, if_false, hw2,
                  Option.map_some', hw3, hw4]
                rw [e1, e2]

/-! ## `ts_tree_string` -/

theorem stamp_fresh {s : List Char} (hs : s ≠ []) :
    stamp (List.replicate (s.length + 1) none) 0 s = s.map some ++ [some NUL] := by
  simp [stamp, hs, poke]

/-- The string `ts_tree_string` returns: the text of the traversal and its terminator
in a buffer of exactly that size; when the text is empty, the one byte of the buffer is
never written. -/
theorem ts_tree_string_eq (E : ts_symbol) (names : ts_symbol → String) (fuel : Nat) (h : Heap) (ar : Arrays)
    (tree : Nat) :
    ts_tree_string E names fuel h ar tree
      = (tree_text E names fuel h ar tree true).map
          (fun s => if s = [] then [none] else s.map some ++ [some NUL]) := by
  simp only [ts_tree_string, tree_write_to_string_zero]
  cases ht : tree_text E names fuel h ar tree true with
  | none => simp
  | some s =>
    simp only [Option.map_some']
    rw [tree_write_to_string_stamp E names h ar fuel _ tree 0 (s.length + 1) true s ht
      (by omega) (by simp)]
    simp only [Option.some.injEq]
    by_cases hs : s = []
    · subst hs; simp [stamp]
    · rw [stamp_fresh hs, if_neg hs]

theorem ts_tree_string_of_text {E : ts_symbol} {names : ts_symbol → String} {fuel : Nat}
    {h : Heap} {ar : Arrays} {tree : Nat} {s : String}
    (ht : tree_text E names fuel h ar tree true = some s.toList) (hs : s.toList ≠ []) :
    ts_tree_string E names fuel h ar tree = some (c_string s) := by
  rw [ts_tree_string_eq, ht]
  simp only [Option.map_some', if_neg hs, c_string]

theorem text_children_mono {f g : Nat → Option (List Char)}
    (hfg : ∀ c s, f c = some s → g c = some s) (cs : List Nat) :
    ∀ s, text_children f cs = some s → text_children g cs = some s := by
  induction cs with
  | nil => intro s hs; simpa [text_children] using hs
  | cons c rest ih =>
    intro s hs
    simp only [text_children] at hs ⊢
    cases hc : f c with
    | none => simp [hc] at hs
    | some a =>
      rw [hfg c a hc]
      cases hr : text_children f rest with
      | none => simp [hc, hr] at hs
      | some r =>
        rw [ih r hr]
        simpa [hc, hr] using hs

theorem tree_text_succ (E : ts_symbol) (names : ts_symbol → String) (h : Heap) (ar : Arrays) :
    ∀ (fuel tree : Nat) (ib : Bool) (s : List Char),
      tree_text E names fuel h ar tree ib = some s →
      tree_text E names (fuel + 1) h ar tree ib = some s := by
  intro fuel
  induction fuel with
  | zero => intro tree ib s hs; simp [tree_text] at hs
  | succ fuel ih =>
    intro tree ib s hs
    rw [tree_text] at hs ⊢
    by_cases h0 : tree = 0
    · simpa [h0] using hs
    · simp only [h0, if_false] at hs ⊢
      cases hd : deref h tree with
      | none => simp [hd] at hs
      | some t =>
        simp only [hd] at hs ⊢
        have hm := text_children_mono (fun c r => ih c false r)
        by_cases hh : t.is_hidden = true
        · simp only [hh, if_true] at hs ⊢
          cases hdat : child_list ar t with
          | none => simp [hdat] at hs
          | some cs =>
            simp only [hdat] at hs ⊢
            exact hm cs s hs
        · simp only [hh, if_false] at hs ⊢
          by_cases he : t.symbol = E
          · simpa [he] using hs
          · simp only [he, if_false] at hs ⊢
            cases hdat : child_list ar t with
            | none => simp [hdat] at hs
            | some cs =>
              simp only [hdat] at hs ⊢
              cases hb : text_children (fun c => tree_text E names fuel h ar c false) cs with
              | none => simp [hb] at hs
              | some body =>
                rw [hm cs body hb]
                simpa [hb] using hs

/-- More fuel never changes the text of a traversal. -/
theorem tree_text_mono (E : ts_symbol) (names : ts_symbol → String) {h : Heap} {ar : Arrays}
    {fuel fuel1 tree : Nat} {ib : Bool} {s : List Char}
    (hs : tree_text E names fuel h ar tree ib = some s) (hle : fuel ≤ fuel1) :
    tree_text E names fuel1 h ar tree ib = some s := by
  induction hle with
  | refl => exact hs
  | step _ ih => exact tree_text_succ E names h ar _ tree ib s ih

theorem ts_tree_string_mono (E : ts_symbol) (names : ts_symbol → String) {h : Heap} {ar : Arrays}
    {fuel fuel1 tree : Nat} {b : Buffer}
    (hs : ts_tree_string E names fuel h ar tree = some b) (hle : fuel ≤ fuel1) :
    ts_tree_string E names fuel1 h ar tree = some b := by
  rw [ts_tree_string_eq] at hs ⊢
  cases ht : tree_text E names fuel h ar tree true with
  | none => simp [ht] at hs
  | some s =>
    rw [tree_text_mono E names ht hle]
    simpa [ht] using hs

/-! ## The rendering and the text of a visible tree -/

theorem toList_append (a b : String) : (a ++ b).toList = a.toList ++ b.toList := by
  simp [String.toList, String.data_append]

theorem render_children_mono {f g : Nat → Option String}
    (hfg : ∀ c s, f c = some s → g c = some s) (cs : List Nat) :
    ∀ s, render_children f cs = some s → render_children g cs = some s := by
  induction cs with
  | nil => intro s hs; simpa [render_children] using hs
  | cons c rest ih =>
    intro s hs
    simp only [render_children] at hs ⊢
    cases hc : f c with
    | none => simp [hc] at hs
    | some a =>
      rw [hfg c a hc]
      cases hr : render_children f rest with
      | none => simp [hc, hr] at hs
      | some r =>
        rw [ih r hr]
        simpa [hc, hr] using hs

theorem render_succ (E : ts_symbol) (names : ts_symbol → String) (h : Heap) (ar : Arrays) :
    ∀ (fuel n : Nat) (s : String),
      render E names fuel h ar n = some s → render E names (fuel + 1) h ar n = some s := by
  intro fuel
  induction fuel with
  | zero => intro n s hs; simp [render] at hs
  | succ fuel ih =>
    intro n s hs
    rw [render] at hs ⊢
    cases hd : deref h n with
    | none => simp [hd] at hs
    | some t =>
      simp only [hd] at hs ⊢
      by_cases he : t.symbol = E
      · simpa [he] using hs
      · simp only [he, if_false] at hs ⊢
        cases hdat : child_list ar t with
        | none => simp [hdat] at hs
        | some cs =>
          simp only [hdat] at hs ⊢
          cases hb : render_children (render E names fuel h ar) cs with
          | none => simp [hb] at hs
          | some body =>
            rw [render_children_mono (fun c r => ih c r) cs body hb]
            simpa [hb] using hs

/-- More fuel never changes the rendering. -/
theorem render_mono (E : ts_symbol) (names : ts_symbol → String) {h : Heap} {ar : Arrays}
    {fuel fuel1 n : Nat} {s : String}
    (hs : render E names fuel h ar n = some s) (hle : fuel ≤ fuel1) :
    render E names fuel1 h ar n = some s := by
  induction hle with
  | refl => exact hs
  | step _ ih => exact render_succ E names h ar _ n s ih

theorem common_fuel_mem (P : Nat → Nat → Prop) (cs : List Nat) :
    (∀ c ∈ cs, ∃ f0, ∀ f, f0 ≤ f → P c f) → ∃ F, ∀ c ∈ cs, ∀ f, F ≤ f → P c f := by
  induction cs with
  | nil => intro _; exact ⟨0, fun c hc => by simp at hc⟩
  | cons a rest ih =>
    intro hP
    obtain ⟨f0, hf0⟩ := hP a (by simp)
    obtain ⟨F, hF⟩ := ih (fun c hc => hP c (by simp [hc]))
    refine ⟨max f0 F, ?_⟩
    intro c hc f hf
    simp only [List.mem_cons] at hc
    rcases hc with rfl | hc
    · exact hf0 f (by omega)
    · exact hF c hc f (by omega)

/-- The children of a visible node: each prints a space and its rendering. -/
theorem children_text_of_render (r : Nat → Option String) (tv : Nat → Option (List Char))
    (cs : List Nat)
    (hc : ∀ c ∈ cs, ∃ s, r c = some s ∧ tv c = some (' ' :: s.toList)) :
    ∃ body, render_children r cs = some body ∧ text_children tv cs = some body.toList := by
  induction cs with
  | nil => exact ⟨"", rfl, rfl⟩
  | cons c rest ih =>
    obtain ⟨s, hs1, hs2⟩ := hc c (by simp)
    obtain ⟨body, hb1, hb2⟩ := ih (fun x hx => hc x (by simp [hx]))
    refine ⟨" " ++ s ++ body, by simp [render_children, hs1, hb1], ?_⟩
    simp only [text_children, hs2, hb2, Option.map_some', toList_append]
    rfl

/-- On a tree without hidden nodes and absent children the rendering of the
specification is defined and is the text the traversal prints, behind the separator. -/
theorem text_of_fully_visible {E : ts_symbol} (names : ts_symbol → String) {h : Heap} {ar : Arrays} {n : Nat}
    (hv : fully_visible E h ar n) :
    ∃ F, ∀ f, F ≤ f → ∃ s, render E names f h ar n = some s ∧ s.toList ≠ [] ∧
      ∀ ib, tree_text E names f h ar n ib = some (separator ib ++ s.toList) := by
  induction hv with
  | @error m t hd hh he =>
    refine ⟨1, ?_⟩
    intro f hf
    obtain ⟨g, rfl⟩ : ∃ g, f = g + 1 := ⟨f - 1, by omega⟩
    have h0 := (deref_some_bounds hd).1
    refine ⟨"(ERROR)", by simp [render, hd, he], by decide, ?_⟩
    intro ib
    rw [tree_text]
    simp [show ¬ (m = 0) from by omega, hd, hh, he]
  | @node m t cs hd hh he hdat _ ih =>
    obtain ⟨F, hF⟩ := common_fuel_mem
      (fun c f => ∃ s, render E names f h ar c = some s ∧ s.toList ≠ [] ∧
        ∀ ib, tree_text E names f h ar c ib = some (separator ib ++ s.toList)) cs ih
    refine ⟨F + 1, ?_⟩
    intro f hf
    obtain ⟨g, rfl⟩ : ∃ g, f = g + 1 := ⟨f - 1, by omega⟩
    have h0 := (deref_some_bounds hd).1
    obtain ⟨body, hb1, hb2⟩ := children_text_of_render
      (render E names g h ar) (fun c => tree_text E names g h ar c false) cs
      (fun c hc => by
        obtain ⟨s, hs1, _, hs3⟩ := hF c hc g (by omega)
        exact ⟨s, hs1, by simpa [separator] using hs3 false⟩)
    refine ⟨"(" ++ names t.symbol ++ body ++ ")", by simp [render, hd, he, hdat, hb1], ?_, ?_⟩
    · simp [toList_append]
    · intro ib
      rw [tree_text]
      simp only [show ¬ (m = 0) from by omega, if_false, hd, hh, Bool.false_eq_true, he, hdat,
        hb2, Option.map_some', toList_append]
      have e1 : "(".toList = ['('] := rfl
      have e2 : ")".toList = [')'] := rfl
      rw [e1, e2]
      simp

theorem render_children_eq {r1 r2 : Nat → Option String} (ka : List Nat) :
    ∀ (kb : List Nat) (b1 b2 : String), ka.length = kb.length →
      (∀ (i x y : Nat), ka[i]? = some x → kb[i]? = some y →
        ∀ s1 s2, r1 x = some s1 → r2 y = some s2 → s1 = s2) →
      render_children r1 ka = some b1 → render_children r2 kb = some b2 → b1 = b2 := by
  induction ka with
  | nil =>
    intro kb b1 b2 hl _ h1 h2
    cases kb with
    | nil =>
      simp only [render_children, Option.some.injEq] at h1 h2
      rw [← h1, ← h2]
    | cons y ys => simp at hl
  | cons x xs ih =>
    intro kb b1 b2 hl hall h1 h2
    cases kb with
    | nil => simp at hl
    | cons y ys =>
      simp only [render_children] at h1 h2
      cases hx : r1 x with
      | none => simp [hx] at h1
      | some s1 =>
        cases hy : r2 y with
        | none => simp [hy] at h2
        | some s2 =>
          cases hxs : render_children r1 xs with
          | none => simp [hx, hxs] at h1
          | some t1 =>
            cases hys : render_children r2 ys with
            | none => simp [hy, hys] at h2
            | some t2 =>
              simp only [hx, hxs, hy, hys, Option.map_some', Option.some.injEq] at h1 h2
              have e1 : s1 = s2 := hall 0 x y (by simp) (by simp) s1 s2 hx hy
              have e2 : t1 = t2 := ih ys t1 t2 (by simpa using hl)
                (fun i a b ha hb => hall (i + 1) a b (by simpa using ha) (by simpa using hb))
                hxs hys
              rw [← h1, ← h2, e1, e2]

/-- Equal trees have the same rendering. -/
theorem equals_render (E : ts_symbol) (names : ts_symbol → String) (h : Heap) (ar : Arrays) :
    ∀ (fuel a b : Nat), ts_tree_equals E fuel h ar a b = some true →
      ∀ (f1 f2 : Nat) (sa sb : String), render E names f1 h ar a = some sa →
        render E names f2 h ar b = some sb → sa = sb := by
  intro fuel
  induction fuel with
  | zero => intro a b hab; simp [ts_tree_equals] at hab
  | succ fuel ih =>
    intro a b hab f1 f2 sa sb h1 h2
    obtain ⟨ta, tb, ha, hb, hs, hc⟩ := equals_true_inv hab
    cases f1 with
    | zero => simp [render] at h1
    | succ g1 =>
      cases f2 with
      | zero => simp [render] at h2
      | succ g2 =>
        rw [render] at h1 h2
        simp only [ha] at h1
        simp only [hb] at h2
        rcases hc with he | ⟨hne, n, a1, a2, hda, hdb, hloop⟩
        · have he2 : tb.symbol = E := hs ▸ he
          simp only [he, he2, if_true, Option.some.injEq] at h1 h2
          rw [← h1, ← h2]
        · have hne2 : tb.symbol ≠ E := hs ▸ hne
          simp only [hne, hne2, if_false] at h1 h2
          cases hka : child_list ar ta with
          | none => simp [hka] at h1
          | some ka =>
            cases hkb : child_list ar tb with
            | none => simp [hkb] at h2
            | some kb =>
              simp only [hka, hkb] at h1 h2
              rw [child_list_children hda] at hka
              rw [child_list_children hdb] at hkb
              have hla := read_children_length hka
              have hlb := read_children_length hkb
              cases hba : render_children (render E names g1 h ar) ka with
              | none => simp [hba] at h1
              | some b1 =>
                cases hbb : render_children (render E names g2 h ar) kb with
                | none => simp [hbb] at h2
                | some b2 =>
                  simp only [hba, hbb, Option.map_some', Option.some.injEq] at h1 h2
                  have e := render_children_eq ka kb b1 b2 (hla.trans hlb.symm)
                    (fun i x y hx hy s1 s2 hs1 hs2 => by
                      have hi : i < n := by
                        have := (List.getElem?_eq_some_iff.mp hx).1
                        omega
                      obtain ⟨x1, y1, hx1, hy1, hxy⟩ :=
                        equals_loop_true_inv ar a1 a2 n 0 hloop i hi
                      rw [Nat.zero_add, read_children_get hka i hi, hx] at hx1
                      rw [Nat.zero_add, read_children_get hkb i hi, hy] at hy1
                      simp only [Option.some.injEq] at hx1 hy1
                      subst hx1; subst hy1
                      exact ih x y hxy g1 g2 s1 s2 hs1 hs2)
                    hba hbb
                  rw [← h1, ← h2, e, hs]

/-! ## Hidden nodes -/

theorem text_children_append (tv : Nat → Option (List Char)) (l1 l2 : List Nat) :
    text_children tv (l1 ++ l2)
      = (text_children tv l1).bind (fun a => (text_children tv l2).map (fun b => a ++ b)) := by
  induction l1 with
  | nil =>
    simp only [List.nil_append, text_children, Option.some_bind, List.nil_append]
    cases text_children tv l2 <;> simp
  | cons c rest ih =>
    simp only [List.cons_append, text_children, List.append_eq]
    rw [ih]
    cases tv c with
    | none => simp
    | some s =>
      cases text_children tv rest with
      | none => simp
      | some a =>
        cases text_children tv l2 with
        | none => simp
        | some b => simp

theorem text_children_append_some {tv : Nat → Option (List Char)} {l1 l2 : List Nat}
    {s : List Char} (hs : text_children tv (l1 ++ l2) = some s) :
    ∃ a b, text_children tv l1 = some a ∧ text_children tv l2 = some b ∧ s = a ++ b := by
  rw [text_children_append] at hs
  cases h1 : text_children tv l1 with
  | none => simp [h1] at hs
  | some a =>
    cases h2 : text_children tv l2 with
    | none => simp [h1, h2] at hs
    | some b =>
      simp only [h1, h2, Option.some_bind, Option.map_some', Option.some.injEq] at hs
      exact ⟨a, b, rfl, rfl, hs.symm⟩

theorem text_children_append_intro {tv : Nat → Option (List Char)} {l1 l2 : List Nat}
    {a b : List Char} (h1 : text_children tv l1 = some a) (h2 : text_children tv l2 = some b) :
    text_children tv (l1 ++ l2) = some (a ++ b) := by
  rw [text_children_append, h1, h2]
  rfl

/-- The text of a visible node of another kind than the error kind. -/
theorem tree_text_visible {E : ts_symbol} (names : ts_symbol → String) {h : Heap} {ar : Arrays} {p : Nat}
    {t : ts_tree} {cs : List Nat} (hp : deref h p = some t) (hv : t.is_hidden = false)
    (he : t.symbol ≠ E) (hd : child_list ar t = some cs) (fuel : Nat) (ib : Bool) :
    tree_text E names (fuel + 1) h ar p ib
      = (text_children (fun c => tree_text E names fuel h ar c false) cs).map
          (fun body =>
            separator ib ++ ('(' :: (names t.symbol).toList) ++ body ++ [')']) := by
  have h0 := (deref_some_bounds hp).1
  rw [tree_text]
  simp only [show ¬ (p = 0) from by omega, if_false, hp, hv, Bool.false_eq_true, he, hd]

/-- The text of a hidden node with the member `data.children`: the texts of its
children. -/
theorem tree_text_hidden {E : ts_symbol} (names : ts_symbol → String) {h : Heap} {ar : Arrays} {p : Nat}
    {t : ts_tree} {cs : List Nat} (hp : deref h p = some t) (hv : t.is_hidden = true)
    (hd : child_list ar t = some cs) (fuel : Nat) (ib : Bool) :
    tree_text E names (fuel + 1) h ar p ib
      = text_children (fun c => tree_text E names fuel h ar c false) cs := by
  have h0 := (deref_some_bounds hp).1
  rw [tree_text]
  simp only [show ¬ (p = 0) from by omega, if_false, hp, hv, if_true, hd]

/-- A hidden child prints what its children would print in its place. -/
theorem hidden_splice_text {E : ts_symbol} (names : ts_symbol → String) {h : Heap} {ar : Arrays}
    {P Q H : Nat} {tP tQ tH : ts_tree} {pre post xs : List Nat}
    (hP : deref h P = some tP) (hvP : tP.is_hidden = false) (heP : tP.symbol ≠ E)
    (hdP : child_list ar tP = some (pre ++ H :: post))
    (hH : deref h H = some tH) (hhH : tH.is_hidden = true) (hdH : child_list ar tH = some xs)
    (hQ : deref h Q = some tQ) (hvQ : tQ.is_hidden = false) (hsQ : tQ.symbol = tP.symbol)
    (hdQ : child_list ar tQ = some (pre ++ xs ++ post)) :
    (∀ f ib s, tree_text E names f h ar P ib = some s → tree_text E names f h ar Q ib = some s) ∧
    (∀ f ib s, tree_text E names f h ar Q ib = some s →
      tree_text E names (f + 1) h ar P ib = some s) := by
  have heQ : tQ.symbol ≠ E := by rw [hsQ]; exact heP
  constructor
  · intro f ib s hs
    cases f with
    | zero => simp [tree_text] at hs
    | succ g =>
      rw [tree_text_visible names hP hvP heP hdP] at hs
      rw [tree_text_visible names hQ hvQ heQ hdQ, hsQ]
      cases hb : text_children (fun c => tree_text E names g h ar c false) (pre ++ H :: post) with
      | none => rw [hb] at hs; simp at hs
      | some body =>
        simp only [hb, Option.map_some', Option.some.injEq] at hs
        obtain ⟨a, r, ha, hr, e1⟩ := text_children_append_some hb
        simp only [text_children] at hr
        cases hm : tree_text E names g h ar H false with
        | none => simp [hm] at hr
        | some m =>
          cases hc : text_children (fun c => tree_text E names g h ar c false) post with
          | none => simp [hm, hc] at hr
          | some c =>
            simp only [hm, hc, Option.map_some', Option.some.injEq] at hr
            cases g with
            | zero => simp [tree_text] at hm
            | succ k =>
              rw [tree_text_hidden names hH hhH hdH] at hm
              have hm2 := text_children_mono
                (fun c r (hcr : tree_text E names k h ar c false = some r) =>
                  tree_text_succ E names h ar k c false r hcr) xs m hm
              have := text_children_append_intro (text_children_append_intro ha hm2) hc
              rw [this]
              simp only [Option.map_some', Option.some.injEq]
              rw [← hs, e1, ← hr]
              simp
  · intro f ib s hs
    cases f with
    | zero => simp [tree_text] at hs
    | succ g =>
      rw [tree_text_visible names hQ hvQ heQ hdQ, hsQ] at hs
      rw [tree_text_visible names hP hvP heP hdP]
      cases hb : text_children (fun c => tree_text E names g h ar c false) (pre ++ xs ++ post) with
      | none => rw [hb] at hs; simp at hs
      | some body =>
        simp only [hb, Option.map_some', Option.some.injEq] at hs
        obtain ⟨am, c, ham, hc, e1⟩ := text_children_append_some hb
        obtain ⟨a, m, ha, hm, e2⟩ := text_children_append_some ham
        have up := fun l r (hl : text_children (fun c => tree_text E names g h ar c false) l
            = some r) =>
          text_children_mono
            (fun c r (hcr : tree_text E names g h ar c false = some r) =>
              tree_text_succ E names h ar g c false r hcr) l r hl
        have hH2 : tree_text E names (g + 1) h ar H false = some m := by
          rw [tree_text_hidden names hH hhH hdH]; exact hm
        have hcons : text_children (fun c => tree_text E names (g + 1) h ar c false) (H :: post)
            = some (m ++ c) := by
          simp only [text_children, hH2, up post c hc, Option.map_some']
        have := text_children_append_intro (up pre a ha) hcons
        rw [this]
        simp only [Option.map_some', Option.some.injEq]
        rw [← hs, e1, e2]
        simp

/-! ## Whole-tree teardown -/

theorem in_tree_trans {h : Heap} {ar : Arrays} {a y x : Nat} (h1 : in_tree h ar a y)
    (h2 : in_tree h ar y x) : in_tree h ar a x := by
  induction h1 with
  | root p => exact h2
  | child hd hc _ ih => exact in_tree.child hd hc (ih h2)

/-- A tree is read off the child arrays of its live nodes only. -/
theorem in_tree_congr {h h1 : Heap} {ar ar1 : Arrays} {a x : Nat}
    (hs : ∀ y t1, deref h1 y = some t1 → ∃ t, deref h y = some t ∧ listed ar t = listed ar1 t1)
    (hx : in_tree h1 ar1 a x) : in_tree h ar a x := by
  induction hx with
  | root p => exact in_tree.root p
  | child hd hc _ ih =>
    obtain ⟨t, ht, hdat⟩ := hs _ _ hd
    exact in_tree.child ht (by rw [hdat]; exact hc) ih

theorem in_tree_le {E : ts_symbol} {h : Heap} {ar : Arrays} {held : Nat → Nat}
    (hi : heap_inv E h ar held) {a x : Nat} (hx : in_tree h ar a x) : x ≤ a := by
  induction hx with
  | root p => exact le_refl p
  | child hd hc _ ih =>
    have := hi.shape.child_lt _ _ hd _ hc
    omega

/-- After the tree below `c` was freed, a node of the tree below `a` is still reached
from `a`, or it was in the freed tree. -/
theorem in_tree_after_free {h hm : Heap} {ar arm : Arrays} {c a x : Nat}
    (hkeep : ∀ y, ¬ in_tree h ar c y → deref hm y = deref h y)
    (hlist : ∀ y t, deref hm y = some t → listed arm t = listed ar t)
    (hx : in_tree h ar a x) : in_tree hm arm a x ∨ in_tree h ar c x := by
  induction hx with
  | root p => exact Or.inl (in_tree.root p)
  | @child p c1 x t hd hc hsub ih =>
    by_cases hp : in_tree h ar c p
    · exact Or.inr (in_tree_trans hp (in_tree.child hd hc hsub))
    · rcases ih with h1 | h2
      · have hdm : deref hm p = some t := by rw [hkeep p hp]; exact hd
        exact Or.inl (in_tree.child hdm (by rw [hlist p t hdm]; exact hc) h1)
      · exact Or.inr h2

theorem in_tree_root_cases {h : Heap} {ar : Arrays} {p x : Nat} (hx : in_tree h ar p x) :
    x = p ∨ ∃ t c, deref h p = some t ∧ c ∈ listed ar t ∧ in_tree h ar c x := by
  cases hx with
  | root => exact Or.inl rfl
  | child hd hc hsub => exact Or.inr ⟨_, _, hd, hc, hsub⟩

/-- A node that a release leaves behind lists the children it listed before. -/
theorem release_post_listed {E : ts_symbol} {h h1 : Heap} {ar ar1 : Arrays} {held : Nat → Nat}
    {b : Nat} (hp : release_post E h ar held b h1 ar1) {q : Nat} {t : ts_tree}
    (hq : deref h1 q = some t) : listed ar1 t = listed ar t := by
  apply listed_congr
  intro n a hd
  rcases hp.arrays_ok a with e | ⟨_, hno⟩
  · exact e
  · exact absurd hd (hno q t n hq)

/-- The release loop over children that are the sole owners' trees frees exactly the
trees below them, nodes and arrays. -/
theorem teardown_loop (E : ts_symbol) (fuel : Nat)
    (ih : ∀ (h : Heap) (ar : Arrays) (held : Nat → Nat) (p : Nat) (r : Heap × Arrays),
      heap_inv E h ar held → 1 ≤ held p → p ≤ fuel → sole_owner E h ar p →
      ts_tree_release E fuel h ar p = some r →
      freed_exactly h r.1 (in_tree h ar p) ∧ arrays_freed_exactly ar r.2 (tree_array E h ar p))
    (bound a P : Nat) (hP : bound < P) (cs : List Nat) :
    ∀ (i : Nat) (hk : Heap) (ark : Arrays) (held : Nat → Nat) (r : Heap × Arrays),
      heap_inv E hk ark (fun q => held q + cs.count q) →
      (cs ≠ [] → ∃ t n, deref hk P = some t ∧ t.data = .children n a) →
      (∀ j, j < cs.length → array_get ark a (i + j) = cs[j]?) →
      (∀ c ∈ cs, c ≤ bound) → bound ≤ fuel →
      (∀ c ∈ cs, sole_owner E hk ark c) →
      for_each (fun (s : Heap × Arrays) k => array_get s.2 a k)
        (fun s c => ts_tree_release E fuel s.1 s.2 c) i cs.length (hk, ark) = some r →
      freed_exactly hk r.1 (fun x => ∃ c ∈ cs, in_tree hk ark c x) ∧
      arrays_freed_exactly ark r.2 (fun a1 => ∃ c ∈ cs, tree_array E hk ark c a1) := by
  induction cs with
  | nil =>
    intro i hk ark held r _ _ _ _ _ _ hf
    simp only [List.length_nil, for_each, Option.some.injEq] at hf
    subst hf
    exact ⟨⟨fun x hx => by simp at hx, fun x _ => rfl⟩,
      ⟨fun x hx => by simp at hx, fun x _ => rfl⟩⟩
  | cons c rest ihl =>
    intro i hk ark held r hi hpar hread hb hbf hso hf
    have hread0 : array_get ark a i = some c := by
      have := hread 0 (by simp)
      simpa using this
    simp only [List.length_cons, for_each, hread0] at hf
    obtain ⟨tP, nP, hPd, hPdata⟩ := hpar (by simp)
    have hc : c ≤ bound := hb c (by simp)
    obtain ⟨hm, arm, hrel, hpost⟩ := release_spec E fuel hk ark
      (fun q => held q + (c :: rest).count q) c hi (by simp; omega) (by omega)
    rw [hrel] at hf
    simp only at hf
    have hi2 : heap_inv E hm arm (fun q => held q + rest.count q) := by
      apply heap_inv_congr hpost.inv
      intro q
      by_cases hq : q = c
      · subst hq; simp
      · have : ¬ (c = q) := fun e => hq e.symm
        simp [hq, List.count_cons, this]
    obtain ⟨⟨hdead, hkeep⟩, ⟨adead, akeep⟩⟩ := ih hk ark _ c (hm, arm) hi (by simp; omega)
      (by omega) (hso c (by simp)) hrel
    have hPm : deref hm P = some tP := by rw [hpost.frame P (by omega)]; exact hPd
    have harr : array_block arm a = array_block ark a := by
      rcases hpost.arrays_ok a with h1 | ⟨_, h2⟩
      · exact h1
      · exact absurd hPdata (h2 P tP nP hPm)
    have hback : ∀ y t1, deref hm y = some t1 → deref hk y = some t1 := by
      intro y t1 hy
      by_cases hyc : in_tree hk ark c y
      · rw [hdead y hyc] at hy; simp at hy
      · rw [← hkeep y hyc]; exact hy
    have hsame : ∀ y t1, deref hm y = some t1 →
        ∃ t, deref hk y = some t ∧ listed ark t = listed arm t1 :=
      fun y t1 hy => ⟨t1, hback y t1 hy, (release_post_listed hpost hy).symm⟩
    have hso2 : ∀ c1 ∈ rest, sole_owner E hm arm c1 := by
      intro c1 hc1 x t hx hdx
      have hx2 : in_tree hk ark c1 x := in_tree_congr hsame hx
      have := hso c1 (by simp [hc1]) x t hx2 (hback x t hdx)
      rw [release_post_listed hpost hdx]
      exact this
    obtain ⟨⟨hdead2, hkeep2⟩, ⟨adead2, akeep2⟩⟩ := ihl (i + 1) hm arm held r hi2
      (fun _ => ⟨tP, nP, hPm, hPdata⟩)
      (by
        intro j hj
        rw [array_get_congr harr]
        have := hread (j + 1) (by simp; omega)
        simpa [Nat.add_assoc, Nat.add_comm 1 j] using this)
      (fun x hx => hb x (by simp [hx])) hbf hso2 hf
    -- the arrays of the trees that remain, before and after the first release
    have htree_down : ∀ c1 a1, tree_array E hm arm c1 a1 → tree_array E hk ark c1 a1 := by
      rintro c1 a1 ⟨h0, x, t, n, hin, hdx, hne, hdat⟩
      exact ⟨h0, x, t, n, in_tree_congr hsame hin, hback x t hdx, hne, hdat⟩
    have htree_up : ∀ c0 a1, tree_array E hk ark c0 a1 →
        tree_array E hm arm c0 a1 ∨ tree_array E hk ark c a1 := by
      rintro c0 a1 ⟨h0, x, t, n, hin, hdx, hne, hdat⟩
      by_cases hxc : in_tree hk ark c x
      · exact Or.inr ⟨h0, x, t, n, hxc, hdx, hne, hdat⟩
      · rcases in_tree_after_free hkeep (fun y t hy => release_post_listed hpost hy) hin
          with h1 | h2
        · exact Or.inl ⟨h0, x, t, n, h1, by rw [hkeep x hxc]; exact hdx, hne, hdat⟩
        · exact absurd h2 hxc
    refine ⟨⟨?_, ?_⟩, ⟨?_, ?_⟩⟩
    · intro x hx
      obtain ⟨c0, hc0, hin⟩ := hx
      have hcase : in_tree hk ark c x ∨ ∃ c1 ∈ rest, in_tree hm arm c1 x := by
        simp only [List.mem_cons] at hc0
        rcases hc0 with rfl | hc0
        · exact Or.inl hin
        · rcases in_tree_after_free hkeep (fun y t hy => release_post_listed hpost hy) hin
            with h1 | h2
          · exact Or.inr ⟨c0, hc0, h1⟩
          · exact Or.inl h2
      rcases hcase with h1 | h2
      · by_cases h3 : ∃ c1 ∈ rest, in_tree hm arm c1 x
        · exact hdead2 x h3
        · rw [hkeep2 x h3]; exact hdead x h1
      · exact hdead2 x h2
    · intro x hx
      have h1 : ¬ in_tree hk ark c x := fun hin => hx ⟨c, by simp, hin⟩
      have h2 : ¬ ∃ c1 ∈ rest, in_tree hm arm c1 x := by
        rintro ⟨c1, hc1, hin⟩
        exact hx ⟨c1, by simp [hc1], in_tree_congr hsame hin⟩
      rw [hkeep2 x h2, hkeep x h1]
    · intro a1 ha1
      obtain ⟨c0, hc0, hta⟩ := ha1
      have hcase : tree_array E hk ark c a1 ∨ ∃ c1 ∈ rest, tree_array E hm arm c1 a1 := by
        simp only [List.mem_cons] at hc0
        rcases hc0 with rfl | hc0
        · exact Or.inl hta
        · rcases htree_up c0 a1 hta with h1 | h2
          · exact Or.inr ⟨c0, hc0, h1⟩
          · exact Or.inl h2
      rcases hcase with h1 | h2
      · by_cases h3 : ∃ c1 ∈ rest, tree_array E hm arm c1 a1
        · exact adead2 a1 h3
        · rw [akeep2 a1 h3]; exact adead a1 h1
      · exact adead2 a1 h2
    · intro a1 ha1
      have h1 : ¬ tree_array E hk ark c a1 := fun hin => ha1 ⟨c, by simp, hin⟩
      have h2 : ¬ ∃ c1 ∈ rest, tree_array E hm arm c1 a1 := by
        rintro ⟨c1, hc1, hin⟩
        exact ha1 ⟨c1, by simp [hc1], htree_down c1 a1 hin⟩
      rw [akeep2 a1 h2, akeep a1 h1]

/-- Releasing the last reference to a tree whose nodes all have count 1 frees exactly
the nodes of the tree and the arrays they point to. -/
theorem teardown_char (E : ts_symbol) :
    ∀ (fuel : Nat) (h : Heap) (ar : Arrays) (held : Nat → Nat) (p : Nat) (r : Heap × Arrays),
      heap_inv E h ar held → 1 ≤ held p → p ≤ fuel → sole_owner E h ar p →
      ts_tree_release E fuel h ar p = some r →
      freed_exactly h r.1 (in_tree h ar p) ∧
      arrays_freed_exactly ar r.2 (tree_array E h ar p) := by
  intro fuel
  induction fuel with
  | zero => intro h ar held p r _ _ _ _ hr; simp [ts_tree_release] at hr
  | succ fuel ih =>
    intro h ar held p r hi hh hp hso hr
    obtain ⟨t, hd⟩ := live_of_held hi hh
    have hb := deref_some_bounds hd
    obtain ⟨hrc, herr⟩ := hso p t (in_tree.root p) hd
    have hz : t.ref_count - 1 = 0 := by omega
    have hd1 : ∀ q, deref (write h p (some { t with ref_count := t.ref_count - 1 })) q
        = if q = p then some { t with ref_count := t.ref_count - 1 } else deref h q :=
      fun q => deref_write h p q _ hb
    obtain ⟨a, cs, hcs, hget, hcnt, hlt, hne, hown, hlist, hkind, hptr⟩ :=
      children_of_live hi hd
    have hcs1 : ts_tree_children E (write h p (some { t with ref_count := t.ref_count - 1 })) p
        = some (a, cs.length) := by
      simp only [ts_tree_children, hd1 p, if_true]
      simpa [ts_tree_children, hd] using hcs
    -- the children released are the children listed
    have hcl : listed ar t = cs := by
      by_cases he : t.symbol = E
      · rw [herr he]
        have : ts_tree_children E h p = some (0, 0) := by simp [ts_tree_children, hd, he]
        rw [hcs] at this
        simp only [Option.some.injEq, Prod.mk.injEq] at this
        exact (List.length_eq_zero.mp this.2).symm
      · exact hlist he
    have hi1 := heap_inv_last_ref hi hd hh hz cs hcnt hlt
    have hpar : cs ≠ [] → ∃ t1 n, deref (write h p (some { t with ref_count := t.ref_count - 1 }))
        p = some t1 ∧ t1.data = .children n a :=
      fun hc => ⟨{ t with ref_count := t.ref_count - 1 }, cs.length,
        by rw [hd1 p, if_pos rfl], hne hc⟩
    obtain ⟨h2, ar2, hloop, hpost⟩ := release_loop_spec E fuel (release_spec E fuel) (p - 1) a p
      (by omega) cs 0 _ ar _ hi1 hpar
      (fun j hj => by rw [Nat.zero_add]; exact hget j hj)
      (fun c hc => by have := hlt c hc; omega) (by omega)
    have hl2 : h2.length = h.length := by rw [hpost.length_eq, write_length]
    have hb2 : 1 ≤ p ∧ p ≤ h2.length := by omega
    have hp2 : deref h2 p = some { t with ref_count := t.ref_count - 1 } := by
      rw [hpost.frame p (by omega), hd1 p]; simp
    have hd2 : ∀ q, deref (write h2 p none) q = if q = p then none else deref h2 q :=
      fun q => deref_write h2 p q _ hb2
    rw [ts_tree_release] at hr
    simp only [hd] at hr
    rw [if_pos hz] at hr
    simp only [hcs1, hloop] at hr
    cases hf3 : free_array ar2 a with
    | none => simp [hf3] at hr
    | some ar3 =>
      simp only [hf3, free_live hp2, Option.some.injEq] at hr
      subst hr
      have hblock := array_block_free_array hf3
      -- the two heaps list the same children everywhere
      have hs1 : ∀ y t1, deref (write h p (some { t with ref_count := t.ref_count - 1 })) y
          = some t1 → ∃ t0, deref h y = some t0 ∧ listed ar t0 = listed ar t1 := by
        intro y t1 hy
        rw [hd1 y] at hy
        by_cases hyp : y = p
        · subst hyp
          simp only [if_true, Option.some.injEq] at hy
          subst hy
          exact ⟨t, hd, (listed_data rfl).symm⟩
        · simp only [hyp, if_false] at hy
          exact ⟨t1, hy, rfl⟩
      have hs2 : ∀ y t1, deref h y = some t1 →
          ∃ t0, deref (write h p (some { t with ref_count := t.ref_count - 1 })) y = some t0 ∧
            listed ar t0 = listed ar t1 := by
        intro y t1 hy
        rw [hd1 y]
        by_cases hyp : y = p
        · subst hyp
          rw [hd] at hy
          simp only [Option.some.injEq] at hy
          subst hy
          exact ⟨_, if_pos rfl, listed_data rfl⟩
        · exact ⟨t1, by simp [hyp, hy], rfl⟩
      -- below a child the two heaps hold the same nodes
      have hbelow : ∀ c ∈ cs, ∀ x, in_tree h ar c x → x ≠ p := by
        intro c hc x hx
        have hxc := in_tree_le hi hx
        have hcp := hlt c hc
        omega
      have hso1 : ∀ c ∈ cs,
          sole_owner E (write h p (some { t with ref_count := t.ref_count - 1 })) ar c := by
        intro c hc x tx hx hdx
        have hx2 : in_tree h ar c x := in_tree_congr hs1 hx
        have hxp : x ≠ p := hbelow c hc x hx2
        rw [hd1 x] at hdx
        simp only [hxp, if_false] at hdx
        exact hso x tx (in_tree.child hd (by rw [hcl]; exact hc) hx2) hdx
      obtain ⟨⟨hdead, hkeep⟩, ⟨adead, akeep⟩⟩ := teardown_loop E fuel ih (p - 1) a p (by omega)
        cs 0 _ ar _ (h2, ar2) hi1 hpar (fun j hj => by rw [Nat.zero_add]; exact hget j hj)
        (fun c hc => by have := hlt c hc; omega) (by omega) hso1 hloop
      refine ⟨⟨?_, ?_⟩, ⟨?_, ?_⟩⟩
      · intro x hx
        rcases in_tree_root_cases hx with rfl | ⟨t1, c, hd1', hc, hin⟩
        · show deref (write h2 x none) x = none
          rw [hd2 x]; simp
        · rw [hd] at hd1'
          simp only [Option.some.injEq] at hd1'
          subst hd1'
          rw [hcl] at hc
          have hxp : x ≠ p := hbelow c hc x hin
          show deref (write h2 p none) x = none
          rw [hd2 x]
          simp only [hxp, if_false]
          exact hdead x ⟨c, hc, in_tree_congr hs2 hin⟩
      · intro x hx
        have hxp : x ≠ p := fun e => hx (by rw [e]; exact in_tree.root p)
        have hno : ¬ ∃ c ∈ cs,
            in_tree (write h p (some { t with ref_count := t.ref_count - 1 })) ar c x := by
          rintro ⟨c, hc, hin⟩
          exact hx (in_tree.child hd (by rw [hcl]; exact hc) (in_tree_congr hs1 hin))
        show deref (write h2 p none) x = deref h x
        rw [hd2 x]
        simp only [hxp, if_false]
        rw [hkeep x hno, hd1 x]
        simp [hxp]
      · rintro a1 ⟨h0, x, tx, n, hin, hdx, hnx, hdat⟩
        show array_block ar3 a1 = none
        rw [hblock a1]
        by_cases ha : a1 = a
        · rw [if_pos ha]
        · rw [if_neg ha]
          rcases in_tree_root_cases hin with rfl | ⟨t1, c, hd1', hc, hsub⟩
          · rw [hd] at hdx
            simp only [Option.some.injEq] at hdx
            subst hdx
            exact absurd (hptr n a1 hnx hdat) ha
          · rw [hd] at hd1'
            simp only [Option.some.injEq] at hd1'
            subst hd1'
            rw [hcl] at hc
            have hxp : x ≠ p := hbelow c hc x hsub
            apply adead a1
            refine ⟨c, hc, h0, x, tx, n, in_tree_congr hs2 hsub, ?_, hnx, hdat⟩
            rw [hd1 x, if_neg hxp]
            exact hdx
      · intro a1 ha1
        show array_block ar3 a1 = array_block ar a1
        rw [hblock a1]
        by_cases ha : a1 = a
        · subst ha
          rw [if_pos rfl]
          by_cases h0 : a1 = 0
          · subst h0; rfl
          · exfalso
            exact ha1 ⟨h0, p, t, cs.length, in_tree.root p, hd, hkind h0, (hown h0).1⟩
        · rw [if_neg ha]
          apply akeep a1
          rintro ⟨c, hc, h0, x, tx, n, hin, hdx, hnx, hdat⟩
          have hin2 : in_tree h ar c x := in_tree_congr hs1 hin
          have hxp : x ≠ p := hbelow c hc x hin2
          rw [hd1 x, if_neg hxp] at hdx
          exact ha1 ⟨h0, x, tx, n, in_tree.child hd (by rw [hcl]; exact hc) hin2, hdx, hnx, hdat⟩

/-! ## The example stores -/

theorem two_leaves_data {q : Nat} {t : ts_tree} (hq : deref two_leaves q = some t) :
    t.data = .children 0 0 := by
  have hb := deref_some_bounds hq
  have h2 : q ≤ 2 := hb.2
  have h1 := hb.1
  interval_cases q
  · simp only [two_leaves, deref, List.getElem?_cons_zero, Option.some.injEq] at hq
    subst hq; rfl
  · simp only [two_leaves, deref, List.getElem?_cons_succ, List.getElem?_cons_zero,
      Option.some.injEq] at hq
    subst hq; rfl

theorem demo_reachable : Reachable 0 owning demo_config := by
  have r1 : Reachable 0 owning ⟨_, _, acquire (fun _ => 0) 1⟩ :=
    Reachable.step (.make_leaf 5 1 0) 0 Reachable.empty trivial rfl
  have r2 : Reachable 0 owning ⟨_, _, acquire (acquire (fun _ => 0) 1) 2⟩ :=
    Reachable.step (.make_leaf 6 1 1) 0 r1 trivial rfl
  have r3 : Reachable 0 owning ⟨_, _, acquire (acquire (fun _ => 0) 1) 2⟩ :=
    Reachable.step (.new_array [1, 2] true) 0 r2 trivial rfl
  have r4 : Reachable 0 owning ⟨_, _, acquire (acquire (acquire (fun _ => 0) 1) 2) 3⟩ :=
    Reachable.step (.make_node 7 2 1 2 0) 0 r3
      (by
        refine ⟨?_, fun _ => ⟨⟨⟨[1, 2], true⟩, rfl, rfl⟩, ?_⟩⟩
        · intro i hi
          interval_cases i
          · exact ⟨1, rfl, by simp [acquire]⟩
          · exact ⟨2, rfl, by simp [acquire]⟩
        · intro q t n hq hd
          have := two_leaves_data hq
          rw [this] at hd
          simp at hd)
      rfl
  have r5 : Reachable 0 owning
      ⟨_, _, give_up (acquire (acquire (acquire (fun _ => 0) 1) 2) 3) 1⟩ :=
    Reachable.step (.release 1) 1 r4 (by simp [owning, obeys, acquire]) rfl
  exact Reachable.step (.release 2) 1 r5 (by simp [owning, obeys, acquire, give_up]) rfl

/-- The caller of `shared_array_moves` keeps to the contract on nodes. -/
theorem shared_array_reachable : Reachable 0 obeys shared_array_config := by
  have r1 : Reachable 0 obeys ⟨_, _, acquire (fun _ => 0) 1⟩ :=
    Reachable.step (.make_leaf 5 1 0) 0 Reachable.empty trivial rfl
  have r2 : Reachable 0 obeys ⟨_, _, acquire (fun _ => 0) 1⟩ :=
    Reachable.step (.new_array [1] true) 0 r1 trivial rfl
  have r3 : Reachable 0 obeys ⟨_, _, acquire (acquire (fun _ => 0) 1) 2⟩ :=
    Reachable.step (.make_node 7 1 1 1 0) 0 r2
      (by
        intro i hi
        interval_cases i
        exact ⟨1, rfl, by simp [acquire]⟩)
      rfl
  have r4 : Reachable 0 obeys ⟨_, _, acquire (acquire (acquire (fun _ => 0) 1) 2) 3⟩ :=
    Reachable.step (.make_node 7 1 1 1 0) 0 r3
      (by
        intro i hi
        interval_cases i
        exact ⟨1, rfl, by simp [acquire]⟩)
      rfl
  exact Reachable.step (.release 2) 2 r4 (by simp [obeys, acquire]) rfl

/-- The caller of `lone_owner_moves` keeps to the contract on nodes. -/
theorem lone_owner_reachable : Reachable 0 obeys lone_owner_config := by
  have r1 : Reachable 0 obeys ⟨_, _, acquire (fun _ => 0) 1⟩ :=
    Reachable.step (.make_leaf 5 1 0) 0 Reachable.empty trivial rfl
  have r2 : Reachable 0 obeys ⟨_, _, acquire (fun _ => 0) 1⟩ :=
    Reachable.step (.new_array [1] true) 0 r1 trivial rfl
  have r3 : Reachable 0 obeys ⟨_, _, acquire (acquire (fun _ => 0) 1) 2⟩ :=
    Reachable.step (.make_node 7 1 1 1 0) 0 r2
      (by
        intro i hi
        interval_cases i
        exact ⟨1, rfl, by simp [acquire]⟩)
      rfl
  have r4 : Reachable 0 obeys ⟨_, _, acquire (acquire (acquire (fun _ => 0) 1) 2) 3⟩ :=
    Reachable.step (.make_node 7 1 1 1 0) 0 r3
      (by
        intro i hi
        interval_cases i
        exact ⟨1, rfl, by simp [acquire]⟩)
      rfl
  have r5 : Reachable 0 obeys
      ⟨_, _, give_up (acquire (acquire (acquire (fun _ => 0) 1) 2) 3) 1⟩ :=
    Reachable.step (.release 1) 1 r4 (by simp [obeys, acquire]) rfl
  exact Reachable.step (.release 2) 2 r5 (by simp [obeys, acquire, give_up]) rfl

/-- Releasing the last reference to a node whose array was freed is undefined, whatever
the fuel: the first read `children[0]` is a read of freed memory. -/
theorem release_freed_array_undefined (E : ts_symbol) (h : Heap) (ar : Arrays) (p : Nat)
    (t : ts_tree) (n a : Nat) (hp : deref h p = some t) (hrc : t.ref_count = 1)
    (hs : t.symbol ≠ E) (hd : t.data = .children (n + 1) a) (ha : array_block ar a = none)
    (fuel : Nat) : ts_tree_release E fuel h ar p = none := by
  cases fuel with
  | zero => rfl
  | succ g =>
    have hb := deref_some_bounds hp
    have hz : t.ref_count - 1 = 0 := by omega
    rw [ts_tree_release]
    simp only [hp]
    rw [if_pos hz]
    have hc : ts_tree_children E (write h p (some { t with ref_count := t.ref_count - 1 })) p
        = some (a, n + 1) := by
      simp only [ts_tree_children, deref_write_same _ hb, if_neg hs, hd]
    simp only [hc, for_each, array_get, ha]

/-! ## Single steps -/

/-- Releasing the last reference: the children are released in order, then the array
and the node are freed. -/
theorem release_last (E : ts_symbol) {h h2 : Heap} {ar ar2 ar3 : Arrays} {p a n : Nat}
    {t t2 : ts_tree} (fuel : Nat) (hp : deref h p = some t) (hz : t.ref_count - 1 = 0)
    (hc : ts_tree_children E (write h p (some { t with ref_count := t.ref_count - 1 })) p
      = some (a, n))
    (hl : for_each (fun (s : Heap × Arrays) i => array_get s.2 a i)
      (fun s child => ts_tree_release E fuel s.1 s.2 child) 0 n
      (write h p (some { t with ref_count := t.ref_count - 1 }), ar) = some (h2, ar2))
    (hf : free_array ar2 a = some ar3) (hp2 : deref h2 p = some t2) :
    ts_tree_release E (fuel + 1) h ar p = some (write h2 p none, ar3) := by
  rw [ts_tree_release]
  simp only [hp]
  rw [if_pos hz]
  simp only [hc, hl, hf, free_live hp2]

/-- What `ts_tree_make_node` does over an array of live children. -/
theorem make_node_spec (h : Heap) (ar : Arrays) (symbol : ts_symbol)
    (child_count children : Nat) (cs : List Nat) (size offset : Nat)
    (hcs : read_children ar child_count children = some cs)
    (hl : ∀ c ∈ cs, ∃ t, deref h c = some t) :
    ∃ h1 p, ts_tree_make_node h ar symbol child_count children size offset = some (h1, p) ∧
      deref h p = none ∧
      deref h1 p = some ⟨1, symbol, size, offset, false, .children child_count children⟩ ∧
      (∀ q t, deref h q = some t →
        deref h1 q = some { t with ref_count := t.ref_count + cs.count q }) ∧
      (∀ q t, deref h q = some t → q ∉ cs → deref h1 q = some t) ∧
      (∀ q, q ≠ p → deref h q = none → deref h1 q = none) := by
  obtain ⟨hA, hf, hlen, hd⟩ := retain_loop_spec cs h hl
  have hm := make_set_data hA symbol size offset (.children child_count children)
  have hnew : deref h (hA.length + 1) = none := deref_beyond (by omega)
  have hold : ∀ q t, deref h q = some t →
      deref (set_data (ts_tree_make hA symbol size offset).1
        (ts_tree_make hA symbol size offset).2 (.children child_count children)) q
        = some { t with ref_count := t.ref_count + cs.count q } := by
    intro q t hq
    have hne : q ≠ hA.length + 1 := by
      have := (deref_some_bounds hq).2
      omega
    rw [hm q, if_neg hne, hd q, hq]
    rfl
  refine ⟨_, hA.length + 1, ?_, hnew, ?_, hold, ?_, ?_⟩
  · simp only [ts_tree_make_node, retain_array_spec hcs, hf]
    rfl
  · rw [hm]; simp
  · intro q t hq hnm
    rw [hold q t hq, List.count_eq_zero_of_not_mem hnm]
    simp
  · intro q hne hq
    rw [hm q, if_neg hne, hd q, hq]
    rfl

/-! ## The claims -/

/-- C1, as stated, fails: the contract on nodes does not keep a caller from handing one
array to two nodes.  After a leaf, an array `[leaf]` from `malloc` and two nodes of kind 7
built over that array, the release of the first node frees the array (tree.c, line 51).
In the state reached the caller holds the second node, which is live and points to the
freed array, so that its children cannot be read any more; and the release of the second
node, which the contract on nodes allows, is undefined whatever the fuel: it reads the
freed array. -/
theorem shared_array_leaves_dangling_children :
    Reachable 0 obeys shared_array_config ∧
    run 0 2 ⟨[], [], fun _ => 0⟩ shared_array_moves = some shared_array_config ∧
    1 ≤ shared_array_config.held 3 ∧
    deref shared_array_config.heap 3 = some ⟨1, 7, 1, 0, false, .children 1 1⟩ ∧
    array_block shared_array_config.arrays 1 = none ∧
    child_list shared_array_config.arrays ⟨1, 7, 1, 0, false, .children 1 1⟩ = none ∧
    obeys shared_array_config (.release 3) ∧
    ∀ fuel, exec 0 fuel shared_array_config (.release 3) = none := by
  refine ⟨shared_array_reachable, rfl, by simp [shared_array_config, give_up, acquire], rfl, rfl,
    rfl, by simp [obeys, shared_array_config, give_up, acquire], ?_⟩
  intro fuel
  have := release_freed_array_undefined 0 shared_array_config.heap shared_array_config.arrays 3
    ⟨1, 7, 1, 0, false, .children 1 1⟩ 0 1 rfl rfl (by decide) rfl rfl fuel
  simp only [exec, this]

/-- C1, amended: in every state reachable from the empty store by calls of
`ts_tree_make_leaf`, `ts_tree_make_node`, `ts_tree_make_error`, `ts_tree_retain` and
`ts_tree_release` in which the caller keeps to the contract on nodes and arrays (every
node passed is one on which it still holds an un-released reference, and every array
passed to `ts_tree_make_node` is `NULL` or a block from `malloc` that no node points to
already), every node on which the caller still holds an un-released reference is live,
every live node has `ref_count >= 1`, the array of every live node can be read and every
child it lists is live; moreover every further call that keeps to the contract
returns. -/
theorem reachable_no_dangling (ts_builtin_sym_error : ts_symbol) (c : Config)
    (hr : Reachable ts_builtin_sym_error owning c) :
    (∀ p, 1 ≤ c.held p → ∃ t, deref c.heap p = some t) ∧
    (∀ p t, deref c.heap p = some t →
      1 ≤ t.ref_count ∧
      (∀ n a, t.data = .children n a → ∃ cs, read_children c.arrays n a = some cs) ∧
      ∀ x ∈ listed c.arrays t, ∃ tx, deref c.heap x = some tx) ∧
    (∀ call, owning c call → ∃ fuel c1, exec ts_builtin_sym_error fuel c call = some c1) := by
  have hi := reachable_inv hr
  refine ⟨fun p hp => live_of_held hi.1 hp, ?_, fun call ho => exec_progress hi ho⟩
  intro p t hp
  refine ⟨?_, ?_, children_live_of_inv hi hp⟩
  · have h0 := (hi.1.count_ok p t hp).1
    have h1 := hi.2 p t hp
    omega
  · intro n a hd
    obtain ⟨cs, hcs, _⟩ := child_list_of_shape hi.1.shape hp hd
    exact ⟨cs, hcs⟩

theorem reachable_no_dangling_witness :
    Reachable 0 owning demo_config ∧
    ((∀ p, 1 ≤ demo_config.held p → ∃ t, deref demo_config.heap p = some t) ∧
    (∀ p t, deref demo_config.heap p = some t →
      1 ≤ t.ref_count ∧
      (∀ n a, t.data = .children n a → ∃ cs, read_children demo_config.arrays n a = some cs) ∧
      ∀ x ∈ listed demo_config.arrays t, ∃ tx, deref demo_config.heap x = some tx) ∧
    (∀ call, owning demo_config call → ∃ fuel c1, exec 0 fuel demo_config call = some c1)) :=
  ⟨demo_reachable, reachable_no_dangling 0 demo_config demo_reachable⟩

/-- C2: for every kind, size, offset and every array whose first `child_count` cells
hold a sequence of children each live with `ref_count >= 1`, `ts_tree_make_node` returns
a new node (at a fresh address) with `ref_count = 1` whose `data.children` is exactly the
given count and array, so that its children are the given sequence in the given order;
every existing node has its `ref_count` raised by the number of positions it occupies in
the sequence and is otherwise unchanged, so a node that is not a child does not change,
and no freed cell comes back.  The array itself is not written. -/
theorem make_node_retains_each_child (h : Heap) (ar : Arrays) (symbol : ts_symbol)
    (child_count children : Nat) (cs : List Nat) (size offset : Nat)
    (hcs : read_children ar child_count children = some cs)
    (hl : ∀ c ∈ cs, ∃ t, deref h c = some t ∧ 1 ≤ t.ref_count) :
    ∃ h1 p, ts_tree_make_node h ar symbol child_count children size offset = some (h1, p) ∧
      deref h p = none ∧
      deref h1 p = some ⟨1, symbol, size, offset, false, .children child_count children⟩ ∧
      child_list ar ⟨1, symbol, size, offset, false, .children child_count children⟩
        = some cs ∧
      (∀ q t, deref h q = some t →
        deref h1 q = some { t with ref_count := t.ref_count + cs.count q }) ∧
      (∀ q t, deref h q = some t → q ∉ cs → deref h1 q = some t) ∧
      (∀ q, q ≠ p → deref h q = none → deref h1 q = none) := by
  obtain ⟨h1, p, e1, e2, e3, e4, e5, e6⟩ := make_node_spec h ar symbol child_count children cs
    size offset hcs (fun c hc => (hl c hc).imp fun _ ht => ht.1)
  exact ⟨h1, p, e1, e2, e3, by rw [child_list_children rfl]; exact hcs, e4, e5, e6⟩

theorem make_node_retains_each_child_witness :
    read_children triple_arrays 3 1 = some [1, 2, 1] ∧
    (∀ c ∈ [1, 2, 1], ∃ t, deref two_leaves c = some t ∧ 1 ≤ t.ref_count) ∧
    ∃ h1 p, ts_tree_make_node two_leaves triple_arrays 7 3 1 3 0 = some (h1, p) ∧
      deref two_leaves p = none ∧
      deref h1 p = some ⟨1, 7, 3, 0, false, .children 3 1⟩ ∧
      child_list triple_arrays ⟨1, 7, 3, 0, false, .children 3 1⟩ = some [1, 2, 1] ∧
      (∀ q t, deref two_leaves q = some t →
        deref h1 q = some { t with ref_count := t.ref_count + [1, 2, 1].count q }) ∧
      (∀ q t, deref two_leaves q = some t → q ∉ [1, 2, 1] → deref h1 q = some t) ∧
      (∀ q, q ≠ p → deref two_leaves q = none → deref h1 q = none) :=
  have hl : ∀ c ∈ [1, 2, 1], ∃ t, deref two_leaves c = some t ∧ 1 ≤ t.ref_count := by
    intro c hc
    simp only [List.mem_cons, List.mem_singleton, List.not_mem_nil, or_false] at hc
    rcases hc with rfl | rfl | rfl <;> exact ⟨_, rfl, by decide⟩
  ⟨rfl, hl, make_node_retains_each_child two_leaves triple_arrays 7 3 1 [1, 2, 1] 3 0 rfl hl⟩

/-- C4: for every live node `N` with `ref_count >= 1`, `ts_tree_retain(N)` followed
immediately by `ts_tree_release(N)` returns and leaves the whole store, nodes and arrays,
as it was. -/
theorem retain_release_balance (ts_builtin_sym_error : ts_symbol) (h : Heap) (ar : Arrays)
    (N : Nat) (t : ts_tree) (hN : deref h N = some t) (hrc : 1 ≤ t.ref_count) (fuel : Nat) :
    ∃ h1, ts_tree_retain h N = some h1 ∧
      ts_tree_release ts_builtin_sym_error (fuel + 1) h1 ar N = some (h, ar) := by
  have hb := deref_some_bounds hN
  refine ⟨write h N (some { t with ref_count := t.ref_count + 1 }), by simp [ts_tree_retain, hN],
    ?_⟩
  rw [ts_tree_release]
  simp only [deref_write_same _ hb]
  have hz : ¬ (t.ref_count + 1 - 1 = 0) := by omega
  rw [if_neg hz, write_write]
  have : ({ t with ref_count := t.ref_count + 1 - 1 } : ts_tree) = t := by
    cases t
    simp
  rw [this, write_same_eq hN]

theorem retain_release_balance_witness :
    deref demo_heap 3 = some ⟨1, 7, 2, 0, false, .children 2 1⟩ ∧
    ∃ h1, ts_tree_retain demo_heap 3 = some h1 ∧
      ts_tree_release 0 (0 + 1) h1 demo_arrays 3 = some (demo_heap, demo_arrays) :=
  ⟨rfl, retain_release_balance 0 demo_heap demo_arrays 3 ⟨1, 7, 2, 0, false, .children 2 1⟩ rfl
    (by decide) 0⟩

/-- C5: for every kind `K`, size `S` and offset `O`, `ts_tree_make_leaf(K, S, O)` returns
a node at a fresh address with `symbol = K`, `size = S`, `offset = O`, `ref_count = 1`,
`is_hidden` false and no children (`data.children` has count 0 and contents `NULL`, no
child storage; `ts_tree_children` reports `NULL` and count 0, and the list of its children
is empty whatever the arrays), and every other cell of the store is unchanged. -/
theorem make_leaf_fresh_leaf (ts_builtin_sym_error : ts_symbol) (h : Heap) (K : ts_symbol)
    (S O : Nat) :
    deref h (ts_tree_make_leaf h K S O).2 = none ∧
    deref (ts_tree_make_leaf h K S O).1 (ts_tree_make_leaf h K S O).2
      = some ⟨1, K, S, O, false, .children 0 0⟩ ∧
    ts_tree_children ts_builtin_sym_error (ts_tree_make_leaf h K S O).1
      (ts_tree_make_leaf h K S O).2 = some (0, 0) ∧
    (∀ ar, child_list ar ⟨1, K, S, O, false, .children 0 0⟩ = some []) ∧
    ∀ q, q ≠ (ts_tree_make_leaf h K S O).2 →
      deref (ts_tree_make_leaf h K S O).1 q = deref h q := by
  have hm := make_set_data h K S O (.children 0 0)
  have h2 : (ts_tree_make_leaf h K S O).2 = h.length + 1 := rfl
  have h1 : (ts_tree_make_leaf h K S O).1
      = set_data (ts_tree_make h K S O).1 (ts_tree_make h K S O).2 (.children 0 0) := rfl
  rw [h2, h1]
  have hnew : deref (set_data (ts_tree_make h K S O).1 (ts_tree_make h K S O).2 (.children 0 0))
      (h.length + 1) = some ⟨1, K, S, O, false, .children 0 0⟩ := by
    rw [hm]; simp
  refine ⟨deref_beyond (by omega), hnew, ?_, fun ar => rfl, ?_⟩
  · simp only [ts_tree_children, hnew]
    split <;> rfl
  · intro q hq
    rw [hm q, if_neg hq]

/-- C6: for every lookahead character, expected-input list, size and offset,
`ts_tree_make_error` returns a node at a fresh address whose symbol is the reserved error
symbol, with `ref_count = 1`, carrying the given lookahead character and expected-input
list; `ts_tree_children` reports no children for it (`NULL` and count 0), and every other
cell of the store (so the `ref_count` of every existing node) is unchanged. -/
theorem make_error_fresh_error (ts_builtin_sym_error : ts_symbol) (h : Heap)
    (lookahead_char : Nat) (expected_inputs : List ts_symbol) (size offset : Nat) :
    deref h (ts_tree_make_error ts_builtin_sym_error h lookahead_char expected_inputs
      size offset).2 = none ∧
    deref (ts_tree_make_error ts_builtin_sym_error h lookahead_char expected_inputs
        size offset).1
      (ts_tree_make_error ts_builtin_sym_error h lookahead_char expected_inputs size offset).2
      = some ⟨1, ts_builtin_sym_error, size, offset, false,
          .error lookahead_char expected_inputs⟩ ∧
    ts_tree_children ts_builtin_sym_error
      (ts_tree_make_error ts_builtin_sym_error h lookahead_char expected_inputs size offset).1
      (ts_tree_make_error ts_builtin_sym_error h lookahead_char expected_inputs size offset).2
      = some (0, 0) ∧
    ∀ q, q ≠ (ts_tree_make_error ts_builtin_sym_error h lookahead_char expected_inputs
        size offset).2 →
      deref (ts_tree_make_error ts_builtin_sym_error h lookahead_char expected_inputs
        size offset).1 q = deref h q := by
  have hm := make_set_data h ts_builtin_sym_error size offset
    (.error lookahead_char expected_inputs)
  have h2 : (ts_tree_make_error ts_builtin_sym_error h lookahead_char expected_inputs
      size offset).2 = h.length + 1 := rfl
  have h1 : (ts_tree_make_error ts_builtin_sym_error h lookahead_char expected_inputs
      size offset).1
      = set_data (ts_tree_make h ts_builtin_sym_error size offset).1
          (ts_tree_make h ts_builtin_sym_error size offset).2
          (.error lookahead_char expected_inputs) := rfl
  rw [h2, h1]
  have hnew : deref (set_data (ts_tree_make h ts_builtin_sym_error size offset).1
      (ts_tree_make h ts_builtin_sym_error size offset).2
      (.error lookahead_char expected_inputs)) (h.length + 1)
      = some ⟨1, ts_builtin_sym_error, size, offset, false,
          .error lookahead_char expected_inputs⟩ := by
    rw [hm]; simp
  refine ⟨deref_beyond (by omega), hnew, ?_, ?_⟩
  · simp [ts_tree_children, hnew]
  · intro q hq
    rw [hm q, if_neg hq]

/-- C10: for all live nodes `a` and `b` whose symbol is the reserved error symbol,
`ts_tree_equals(a, b)` is true whatever their other members (lookahead character,
expected-input list, size, offset); and a node of the error kind and a node of any other
kind are unequal, in either order. -/
theorem equals_error_kind (ts_builtin_sym_error : ts_symbol) (h : Heap) (ar : Arrays)
    (a b : Nat) (ta tb : ts_tree) (ha : deref h a = some ta) (hb : deref h b = some tb)
    (hsa : ta.symbol = ts_builtin_sym_error) (fuel : Nat) :
    (tb.symbol = ts_builtin_sym_error →
      ts_tree_equals ts_builtin_sym_error (fuel + 1) h ar a b = some true) ∧
    (tb.symbol ≠ ts_builtin_sym_error →
      ts_tree_equals ts_builtin_sym_error (fuel + 1) h ar a b = some false ∧
      ts_tree_equals ts_builtin_sym_error (fuel + 1) h ar b a = some false) := by
  refine ⟨?_, ?_⟩
  · intro hsb
    rw [ts_tree_equals]
    simp [ha, hb, hsa, hsb]
  · intro hsb
    have h1 : ta.symbol ≠ tb.symbol := by rw [hsa]; exact fun e => hsb e.symm
    have h2 : tb.symbol ≠ ta.symbol := fun e => h1 e.symm
    constructor
    · rw [ts_tree_equals]
      simp only [ha, hb, if_pos h1]
    · rw [ts_tree_equals]
      simp only [ha, hb, if_pos h2]

theorem equals_error_kind_witness :
    deref error_heap 1 = some ⟨1, 0, 1, 0, false, .error 97 [5]⟩ ∧
    deref error_heap 2 = some ⟨1, 0, 2, 7, false, .error 98 [6, 7]⟩ ∧
    deref error_heap 3 = some ⟨1, 5, 1, 0, false, .children 0 0⟩ ∧
    ts_tree_equals 0 (0 + 1) error_heap [] 1 2 = some true ∧
    ts_tree_equals 0 (0 + 1) error_heap [] 1 3 = some false ∧
    ts_tree_equals 0 (0 + 1) error_heap [] 3 1 = some false :=
  ⟨rfl, rfl, rfl,
    (equals_error_kind 0 error_heap [] 1 2 ⟨1, 0, 1, 0, false, .error 97 [5]⟩
      ⟨1, 0, 2, 7, false, .error 98 [6, 7]⟩ rfl rfl rfl 0).1 rfl,
    (equals_error_kind 0 error_heap [] 1 3 ⟨1, 0, 1, 0, false, .error 97 [5]⟩
      ⟨1, 5, 1, 0, false, .children 0 0⟩ rfl rfl rfl 0).2 (by decide)⟩

/-- C8: `ts_tree_equals` ignores `size`, `offset` and `is_hidden`: overwriting these
members of any node of the store changes the result of no comparison; and two trees
with the same kinds and the same child structure in the same order are equal whatever
their sizes, offsets and hidden flags. -/
theorem equals_ignores_size_offset_hidden (ts_builtin_sym_error : ts_symbol) (h : Heap)
    (ar : Arrays) :
    (∀ (fuel p a b : Nat) (t : ts_tree) (size offset : Nat) (is_hidden : Bool),
      deref h p = some t →
      ts_tree_equals ts_builtin_sym_error fuel
          (write h p (some { t with size := size, offset := offset, is_hidden := is_hidden }))
          ar a b
        = ts_tree_equals ts_builtin_sym_error fuel h ar a b) ∧
    (∀ a b, same_structure ts_builtin_sym_error h ar a b →
      ∃ f0, ∀ f, f0 ≤ f → ts_tree_equals ts_builtin_sym_error f h ar a b = some true) := by
  refine ⟨?_, fun a b hs => equals_of_same_structure hs⟩
  intro fuel p a b t size offset is_hidden hp
  obtain ⟨h1, h2⟩ := shape_le_write
    { t with size := size, offset := offset, is_hidden := is_hidden } hp rfl rfl
  exact equals_shape_eq ts_builtin_sym_error ar h1 h2 fuel a b

theorem equals_ignores_size_offset_hidden_witness :
    deref twin_heap 4 = some ⟨1, 7, 3, 9, true, .children 1 2⟩ ∧
    ts_tree_equals 0 2 (write twin_heap 4 (some ⟨1, 7, 100, 200, false, .children 1 2⟩))
        twin_arrays 3 4
      = ts_tree_equals 0 2 twin_heap twin_arrays 3 4 ∧
    same_structure 0 twin_heap twin_arrays 3 4 ∧
    ∃ f0, ∀ f, f0 ≤ f → ts_tree_equals 0 f twin_heap twin_arrays 3 4 = some true :=
  have leaves : same_structure 0 twin_heap twin_arrays 1 2 :=
    @same_structure.node 0 twin_heap twin_arrays 1 2 ⟨1, 5, 1, 0, false, .children 0 0⟩
      ⟨1, 5, 3, 9, true, .children 0 0⟩ [] []
      rfl rfl rfl (by decide) rfl rfl rfl (fun i x y hx _ => by simp at hx)
  have hs : same_structure 0 twin_heap twin_arrays 3 4 :=
    @same_structure.node 0 twin_heap twin_arrays 3 4 ⟨1, 7, 1, 0, false, .children 1 1⟩
      ⟨1, 7, 3, 9, true, .children 1 2⟩ [1] [2]
      rfl rfl rfl (by decide) rfl rfl rfl (fun i x y hx hy => by
        cases i with
        | zero =>
          simp only [List.getElem?_cons_zero, Option.some.injEq] at hx hy
          subst hx; subst hy
          exact leaves
        | succ j => simp at hx)
  ⟨rfl,
    (equals_ignores_size_offset_hidden 0 twin_heap twin_arrays).1 2 4 3 4
      ⟨1, 7, 3, 9, true, .children 1 2⟩ 100 200 false rfl,
    hs, (equals_ignores_size_offset_hidden 0 twin_heap twin_arrays).2 3 4 hs⟩

/-- C9, as stated, fails when `K` is the reserved error symbol (here 0): the leaves at
addresses 1 and 2 are unequal, yet the nodes of kind 0 built over the array `[1, 2]` and
over the array `[2, 1]` compare equal. -/
theorem equals_order_blind_for_error_kind :
    ts_tree_equals 0 1 two_leaves order_arrays 1 2 = some false ∧
    ts_tree_make_node two_leaves order_arrays 0 2 1 2 0
      = some ([some ⟨2, 5, 1, 0, false, .children 0 0⟩, some ⟨2, 6, 1, 1, false, .children 0 0⟩,
               some ⟨1, 0, 2, 0, false, .children 2 1⟩], 3) ∧
    ts_tree_make_node
        [some ⟨2, 5, 1, 0, false, .children 0 0⟩, some ⟨2, 6, 1, 1, false, .children 0 0⟩,
         some ⟨1, 0, 2, 0, false, .children 2 1⟩] order_arrays 0 2 2 2 0
      = some ([some ⟨3, 5, 1, 0, false, .children 0 0⟩, some ⟨3, 6, 1, 1, false, .children 0 0⟩,
               some ⟨1, 0, 2, 0, false, .children 2 1⟩,
               some ⟨1, 0, 2, 0, false, .children 2 2⟩], 4) ∧
    ts_tree_equals 0 2
        [some ⟨3, 5, 1, 0, false, .children 0 0⟩, some ⟨3, 6, 1, 1, false, .children 0 0⟩,
         some ⟨1, 0, 2, 0, false, .children 2 1⟩,
         some ⟨1, 0, 2, 0, false, .children 2 2⟩] order_arrays 3 4 = some true := by
  refine ⟨?_, ?_, ?_, ?_⟩ <;> rfl

/-- C9, amended: `ts_tree_equals` is order-sensitive for every kind `K` other than the
reserved error symbol: for all nodes `A` and `B` with `ts_tree_equals(A, B)` false,
`ts_tree_equals(ts_tree_make_node(K, [A, B]), ts_tree_make_node(K, [B, A]))` is false,
the two sequences being held in arrays. -/
theorem equals_order_sensitive (ts_builtin_sym_error K : ts_symbol)
    (hK : K ≠ ts_builtin_sym_error) (h : Heap) (ar : Arrays) (A B fuel : Nat)
    (hAB : ts_tree_equals ts_builtin_sym_error fuel h ar A B = some false)
    (children1 children2 : Nat)
    (hc1 : read_children ar 2 children1 = some [A, B])
    (hc2 : read_children ar 2 children2 = some [B, A])
    (size1 offset1 size2 offset2 : Nat) :
    ∃ h1 P h2 Q, ts_tree_make_node h ar K 2 children1 size1 offset1 = some (h1, P) ∧
      ts_tree_make_node h1 ar K 2 children2 size2 offset2 = some (h2, Q) ∧
      ts_tree_equals ts_builtin_sym_error (fuel + 1) h2 ar P Q = some false := by
  obtain ⟨⟨ta, ha⟩, ⟨tb, hb⟩⟩ := equals_some_live hAB
  have hl : ∀ c ∈ [A, B], ∃ t, deref h c = some t := by
    intro c hc
    simp only [List.mem_cons, List.mem_singleton, List.not_mem_nil, or_false] at hc
    rcases hc with rfl | rfl
    · exact ⟨ta, ha⟩
    · exact ⟨tb, hb⟩
  obtain ⟨h1, P, hmk1, _, hP1, hold1, _, _⟩ := make_node_spec h ar K 2 children1 [A, B]
    size1 offset1 hc1 hl
  have hl1 : ∀ c ∈ [B, A], ∃ t, deref h1 c = some t := by
    intro c hc
    simp only [List.mem_cons, List.mem_singleton, List.not_mem_nil, or_false] at hc
    rcases hc with rfl | rfl
    · exact ⟨_, hold1 _ tb hb⟩
    · exact ⟨_, hold1 _ ta ha⟩
  obtain ⟨h2, Q, hmk2, _, hQ2, hold2, _, _⟩ := make_node_spec h1 ar K 2 children2 [B, A]
    size2 offset2 hc2 hl1
  have hP2 := hold2 P _ hP1
  have hs : shape_le h h2 := by
    intro q t hq
    exact ⟨_, hold2 q _ (hold1 q t hq), rfl, rfl⟩
  have hAB2 := equals_shape_le ts_builtin_sym_error ar hs fuel A B false hAB
  have g1 : array_get ar children1 0 = some A := by
    rw [read_children_get hc1 0 (by omega)]; rfl
  have g2 : array_get ar children2 0 = some B := by
    rw [read_children_get hc2 0 (by omega)]; rfl
  refine ⟨h1, P, h2, Q, hmk1, hmk2, ?_⟩
  rw [ts_tree_equals]
  simp only [hP2, hQ2, ne_eq, not_true_eq_false, if_false, if_neg hK, equals_loop, g1, g2,
    hAB2]

theorem equals_order_sensitive_witness :
    (7 : ts_symbol) ≠ 0 ∧ ts_tree_equals 0 1 two_leaves order_arrays 1 2 = some false ∧
    read_children order_arrays 2 1 = some [1, 2] ∧
    read_children order_arrays 2 2 = some [2, 1] ∧
    ∃ h1 P h2 Q, ts_tree_make_node two_leaves order_arrays 7 2 1 2 0 = some (h1, P) ∧
      ts_tree_make_node h1 order_arrays 7 2 2 2 0 = some (h2, Q) ∧
      ts_tree_equals 0 (1 + 1) h2 order_arrays P Q = some false :=
  ⟨by decide, rfl, rfl, rfl,
    equals_order_sensitive 0 7 (by decide) two_leaves order_arrays 1 2 1 rfl 1 2 rfl rfl
      2 0 2 0⟩

/-- C3, as stated, fails in two ways.  When `K` is the reserved error symbol (here 0):
after building `P` of kind 0 over the leaves 1 and 2, one `ts_tree_release(P)` frees `P`
but leaves both leaves at `ref_count = 2` (and the array in place).  And when the array
`[C1, C2]` is not a block from `malloc`: `P` of kind 7 is built as stated, but
`ts_tree_release(P)` passes the array to `free` (tree.c, line 51), which is undefined,
whatever the fuel. -/
theorem release_error_kind_or_foreign_array :
    ts_tree_make_node two_leaves demo_arrays 0 2 1 2 0
      = some ([some ⟨2, 5, 1, 0, false, .children 0 0⟩, some ⟨2, 6, 1, 1, false, .children 0 0⟩,
               some ⟨1, 0, 2, 0, false, .children 2 1⟩], 3) ∧
    ts_tree_release 0 2
        [some ⟨2, 5, 1, 0, false, .children 0 0⟩, some ⟨2, 6, 1, 1, false, .children 0 0⟩,
         some ⟨1, 0, 2, 0, false, .children 2 1⟩] demo_arrays 3
      = some ([some ⟨2, 5, 1, 0, false, .children 0 0⟩,
               some ⟨2, 6, 1, 1, false, .children 0 0⟩, none], demo_arrays) ∧
    ts_tree_make_node two_leaves [some ⟨[1, 2], false⟩] 7 2 1 2 0
      = some ([some ⟨2, 5, 1, 0, false, .children 0 0⟩, some ⟨2, 6, 1, 1, false, .children 0 0⟩,
               some ⟨1, 7, 2, 0, false, .children 2 1⟩], 3) ∧
    ∀ fuel, ts_tree_release 0 fuel
        [some ⟨2, 5, 1, 0, false, .children 0 0⟩, some ⟨2, 6, 1, 1, false, .children 0 0⟩,
         some ⟨1, 7, 2, 0, false, .children 2 1⟩] [some ⟨[1, 2], false⟩] 3 = none := by
  refine ⟨rfl, rfl, rfl, ?_⟩
  intro fuel
  match fuel with
  | 0 => rfl
  | 1 => rfl
  | g + 2 =>
    have r1 := release_shared 0 (h := [some ⟨2, 5, 1, 0, false, .children 0 0⟩,
      some ⟨2, 6, 1, 1, false, .children 0 0⟩, some ⟨1 - 1, 7, 2, 0, false, .children 2 1⟩])
      [some ⟨[1, 2], false⟩] (p := 1) (t := ⟨2, 5, 1, 0, false, .children 0 0⟩) g rfl
      (by decide)
    have r2 := release_shared 0 (h := [some ⟨2 - 1, 5, 1, 0, false, .children 0 0⟩,
      some ⟨2, 6, 1, 1, false, .children 0 0⟩, some ⟨1 - 1, 7, 2, 0, false, .children 2 1⟩])
      [some ⟨[1, 2], false⟩] (p := 2) (t := ⟨2, 6, 1, 1, false, .children 0 0⟩) g rfl
      (by decide)
    rw [ts_tree_release]
    have hd : deref [some ⟨2, 5, 1, 0, false, .children 0 0⟩,
        some ⟨2, 6, 1, 1, false, .children 0 0⟩, some ⟨1, 7, 2, 0, false, .children 2 1⟩] 3
        = some ⟨1, 7, 2, 0, false, .children 2 1⟩ := rfl
    simp only [hd]
    rw [if_pos (by decide)]
    have hc : ts_tree_children 0 (write [some ⟨2, 5, 1, 0, false, .children 0 0⟩,
        some ⟨2, 6, 1, 1, false, .children 0 0⟩, some ⟨1, 7, 2, 0, false, .children 2 1⟩] 3
        (some ⟨1 - 1, 7, 2, 0, false, .children 2 1⟩)) 3 = some (1, 2) := rfl
    simp only [hc]
    have hw : write [some ⟨2, 5, 1, 0, false, .children 0 0⟩,
        some ⟨2, 6, 1, 1, false, .children 0 0⟩, some ⟨1, 7, 2, 0, false, .children 2 1⟩] 3
        (some ⟨1 - 1, 7, 2, 0, false, .children 2 1⟩)
        = [some ⟨2, 5, 1, 0, false, .children 0 0⟩,
          some ⟨2, 6, 1, 1, false, .children 0 0⟩,
          some ⟨1 - 1, 7, 2, 0, false, .children 2 1⟩] := rfl
    rw [hw]
    have g1 : array_get [some (⟨[1, 2], false⟩ : child_array)] 1 0 = some 1 := rfl
    have g2 : array_get [some (⟨[1, 2], false⟩ : child_array)] 1 1 = some 2 := rfl
    have hw1 : write [some ⟨2, 5, 1, 0, false, .children 0 0⟩,
        some ⟨2, 6, 1, 1, false, .children 0 0⟩, some ⟨1 - 1, 7, 2, 0, false, .children 2 1⟩] 1
        (some ⟨2 - 1, 5, 1, 0, false, .children 0 0⟩)
        = [some ⟨2 - 1, 5, 1, 0, false, .children 0 0⟩,
          some ⟨2, 6, 1, 1, false, .children 0 0⟩,
          some ⟨1 - 1, 7, 2, 0, false, .children 2 1⟩] := rfl
    rw [hw1] at r1
    simp only [for_each, g1, g2, r1, r2]
    rfl

/-- C3, amended: for every kind `K` other than the reserved error symbol and every two
distinct live nodes `C1` and `C2` that each have `ref_count = 1`, held in an array
`[C1, C2]` from `malloc`, building `P = ts_tree_make_node(K, [C1, C2])` leaves `C1` and
`C2` at `ref_count = 2`, and one subsequent `ts_tree_release(P)` returns, deallocates `P`
and its array and brings `C1` and `C2` back to `ref_count = 1` each (they stay live,
unchanged otherwise); no other array changes. -/
theorem make_node_then_release (ts_builtin_sym_error K : ts_symbol)
    (hK : K ≠ ts_builtin_sym_error) (h : Heap) (ar : Arrays) (C1 C2 children : Nat)
    (t1 t2 : ts_tree) (size offset : Nat) (hne : C1 ≠ C2)
    (h1 : deref h C1 = some t1) (h2 : deref h C2 = some t2)
    (r1 : t1.ref_count = 1) (r2 : t2.ref_count = 1)
    (hblock : array_block ar children = some ⟨[C1, C2], true⟩) (fuel : Nat) :
    ∃ hA P hB arB, ts_tree_make_node h ar K 2 children size offset = some (hA, P) ∧
      deref hA P = some ⟨1, K, size, offset, false, .children 2 children⟩ ∧
      deref hA C1 = some { t1 with ref_count := 2 } ∧
      deref hA C2 = some { t2 with ref_count := 2 } ∧
      ts_tree_release ts_builtin_sym_error (fuel + 2) hA ar P = some (hB, arB) ∧
      deref hB P = none ∧ deref hB C1 = some t1 ∧ deref hB C2 = some t2 ∧
      array_block arB children = none ∧
      ∀ a, a ≠ children → array_block arB a = array_block ar a := by
  have hcs : read_children ar 2 children = some [C1, C2] :=
    read_children_of_block hblock (le_refl 2)
  have hl : ∀ c ∈ [C1, C2], ∃ t, deref h c = some t := by
    intro c hc
    simp only [List.mem_cons, List.mem_singleton, List.not_mem_nil, or_false] at hc
    rcases hc with rfl | rfl
    · exact ⟨t1, h1⟩
    · exact ⟨t2, h2⟩
  obtain ⟨hA, P, hmk, hfresh, hP, hold, _, _⟩ := make_node_spec h ar K 2 children [C1, C2]
    size offset hcs hl
  have hne2 : C2 ≠ C1 := fun e => hne e.symm
  have hPC1 : C1 ≠ P := by
    intro e; rw [e, hfresh] at h1; simp at h1
  have hPC2 : C2 ≠ P := by
    intro e; rw [e, hfresh] at h2; simp at h2
  have hA1 : deref hA C1 = some { t1 with ref_count := 2 } := by
    rw [hold C1 t1 h1]
    simp [List.count_cons, hne2, r1]
  have hA2 : deref hA C2 = some { t2 with ref_count := 2 } := by
    rw [hold C2 t2 h2]
    simp [List.count_cons, hne, r2]
  have hbP := deref_some_bounds hP
  have hb1 := deref_some_bounds hA1
  have hb2 := deref_some_bounds hA2
  -- the count of `P` drops to zero
  have hW : ∀ q, deref (write hA P (some ⟨1 - 1, K, size, offset, false,
        .children 2 children⟩)) q
      = if q = P then some ⟨1 - 1, K, size, offset, false, .children 2 children⟩
        else deref hA q := fun q => deref_write hA P q _ hbP
  have hch : ts_tree_children ts_builtin_sym_error
      (write hA P (some ⟨1 - 1, K, size, offset, false, .children 2 children⟩)) P
      = some (children, 2) := by
    simp only [ts_tree_children, hW P, if_true, if_neg hK]
  -- the first child keeps a reference
  have hW1 : deref (write hA P (some ⟨1 - 1, K, size, offset, false, .children 2 children⟩)) C1
      = some { t1 with ref_count := 2 } := by rw [hW C1, if_neg hPC1, hA1]
  have hrel1 := release_shared ts_builtin_sym_error ar fuel hW1 (by simp)
  have hbW1 := deref_some_bounds hW1
  have hX : ∀ q, deref (write (write hA P (some ⟨1 - 1, K, size, offset, false,
        .children 2 children⟩)) C1 (some { t1 with ref_count := 2 - 1 })) q
      = if q = C1 then some { t1 with ref_count := 2 - 1 }
        else deref (write hA P (some ⟨1 - 1, K, size, offset, false,
          .children 2 children⟩)) q :=
    fun q => deref_write _ C1 q _ hbW1
  -- so does the second
  have hX2 : deref (write (write hA P (some ⟨1 - 1, K, size, offset, false,
        .children 2 children⟩)) C1 (some { t1 with ref_count := 2 - 1 })) C2
      = some { t2 with ref_count := 2 } := by
    rw [hX C2, if_neg hne2, hW C2, if_neg hPC2, hA2]
  have hrel2 := release_shared ts_builtin_sym_error ar fuel hX2 (by simp)
  have hbX2 := deref_some_bounds hX2
  have hY : ∀ q, deref (write (write (write hA P (some ⟨1 - 1, K, size, offset, false,
        .children 2 children⟩)) C1 (some { t1 with ref_count := 2 - 1 })) C2
        (some { t2 with ref_count := 2 - 1 })) q
      = if q = C2 then some { t2 with ref_count := 2 - 1 }
        else deref (write (write hA P (some ⟨1 - 1, K, size, offset, false,
          .children 2 children⟩)) C1 (some { t1 with ref_count := 2 - 1 })) q :=
    fun q => deref_write _ C2 q _ hbX2
  have g1 : array_get ar children 0 = some C1 := by simp [array_get, hblock]
  have g2 : array_get ar children 1 = some C2 := by simp [array_get, hblock]
  have hloop : for_each (fun (s : Heap × Arrays) i => array_get s.2 children i)
      (fun s child => ts_tree_release ts_builtin_sym_error (fuel + 1) s.1 s.2 child) 0 2
      (write hA P (some ⟨1 - 1, K, size, offset, false, .children 2 children⟩), ar)
      = some (write (write (write hA P (some ⟨1 - 1, K, size, offset, false,
        .children 2 children⟩)) C1 (some { t1 with ref_count := 2 - 1 })) C2
        (some { t2 with ref_count := 2 - 1 }), ar) := by
    simp only [for_each, g1, g2, hrel1, hrel2]
  obtain ⟨arB, hfree⟩ := free_array_some hblock rfl
  have hYP : deref (write (write (write hA P (some ⟨1 - 1, K, size, offset, false,
        .children 2 children⟩)) C1 (some { t1 with ref_count := 2 - 1 })) C2
        (some { t2 with ref_count := 2 - 1 })) P
      = some ⟨1 - 1, K, size, offset, false, .children 2 children⟩ := by
    rw [hY P, if_neg (fun e => hPC2 e.symm), hX P, if_neg (fun e => hPC1 e.symm), hW P,
      if_pos rfl]
  have hrel := release_last ts_builtin_sym_error (fuel + 1) hP (by simp) hch hloop hfree hYP
  have hbY : 1 ≤ P ∧ P ≤ (write (write (write hA P (some ⟨1 - 1, K, size, offset, false,
        .children 2 children⟩)) C1 (some { t1 with ref_count := 2 - 1 })) C2
        (some { t2 with ref_count := 2 - 1 })).length := by
    simp only [write_length]; exact hbP
  have e1 : ({ t1 with ref_count := 2 - 1 } : ts_tree) = t1 := by
    cases t1; simp at r1; simp [r1]
  have e2 : ({ t2 with ref_count := 2 - 1 } : ts_tree) = t2 := by
    cases t2; simp at r2; simp [r2]
  have hblk := array_block_free_array hfree
  refine ⟨hA, P, _, arB, hmk, hP, hA1, hA2, hrel, ?_, ?_, ?_, ?_, ?_⟩
  · exact deref_write_same none hbY
  · rw [deref_write _ P C1 none hbY, if_neg hPC1, hY C1, if_neg hne, hX C1, if_pos rfl, e1]
  · rw [deref_write _ P C2 none hbY, if_neg hPC2, hY C2, if_pos rfl, e2]
  · rw [hblk children, if_pos rfl]
  · intro a ha
    rw [hblk a, if_neg ha]

theorem make_node_then_release_witness :
    (7 : ts_symbol) ≠ 0 ∧ (1 : Nat) ≠ 2 ∧
    deref two_leaves 1 = some ⟨1, 5, 1, 0, false, .children 0 0⟩ ∧
    deref two_leaves 2 = some ⟨1, 6, 1, 1, false, .children 0 0⟩ ∧
    array_block demo_arrays 1 = some ⟨[1, 2], true⟩ ∧
    ∃ hA P hB arB, ts_tree_make_node two_leaves demo_arrays 7 2 1 2 0 = some (hA, P) ∧
      deref hA P = some ⟨1, 7, 2, 0, false, .children 2 1⟩ ∧
      deref hA 1 = some ⟨2, 5, 1, 0, false, .children 0 0⟩ ∧
      deref hA 2 = some ⟨2, 6, 1, 1, false, .children 0 0⟩ ∧
      ts_tree_release 0 (0 + 2) hA demo_arrays P = some (hB, arB) ∧
      deref hB P = none ∧ deref hB 1 = some ⟨1, 5, 1, 0, false, .children 0 0⟩ ∧
      deref hB 2 = some ⟨1, 6, 1, 1, false, .children 0 0⟩ ∧
      array_block arB 1 = none ∧
      ∀ a, a ≠ 1 → array_block arB a = array_block demo_arrays a :=
  ⟨by decide, by decide, rfl, rfl, rfl,
    make_node_then_release 0 7 (by decide) two_leaves demo_arrays 1 2 1
      ⟨1, 5, 1, 0, false, .children 0 0⟩ ⟨1, 6, 1, 1, false, .children 0 0⟩ 2 0 (by decide)
      rfl rfl rfl rfl rfl 0⟩

/-! ## The claims on the serializer, teardown and equality -/

theorem demo_fully_visible : fully_visible 0 demo_heap demo_arrays 3 := by
  have l1 : fully_visible 0 demo_heap demo_arrays 1 :=
    @fully_visible.node 0 demo_heap demo_arrays 1 ⟨1, 5, 1, 0, false, .children 0 0⟩ [] rfl rfl
      (by decide) rfl (fun c hc => by simp at hc)
  have l2 : fully_visible 0 demo_heap demo_arrays 2 :=
    @fully_visible.node 0 demo_heap demo_arrays 2 ⟨1, 6, 1, 1, false, .children 0 0⟩ [] rfl rfl
      (by decide) rfl (fun c hc => by simp at hc)
  exact @fully_visible.node 0 demo_heap demo_arrays 3 ⟨1, 7, 2, 0, false, .children 2 1⟩ [1, 2]
    rfl rfl (by decide) rfl (fun c hc => by
      simp only [List.mem_cons, List.mem_singleton, List.not_mem_nil, or_false] at hc
      rcases hc with rfl | rfl
      · exact l1
      · exact l2)

theorem pair_fully_visible :
    fully_visible 0 pair_heap twin_arrays 3 ∧ fully_visible 0 pair_heap twin_arrays 4 := by
  have l1 : fully_visible 0 pair_heap twin_arrays 1 :=
    @fully_visible.node 0 pair_heap twin_arrays 1 ⟨1, 5, 1, 0, false, .children 0 0⟩ [] rfl rfl
      (by decide) rfl (fun c hc => by simp at hc)
  have l2 : fully_visible 0 pair_heap twin_arrays 2 :=
    @fully_visible.node 0 pair_heap twin_arrays 2 ⟨1, 5, 3, 9, false, .children 0 0⟩ [] rfl rfl
      (by decide) rfl (fun c hc => by simp at hc)
  constructor
  · exact @fully_visible.node 0 pair_heap twin_arrays 3 ⟨1, 7, 1, 0, false, .children 1 1⟩ [1]
      rfl rfl (by decide) rfl (fun c hc => by
        simp only [List.mem_singleton] at hc
        subst hc
        exact l1)
  · exact @fully_visible.node 0 pair_heap twin_arrays 4 ⟨1, 7, 3, 9, false, .children 1 2⟩ [2]
      rfl rfl (by decide) rfl (fun c hc => by
        simp only [List.mem_singleton] at hc
        subst hc
        exact l2)

theorem demo_sole_owner : sole_owner 0 demo_heap demo_arrays 3 := by
  intro x t _ hd
  have hb := deref_some_bounds hd
  have h3 : x ≤ 3 := hb.2
  have h1 := hb.1
  interval_cases x
  · simp only [demo_heap, deref, List.getElem?_cons_zero, Option.some.injEq] at hd
    subst hd
    exact ⟨rfl, by decide⟩
  · simp only [demo_heap, deref, List.getElem?_cons_succ, List.getElem?_cons_zero,
      Option.some.injEq] at hd
    subst hd
    exact ⟨rfl, by decide⟩
  · simp only [demo_heap, deref, List.getElem?_cons_succ, List.getElem?_cons_zero,
      Option.some.injEq] at hd
    subst hd
    exact ⟨rfl, by decide⟩

/-- C11: for every symbol-name table and every tree in which no node is hidden and no
child is absent, `ts_tree_string` returns `render(root)` (its characters and the
terminator, in a buffer of exactly that size), `render` being the rendering of the
specification; this holds for every fuel from some bound on. -/
theorem string_of_visible_tree (ts_builtin_sym_error : ts_symbol)
    (symbol_names : ts_symbol → String) (h : Heap) (ar : Arrays) (root : Nat)
    (hv : fully_visible ts_builtin_sym_error h ar root) :
    ∃ F, ∀ f, F ≤ f → ∃ s, render ts_builtin_sym_error symbol_names f h ar root = some s ∧
      ts_tree_string ts_builtin_sym_error symbol_names f h ar root = some (c_string s) := by
  obtain ⟨F, hF⟩ := text_of_fully_visible symbol_names hv
  refine ⟨F, ?_⟩
  intro f hf
  obtain ⟨s, hs1, hs2, hs3⟩ := hF f hf
  exact ⟨s, hs1, ts_tree_string_of_text (by simpa [separator] using hs3 true) hs2⟩

theorem string_of_visible_tree_witness :
    fully_visible 0 demo_heap demo_arrays 3 ∧
    (∃ F, ∀ f, F ≤ f → ∃ s, render 0 demo_names f demo_heap demo_arrays 3 = some s ∧
      ts_tree_string 0 demo_names f demo_heap demo_arrays 3 = some (c_string s)) ∧
    render 0 demo_names 2 demo_heap demo_arrays 3 = some "(program (id) (num))" ∧
    ts_tree_string 0 demo_names 2 demo_heap demo_arrays 3
      = some (c_string "(program (id) (num))") ∧
    ts_tree_string 0 demo_names 1 demo_heap demo_arrays 1 = some (c_string "(id)") :=
  ⟨demo_fully_visible,
    string_of_visible_tree 0 demo_names demo_heap demo_arrays 3 demo_fully_visible,
    by decide, by decide, by decide⟩

/-- C12: hidden nodes are transparent to serialization: if child `H` of a visible node
`P` of another kind than the error kind is hidden and has the children `xs` (none, one or
many), then `ts_tree_string(P)` is `ts_tree_string` of the node `Q` obtained from `P` by
replacing `H` with `xs` spliced in at its position: every result for `P` is the result
for `Q` with the same fuel, and every result for `Q` is the result for `P` with one unit
more (the traversal of `P` is one level deeper). -/
theorem hidden_child_spliced (ts_builtin_sym_error : ts_symbol)
    (symbol_names : ts_symbol → String) (h : Heap) (ar : Arrays) (P Q H : Nat)
    (tP tQ tH : ts_tree) (pre post xs : List Nat)
    (hP : deref h P = some tP) (hvP : tP.is_hidden = false)
    (heP : tP.symbol ≠ ts_builtin_sym_error)
    (hdP : child_list ar tP = some (pre ++ H :: post))
    (hH : deref h H = some tH) (hhH : tH.is_hidden = true) (hdH : child_list ar tH = some xs)
    (hQ : deref h Q = some tQ) (hvQ : tQ.is_hidden = false) (hsQ : tQ.symbol = tP.symbol)
    (hdQ : child_list ar tQ = some (pre ++ xs ++ post)) :
    (∀ f b, ts_tree_string ts_builtin_sym_error symbol_names f h ar P = some b →
      ts_tree_string ts_builtin_sym_error symbol_names f h ar Q = some b) ∧
    (∀ f b, ts_tree_string ts_builtin_sym_error symbol_names f h ar Q = some b →
      ts_tree_string ts_builtin_sym_error symbol_names (f + 1) h ar P = some b) := by
  obtain ⟨h1, h2⟩ := hidden_splice_text symbol_names hP hvP heP hdP hH hhH hdH hQ hvQ hsQ hdQ
  constructor
  · intro f b hb
    rw [ts_tree_string_eq] at hb ⊢
    cases ht : tree_text ts_builtin_sym_error symbol_names f h ar P true with
    | none => simp [ht] at hb
    | some s =>
      rw [h1 f true s ht]
      simpa [ht] using hb
  · intro f b hb
    rw [ts_tree_string_eq] at hb ⊢
    cases ht : tree_text ts_builtin_sym_error symbol_names f h ar Q true with
    | none => simp [ht] at hb
    | some s =>
      rw [h2 f true s ht]
      simpa [ht] using hb

theorem hidden_child_spliced_witness :
    ((∀ f b, ts_tree_string 0 demo_names f wrapper_heap wrapper_arrays 4 = some b →
      ts_tree_string 0 demo_names f wrapper_heap wrapper_arrays 5 = some b) ∧
    (∀ f b, ts_tree_string 0 demo_names f wrapper_heap wrapper_arrays 5 = some b →
      ts_tree_string 0 demo_names (f + 1) wrapper_heap wrapper_arrays 4 = some b)) ∧
    ts_tree_string 0 demo_names 3 wrapper_heap wrapper_arrays 4
      = some (c_string "(program (id) (num))") ∧
    ts_tree_string 0 demo_names 3 wrapper_heap wrapper_arrays 5
      = some (c_string "(program (id) (num))") :=
  ⟨hidden_child_spliced 0 demo_names wrapper_heap wrapper_arrays 4 5 3
      ⟨1, 7, 2, 0, false, .children 2 2⟩ ⟨1, 7, 2, 0, false, .children 2 3⟩
      ⟨1, 8, 1, 0, true, .children 1 1⟩ [] [2] [1]
      rfl rfl (by decide) rfl rfl rfl rfl rfl rfl rfl rfl,
    by decide, by decide⟩

/-- C13, as stated, fails for `is_hidden` true: the node built by `ts_tree_make_error`
renders as `(ERROR)`, but once its `is_hidden` is set the traversal skips the test for the
error symbol and reads `data.children` of a node that holds `data.error`, so that no
`(ERROR)` is produced (the result is undefined). -/
theorem hidden_error_node_not_rendered :
    ts_tree_make_error 0 [] 97 [5] 1 0 = ([some ⟨1, 0, 1, 0, false, .error 97 [5]⟩], 1) ∧
    ts_tree_string 0 demo_names 4 [some ⟨1, 0, 1, 0, false, .error 97 [5]⟩] [] 1
      = some (c_string "(ERROR)") ∧
    ts_tree_string 0 demo_names 4 [some ⟨1, 0, 1, 0, true, .error 97 [5]⟩] [] 1 = none := by
  refine ⟨?_, ?_, ?_⟩ <;> decide

/-- C13, amended: for every node built via `ts_tree_make_error`, with any lookahead
character, expected-input list, size and offset (its `is_hidden` is false),
`ts_tree_string` returns exactly `(ERROR)`. -/
theorem error_node_string (ts_builtin_sym_error : ts_symbol)
    (symbol_names : ts_symbol → String) (h : Heap) (ar : Arrays) (lookahead_char : Nat)
    (expected_inputs : List ts_symbol) (size offset fuel : Nat) :
    ts_tree_string ts_builtin_sym_error symbol_names (fuel + 1)
      (ts_tree_make_error ts_builtin_sym_error h lookahead_char expected_inputs size offset).1
      ar
      (ts_tree_make_error ts_builtin_sym_error h lookahead_char expected_inputs size offset).2
      = some (c_string "(ERROR)") := by
  have hm := make_set_data h ts_builtin_sym_error size offset
    (.error lookahead_char expected_inputs) (h.length + 1)
  simp only [if_true] at hm
  have h2 : (ts_tree_make_error ts_builtin_sym_error h lookahead_char expected_inputs
      size offset).2 = h.length + 1 := rfl
  have h1 : (ts_tree_make_error ts_builtin_sym_error h lookahead_char expected_inputs
      size offset).1
      = set_data (ts_tree_make h ts_builtin_sym_error size offset).1
          (ts_tree_make h ts_builtin_sym_error size offset).2
          (.error lookahead_char expected_inputs) := rfl
  rw [h2, h1]
  apply ts_tree_string_of_text _ (by decide)
  rw [tree_text]
  simp [hm, separator]

/-- C14: for every symbol-name table, `ts_tree_string` of an absent (`NULL`) tree returns
exactly `(NULL)`. -/
theorem null_tree_string (ts_builtin_sym_error : ts_symbol) (symbol_names : ts_symbol → String)
    (h : Heap) (ar : Arrays) (fuel : Nat) :
    ts_tree_string ts_builtin_sym_error symbol_names (fuel + 1) h ar 0
      = some (c_string "(NULL)") := by
  apply ts_tree_string_of_text _ (by decide)
  rw [tree_text]
  simp

/-- C15 at the failing input, a tree that is one hidden leaf: the first pass computes
length 0 without touching the scratch buffer, and the second pass makes no call of
`snprintf`, so the one byte of the buffer returned is never written: it holds no
terminator. -/
theorem empty_text_leaves_buffer_unwritten :
    tree_write_to_string 0 demo_names 4 [some ⟨1, 9, 1, 0, true, .children 0 0⟩] []
      SCRATCH_STRING 1 0 0 true = some (SCRATCH_STRING, 0) ∧
    ts_tree_string 0 demo_names 4 [some ⟨1, 9, 1, 0, true, .children 0 0⟩] [] 1
      = some [none] := by
  refine ⟨?_, ?_⟩ <;> decide

/-- C17, as stated, fails: the contract on nodes does not keep a caller from handing one
array to two nodes.  After a leaf `L`, an array `[L]` from `malloc`, two nodes `P` and `Q`
of kind 7 built over that array, and the release of `L` and of `P`, the state is reached
by a caller that obeys the contract on nodes; it holds `Q`, and `Q` and its child `L` have
`ref_count = 1`.  But the release of `P` freed the array (tree.c, line 51), so that
`ts_tree_release(Q)` reads freed memory: it is undefined, whatever the fuel. -/
theorem shared_array_blocks_teardown :
    Reachable 0 obeys lone_owner_config ∧
    run 0 2 ⟨[], [], fun _ => 0⟩ lone_owner_moves = some lone_owner_config ∧
    1 ≤ lone_owner_config.held 3 ∧
    deref lone_owner_config.heap 3 = some ⟨1, 7, 1, 0, false, .children 1 1⟩ ∧
    deref lone_owner_config.heap 1 = some ⟨1, 5, 1, 0, false, .children 0 0⟩ ∧
    array_block lone_owner_config.arrays 1 = none ∧
    sole_owner 0 lone_owner_config.heap lone_owner_config.arrays 3 ∧
    ∀ fuel, ts_tree_release 0 fuel lone_owner_config.heap lone_owner_config.arrays 3
      = none := by
  refine ⟨lone_owner_reachable, rfl, by simp [lone_owner_config, give_up, acquire], rfl, rfl,
    rfl, ?_, ?_⟩
  · intro x t hx hd
    have hx3 : x = 3 := by
      rcases in_tree_root_cases hx with e | ⟨t3, c, h3, hc, _⟩
      · exact e
      · have e3 : t3 = ⟨1, 7, 1, 0, false, .children 1 1⟩ := by
          have : deref lone_owner_config.heap 3 = some ⟨1, 7, 1, 0, false, .children 1 1⟩ :=
            rfl
          rw [this] at h3
          exact (Option.some.inj h3).symm
        subst e3
        have : listed lone_owner_config.arrays ⟨1, 7, 1, 0, false, .children 1 1⟩ = [] := rfl
        rw [this] at hc
        simp at hc
    subst hx3
    have : deref lone_owner_config.heap 3 = some ⟨1, 7, 1, 0, false, .children 1 1⟩ := rfl
    rw [this] at hd
    have e := (Option.some.inj hd).symm
    subst e
    exact ⟨rfl, by decide⟩
  · exact release_freed_array_undefined 0 lone_owner_config.heap lone_owner_config.arrays 3
      ⟨1, 7, 1, 0, false, .children 1 1⟩ 0 1 rfl rfl (by decide) rfl rfl

/-- C17, amended: whole-tree teardown.  In a state reachable by a caller that keeps to
the contract on nodes and arrays (every array passed to `ts_tree_make_node` is `NULL` or
a block from `malloc` that no node points to already), let the caller hold a reference to
`root` and let every node of the tree below `root` have `ref_count = 1`, the nodes of the
error symbol listing no children (`ts_tree_make_node` was never given the error symbol).
Then a single `ts_tree_release(root)` returns (with every fuel from the address of the
root on), every node of the tree was live and is deallocated (no node is released again
after it was freed, or the call would not return), every cell outside the tree is
unchanged; and the child arrays of the tree were allocated and are freed, every other
array being unchanged. -/
theorem whole_tree_teardown (ts_builtin_sym_error : ts_symbol) (c : Config)
    (hr : Reachable ts_builtin_sym_error owning c) (root : Nat) (hheld : 1 ≤ c.held root)
    (hso : sole_owner ts_builtin_sym_error c.heap c.arrays root) (fuel : Nat)
    (hf : root ≤ fuel) :
    ∃ h1 ar1, ts_tree_release ts_builtin_sym_error fuel c.heap c.arrays root = some (h1, ar1) ∧
      (∀ x, in_tree c.heap c.arrays root x →
        (∃ t, deref c.heap x = some t) ∧ deref h1 x = none) ∧
      (∀ x, ¬ in_tree c.heap c.arrays root x → deref h1 x = deref c.heap x) ∧
      (∀ a, tree_array ts_builtin_sym_error c.heap c.arrays root a →
        (∃ b, array_block c.arrays a = some b) ∧ array_block ar1 a = none) ∧
      (∀ a, ¬ tree_array ts_builtin_sym_error c.heap c.arrays root a →
        array_block ar1 a = array_block c.arrays a) := by
  have hi := reachable_inv hr
  obtain ⟨h1, ar1, hrel, _⟩ := release_spec ts_builtin_sym_error fuel c.heap c.arrays c.held
    root hi.1 hheld hf
  obtain ⟨⟨hdead, hkeep⟩, ⟨hadead, hakeep⟩⟩ := teardown_char ts_builtin_sym_error fuel c.heap
    c.arrays c.held root (h1, ar1) hi.1 hheld hf hso hrel
  refine ⟨h1, ar1, hrel, ?_, hkeep, ?_, hakeep⟩
  · intro x hx
    refine ⟨?_, hdead x hx⟩
    have hlive : ∀ a y, in_tree c.heap c.arrays a y → (∃ t, deref c.heap a = some t) →
        ∃ t, deref c.heap y = some t := by
      intro a y hay
      induction hay with
      | root p => exact fun hp => hp
      | child hd hc _ ih => exact fun _ => ih (children_live_of_inv hi hd _ hc)
    exact hlive root x hx (live_of_held hi.1 hheld)
  · intro a ha
    refine ⟨?_, hadead a ha⟩
    obtain ⟨ha0, x, t, n, _, hx, _, hd⟩ := ha
    obtain ⟨b, hb, _⟩ := hi.1.shape.array_ok x t n a hx hd ha0
    exact ⟨b, hb⟩

theorem whole_tree_teardown_witness :
    Reachable 0 owning demo_config ∧ 1 ≤ demo_config.held 3 ∧
    sole_owner 0 demo_config.heap demo_config.arrays 3 ∧
    ∃ h1 ar1, ts_tree_release 0 3 demo_config.heap demo_config.arrays 3 = some (h1, ar1) ∧
      (∀ x, in_tree demo_config.heap demo_config.arrays 3 x →
        (∃ t, deref demo_config.heap x = some t) ∧ deref h1 x = none) ∧
      (∀ x, ¬ in_tree demo_config.heap demo_config.arrays 3 x →
        deref h1 x = deref demo_config.heap x) ∧
      (∀ a, tree_array 0 demo_config.heap demo_config.arrays 3 a →
        (∃ b, array_block demo_config.arrays a = some b) ∧ array_block ar1 a = none) ∧
      (∀ a, ¬ tree_array 0 demo_config.heap demo_config.arrays 3 a →
        array_block ar1 a = array_block demo_config.arrays a) :=
  ⟨demo_reachable, by simp [demo_config, give_up, acquire], demo_sole_owner,
    whole_tree_teardown 0 demo_config demo_reachable 3 (by simp [demo_config, give_up, acquire])
      demo_sole_owner 3 (le_refl 3)⟩

/-- C18: for every live node `N` with `ref_count >= 2`, `ts_tree_release(N)` lowers the
`ref_count` of `N` by exactly 1 and does nothing else: `N` stays allocated with its other
members unchanged, every other cell of the store (the children of `N` among them) is
unchanged, and no array is read or freed. -/
theorem release_only_decrements (ts_builtin_sym_error : ts_symbol) (h : Heap) (ar : Arrays)
    (N : Nat) (t : ts_tree) (hN : deref h N = some t) (hrc : 2 ≤ t.ref_count) (fuel : Nat) :
    ∃ h1, ts_tree_release ts_builtin_sym_error (fuel + 1) h ar N = some (h1, ar) ∧
      deref h1 N = some { t with ref_count := t.ref_count - 1 } ∧
      (∀ q, q ≠ N → deref h1 q = deref h q) ∧ h1.length = h.length := by
  have hb := deref_some_bounds hN
  refine ⟨_, release_shared ts_builtin_sym_error ar fuel hN (by omega), deref_write_same _ hb,
    fun q hq => deref_write_ne h _ hq, write_length _ _ _⟩

theorem release_only_decrements_witness :
    deref shared_heap 1 = some ⟨2, 5, 1, 0, false, .children 0 0⟩ ∧
    ∃ h1, ts_tree_release 0 (0 + 1) shared_heap demo_arrays 1 = some (h1, demo_arrays) ∧
      deref h1 1 = some ⟨2 - 1, 5, 1, 0, false, .children 0 0⟩ ∧
      (∀ q, q ≠ 1 → deref h1 q = deref shared_heap q) ∧ h1.length = shared_heap.length :=
  ⟨rfl, release_only_decrements 0 shared_heap demo_arrays 1 ⟨2, 5, 1, 0, false, .children 0 0⟩
    rfl (by decide) 0⟩

/-- C20: equality implies identical serialization on fully visible trees: for every
symbol-name table and all trees `a` and `b` in which no node is hidden and no child is
absent, if `ts_tree_equals(a, b)` is true then, with every fuel from some bound on,
`ts_tree_string(a)` and `ts_tree_string(b)` return the same string. -/
theorem equal_trees_same_string (ts_builtin_sym_error : ts_symbol)
    (symbol_names : ts_symbol → String) (h : Heap) (ar : Arrays) (a b fuel : Nat)
    (ha : fully_visible ts_builtin_sym_error h ar a)
    (hb : fully_visible ts_builtin_sym_error h ar b)
    (heq : ts_tree_equals ts_builtin_sym_error fuel h ar a b = some true) :
    ∃ F, ∀ f, F ≤ f → ∃ s,
      ts_tree_string ts_builtin_sym_error symbol_names f h ar a = some (c_string s) ∧
      ts_tree_string ts_builtin_sym_error symbol_names f h ar b = some (c_string s) := by
  obtain ⟨Fa, hFa⟩ := text_of_fully_visible symbol_names ha
  obtain ⟨Fb, hFb⟩ := text_of_fully_visible symbol_names hb
  refine ⟨max Fa Fb, ?_⟩
  intro f hf
  obtain ⟨sa, ra, na, ta⟩ := hFa f (by omega)
  obtain ⟨sb, rb, nb, tb⟩ := hFb f (by omega)
  have e := equals_render ts_builtin_sym_error symbol_names h ar fuel a b heq f f sa sb ra rb
  subst e
  exact ⟨sa, ts_tree_string_of_text (by simpa [separator] using ta true) na,
    ts_tree_string_of_text (by simpa [separator] using tb true) nb⟩

theorem equal_trees_same_string_witness :
    fully_visible 0 pair_heap twin_arrays 3 ∧ fully_visible 0 pair_heap twin_arrays 4 ∧
    ts_tree_equals 0 2 pair_heap twin_arrays 3 4 = some true ∧
    (∃ F, ∀ f, F ≤ f → ∃ s,
      ts_tree_string 0 demo_names f pair_heap twin_arrays 3 = some (c_string s) ∧
      ts_tree_string 0 demo_names f pair_heap twin_arrays 4 = some (c_string s)) ∧
    ts_tree_string 0 demo_names 2 pair_heap twin_arrays 3 = some (c_string "(program (id))") ∧
    ts_tree_string 0 demo_names 2 pair_heap twin_arrays 4 = some (c_string "(program (id))") :=
  ⟨pair_fully_visible.1, pair_fully_visible.2, rfl,
    equal_trees_same_string 0 demo_names pair_heap twin_arrays 3 4 2 pair_fully_visible.1
      pair_fully_visible.2 rfl,
    by decide, by decide⟩

end TreeSitter
